import Mathlib

/-!
# go_str_optimize_convertor: the tree-transformation engine of `convertor.go`

A shallow embedding of the rewriting passes of `convertor.go` and proofs about them.

* Go strings are byte sequences: `GoString` is a list of byte values.
* The `go/ast` node kinds the passes look at are the constructors of `Expr`, `Stmt` and `Decl`.
* `astutil.Apply` and `ast.Inspect` are unfolded into one recursive traversal per pass; the
  `pre` callback of each pass is a definition of its own.
* Node identity (the key of the `nodesInLoop` table) is the position of the node in the tree.
-/

namespace Convertor

/-! ## Strings -/

/-- A Go string: its bytes, in order. -/
abbrev GoString := List Nat

/-- The bytes of an ASCII text. -/
def ascii (s : String) : GoString := s.toList.map Char.toNat

/-- The byte `"`. -/
def dquote : Nat := 34

/-- The byte `\`. -/
def backslash : Nat := 92

/-- The constant `bufSize`. -/
def bufSize : Nat := 32

/-- Go's `strings.Trim(s, cutset)` for a cutset of one ASCII byte `c`: every leading and every
trailing `c` is removed. -/
def Trim (s : GoString) (c : Nat) : GoString :=
  (s.dropWhile (fun b => b == c)).rdropWhile (fun b => b == c)

/-- The digit table `"0123456789abcdef"` of `strconv`. -/
def lowerhex (n : Nat) : Nat := if n < 10 then 48 + n else 87 + n

/-- What `strconv.Quote` writes for one byte `r` of the quoted text (`appendEscapedRune`): the
quote and the backslash get a backslash, printable ASCII is copied, control characters are
escaped.  This is Go's behaviour on every byte below `0x80`.  A byte from `0x80` on is copied
here; Go decodes UTF-8 there, copies the bytes of a printable rune, and writes a hexadecimal
escape for a byte of invalid UTF-8 and a unicode escape for a rune that is not printable;
these two escapes are not modelled, so `Quote` stands for `%q` on ASCII texts and on texts of
printable runes only.  Every theorem on the value of `Quote` is stated for ASCII contents. -/
def appendEscapedRune (r : Nat) : GoString :=
  if r = dquote ∨ r = backslash then [backslash, r]
  else if 32 ≤ r ∧ r < 127 then [r]
  else if r = 7 then [backslash, 97]
  else if r = 8 then [backslash, 98]
  else if r = 12 then [backslash, 102]
  else if r = 10 then [backslash, 110]
  else if r = 13 then [backslash, 114]
  else if r = 9 then [backslash, 116]
  else if r = 11 then [backslash, 118]
  else if r < 32 ∨ r = 127 then [backslash, 120, lowerhex (r / 16), lowerhex (r % 16)]
  else [r]

/-- Go's `fmt.Sprintf("%q", s)`, that is `strconv.Quote(s)`: the escaped bytes between two
double quotes. -/
def Quote (s : GoString) : GoString :=
  dquote :: (s.flatMap appendEscapedRune ++ [dquote])

/-- A byte of printable ASCII other than the double quote and the backslash. -/
def plainByte (b : Nat) : Bool := decide (32 ≤ b) && decide (b < 127) && b != dquote && b != backslash

/-- A text of printable ASCII without quote or backslash characters. -/
def plain (s : GoString) : Bool := s.all plainByte

/-! ## `splitChunks` -/

/-- The loop of `splitChunks`: `i` is the loop variable, `chunks` the slice built so far.  Each
turn appends `s[i:end]` and adds `size` to `i`; `fuel` bounds the number of turns. -/
def splitChunksLoop (s : GoString) (size : Nat) : Nat → Nat → List GoString → List GoString
  | 0, _, chunks => chunks
  | fuel + 1, i, chunks =>
    if i < s.length then
      let end_ := if i + size > s.length then s.length else i + size
      splitChunksLoop s size fuel (i + size) (chunks ++ [(s.drop i).take (end_ - i)])
    else chunks

/-- The function `splitChunks(s, size)`.  For `size > 0` the loop takes at most `len(s)` turns
(`splitChunksLoop_fuel`). -/
def splitChunks (s : GoString) (size : Nat) : List GoString :=
  splitChunksLoop s size s.length 0 []

/-! ## Syntax trees (`go/ast`) -/

/-- The tokens of `go/token` that occur in the modelled trees. -/
inductive Token where
  | INT | FLOAT | CHAR | STRING
  | ADD | SUB | MUL | QUO | REM
  | EQL | NEQ | LSS | GTR | LAND | LOR
  | ASSIGN | DEFINE | ADD_ASSIGN | SUB_ASSIGN | MUL_ASSIGN
  | INC | DEC
  | VAR | CONST
  deriving DecidableEq, Repr

/-- An expression node (`ast.Expr`).  `Nil` is the nil interface value (an absent expression).
The modelled expressions hold no statements (no function literals). -/
inductive Expr where
  | Nil
  | Ident (Name : String)
  | BasicLit (Kind : Token) (Value : GoString)
  | BinaryExpr (X : Expr) (Op : Token) (Y : Expr)
  | ParenExpr (X : Expr)
  | SelectorExpr (X : Expr) (Sel : String)
  | CallExpr (Fun : Expr) (Args : List Expr)

/-- A variable or constant specification (`ast.ValueSpec`): names, type, initial values. -/
structure ValueSpec where
  Names : List String
  Typ : Expr
  Values : List Expr

/-- A parameter or result of a function (`ast.Field`). -/
structure Field where
  Names : List String
  Typ : Expr

/-- A statement node (`ast.Stmt`).  `Nil` is an absent statement (the missing `Init`, `Post` or
`Else`).  `DeclStmt tok specs` is a `DeclStmt` holding the `GenDecl` with that token and
those specifications.  The body of an `if`, `for` or `range` statement is the statement list of
its `BlockStmt`. -/
inductive Stmt where
  | Nil
  | ExprStmt (X : Expr)
  | AssignStmt (Lhs : List Expr) (Tok : Token) (Rhs : List Expr)
  | IncDecStmt (X : Expr) (Tok : Token)
  | DeclStmt (Tok : Token) (Specs : List ValueSpec)
  | ReturnStmt (Results : List Expr)
  | BlockStmt (Stmts : List Stmt)
  | IfStmt (Init : Stmt) (Cond : Expr) (Body : List Stmt) (Else : Stmt)
  | ForStmt (Init : Stmt) (Cond : Expr) (Post : Stmt) (Body : List Stmt)
  | RangeStmt (Key : Expr) (Value : Expr) (Tok : Token) (X : Expr) (Body : List Stmt)

/-- A top-level declaration other than an import declaration. -/
inductive Decl where
  | GenDecl (Tok : Token) (Specs : List ValueSpec)
  | FuncDecl (Name : String) (Params : List Field) (Results : List Field) (Body : List Stmt)

/-- An import (`ast.ImportSpec`): the optional local name and the text of the path literal
(`Path.Value`, quotes included). -/
structure ImportSpec where
  Name : Option String
  Path : GoString

/-- A file (`ast.File`): the imports (`f.Imports`, which also stands for the import
declarations) and the other declarations. -/
structure File where
  Name : String
  Imports : List ImportSpec
  Decls : List Decl

/-! ## Flattening, chunking and rebuilding -/

/-- The function `flattenConcat`. -/
def flattenConcat : Expr → List Expr
  | .BinaryExpr x op y =>
    if op = .ADD then flattenConcat x ++ flattenConcat y else [.BinaryExpr x op y]
  | e => [e]

/-- The function `makeFlatBinaryExpr`. -/
def makeFlatBinaryExpr : List Expr → Expr
  | [] => .Nil
  | e :: exprs => exprs.foldl (fun result expr => .BinaryExpr result .ADD expr) e

/-- The function `chunkString`. -/
def chunkString (s : GoString) : Expr :=
  let unquoted := Trim s dquote
  let chunks := splitChunks unquoted bufSize
  makeFlatBinaryExpr (chunks.map (fun chunk => .BasicLit .STRING (Quote chunk)))

/-- The loop of `processConcatExpr` over the parts, `i` being the index of the first one: what
the parts add to `newParts`. -/
def processParts (first : Bool) : Nat → List Expr → List Expr
  | _, [] => []
  | i, part :: parts =>
    (if i = 0 ∧ first = true then [part]
     else match part with
       | .BasicLit kind value =>
         if kind = .STRING then flattenConcat (chunkString value) else [part]
       | _ => [part])
    ++ processParts first (i + 1) parts

/-- The function `processConcatExpr`. -/
def processConcatExpr (expr : Expr) (first : Bool) : Expr :=
  makeFlatBinaryExpr (processParts first 0 (flattenConcat expr))

/-- The function `isPureStringConcat`. -/
def isPureStringConcat : Expr → Bool
  | .BasicLit kind _ => kind = .STRING
  | .BinaryExpr x op y =>
    if op ≠ .ADD then false else isPureStringConcat x && isPureStringConcat y
  | _ => false

/-! ## Synthesized nodes -/

/-- The statement `var <builderName> strings.Builder`. -/
def builderDecl (builderName : String) : Stmt :=
  .DeclStmt .VAR [⟨[builderName], .SelectorExpr (.Ident "strings") "Builder", []⟩]

/-- The statement `<builderName>.WriteString(<arg>)`. -/
def writeStringStmt (builderName : String) (arg : Expr) : Stmt :=
  .ExprStmt (.CallExpr (.SelectorExpr (.Ident builderName) "WriteString") [arg])

/-- The expression `<builderName>.String()`. -/
def builderString (builderName : String) : Expr :=
  .CallExpr (.SelectorExpr (.Ident builderName) "String") []

/-! ## Node identity and the loop-membership table

`collectNodesInForLoop` keys its table by node (pointer identity).  A parsed file is a tree, so
a node is identified by its position: the path from the root, one field number per step and,
for a field that is a list, the index in the list as a further step.  The table is the list of
the keys that were set to `true`; a lookup of an absent key gives `false`, as in Go. -/

/-- The position of a node in the tree. -/
abbrev Path := List Nat

/-- The paths of the identifiers `Names[i]`, `Names[i+1]`, ... under the field at `p`. -/
def markNames (p : Path) : Nat → List String → List Path
  | _, [] => []
  | i, _ :: names => (p ++ [i]) :: markNames p (i + 1) names

mutual
/-- The inner `ast.Inspect` of `collectNodesInForLoop` on an expression at position `p`: every
node that is not nil is entered in the table. -/
def markExpr (p : Path) : Expr → List Path
  | .Nil => []
  | .Ident _ => [p]
  | .BasicLit _ _ => [p]
  | .BinaryExpr x _ y => p :: (markExpr (p ++ [0]) x ++ markExpr (p ++ [1]) y)
  | .ParenExpr x => p :: markExpr (p ++ [0]) x
  | .SelectorExpr x _ => p :: (markExpr (p ++ [0]) x ++ [p ++ [1]])
  | .CallExpr f args => p :: (markExpr (p ++ [0]) f ++ markExprs (p ++ [1]) 0 args)
/-- The same on the elements of a list field at `p`, from index `i` on. -/
def markExprs (p : Path) : Nat → List Expr → List Path
  | _, [] => []
  | i, e :: es => markExpr (p ++ [i]) e ++ markExprs p (i + 1) es
end

/-- The inner `ast.Inspect` on a specification at position `p`. -/
def markSpec (p : Path) (spec : ValueSpec) : List Path :=
  p :: (markNames (p ++ [0]) 0 spec.Names ++ markExpr (p ++ [1]) spec.Typ
    ++ markExprs (p ++ [2]) 0 spec.Values)

/-- The inner `ast.Inspect` on the specifications of a list field at `p`, from index `i` on. -/
def markSpecs (p : Path) : Nat → List ValueSpec → List Path
  | _, [] => []
  | i, spec :: specs => markSpec (p ++ [i]) spec ++ markSpecs p (i + 1) specs

mutual
/-- The inner `ast.Inspect` of `collectNodesInForLoop` on a statement at position `p`. -/
def markStmt (p : Path) : Stmt → List Path
  | .Nil => []
  | .ExprStmt x => p :: markExpr (p ++ [0]) x
  | .AssignStmt lhs _ rhs => p :: (markExprs (p ++ [0]) 0 lhs ++ markExprs (p ++ [1]) 0 rhs)
  | .IncDecStmt x _ => p :: markExpr (p ++ [0]) x
  | .DeclStmt _ specs => p :: (p ++ [0]) :: markSpecs (p ++ [0, 0]) 0 specs
  | .ReturnStmt results => p :: markExprs (p ++ [0]) 0 results
  | .BlockStmt stmts => p :: markStmts (p ++ [0]) 0 stmts
  | .IfStmt init cond body els =>
    p :: (markStmt (p ++ [0]) init ++ markExpr (p ++ [1]) cond
      ++ ((p ++ [2]) :: markStmts (p ++ [2, 0]) 0 body) ++ markStmt (p ++ [3]) els)
  | .ForStmt init cond post body =>
    p :: (markStmt (p ++ [0]) init ++ markExpr (p ++ [1]) cond ++ markStmt (p ++ [2]) post
      ++ ((p ++ [3]) :: markStmts (p ++ [3, 0]) 0 body))
  | .RangeStmt key value _ x body =>
    p :: (markExpr (p ++ [0]) key ++ markExpr (p ++ [1]) value ++ markExpr (p ++ [2]) x
      ++ ((p ++ [3]) :: markStmts (p ++ [3, 0]) 0 body))
/-- The same on the statements of a list field at `p`, from index `i` on. -/
def markStmts (p : Path) : Nat → List Stmt → List Path
  | _, [] => []
  | i, s :: ss => markStmt (p ++ [i]) s ++ markStmts p (i + 1) ss
end

mutual
/-- The outer `ast.Inspect` of `collectNodesInForLoop` on a statement at position `p`: at a
`ForStmt` the body (the block at field 3) and all its descendants are entered, and the walk
goes on into the children.  Expressions hold no statements, so nothing is found in them. -/
def collectStmt (p : Path) : Stmt → List Path
  | .BlockStmt stmts => collectStmts (p ++ [0]) 0 stmts
  | .IfStmt init _ body els =>
    collectStmt (p ++ [0]) init ++ collectStmts (p ++ [2, 0]) 0 body ++ collectStmt (p ++ [3]) els
  | .ForStmt init _ post body =>
    ((p ++ [3]) :: markStmts (p ++ [3, 0]) 0 body)
      ++ (collectStmt (p ++ [0]) init ++ collectStmt (p ++ [2]) post
        ++ collectStmts (p ++ [3, 0]) 0 body)
  | .RangeStmt _ _ _ _ body => collectStmts (p ++ [3, 0]) 0 body
  | _ => []
/-- The same on the statements of a list field at `p`, from index `i` on. -/
def collectStmts (p : Path) : Nat → List Stmt → List Path
  | _, [] => []
  | i, s :: ss => collectStmt (p ++ [i]) s ++ collectStmts p (i + 1) ss
end

/-- The outer `ast.Inspect` on a declaration at position `p`; the body of a function is the
block at field 2. -/
def collectDecl (p : Path) : Decl → List Path
  | .GenDecl _ _ => []
  | .FuncDecl _ _ _ body => collectStmts (p ++ [2, 0]) 0 body

/-- The same on the declarations of the file (field 1), from index `i` on. -/
def collectDecls (p : Path) : Nat → List Decl → List Path
  | _, [] => []
  | i, d :: ds => collectDecl (p ++ [i]) d ++ collectDecls p (i + 1) ds

/-- The function `collectNodesInForLoop`: the keys of the table it returns. -/
def collectNodesInForLoop (f : File) : List Path :=
  collectDecls [1] 0 f.Decls

/-! ## `transformNonLoopAddAssign` -/

/-- The callback of `transformNonLoopAddAssign` at the statement `node` found at position `p`:
`some b` when it calls `cursor.Replace(b)` and returns false, `none` when it returns true
without a change.  (`assign.Rhs[0]` of an assignment without right side, which no parser
makes, is read as the absent expression.) -/
def nonLoopPre (nodesInLoop : List Path) (p : Path) (node : Stmt) : Option Stmt :=
  match node with
  | .AssignStmt lhs tok rhs =>
    if tok ≠ .ADD_ASSIGN ∨ lhs.length ≠ 1 then none
    else match lhs.head? with
      | some (.Ident varName) =>
        if nodesInLoop.contains p then none
        else
          let builderName := varName ++ "Builder"
          let newExpr := processConcatExpr (rhs.headD .Nil) false
          some (.BlockStmt [
            builderDecl builderName,
            writeStringStmt builderName (.Ident varName),
            writeStringStmt builderName newExpr,
            .AssignStmt [.Ident varName] .ASSIGN [builderString builderName]])
      | _ => none
  | _ => none

mutual
/-- The walk of `astutil.Apply` with the callback of `transformNonLoopAddAssign`, on the
statement at position `p`: a replaced node is not walked, any other node has its children
walked.  Only statements can match, and expressions hold none, so they stay as they are. -/
def nonLoopStmt (nodesInLoop : List Path) (p : Path) (s : Stmt) : Stmt :=
  match nonLoopPre nodesInLoop p s with
  | some b => b
  | none =>
    match s with
    | .BlockStmt stmts => .BlockStmt (nonLoopStmts nodesInLoop (p ++ [0]) 0 stmts)
    | .IfStmt init cond body els =>
      .IfStmt (nonLoopStmt nodesInLoop (p ++ [0]) init) cond
        (nonLoopStmts nodesInLoop (p ++ [2, 0]) 0 body) (nonLoopStmt nodesInLoop (p ++ [3]) els)
    | .ForStmt init cond post body =>
      .ForStmt (nonLoopStmt nodesInLoop (p ++ [0]) init) cond
        (nonLoopStmt nodesInLoop (p ++ [2]) post) (nonLoopStmts nodesInLoop (p ++ [3, 0]) 0 body)
    | .RangeStmt key value tok x body =>
      .RangeStmt key value tok x (nonLoopStmts nodesInLoop (p ++ [3, 0]) 0 body)
    | s => s
/-- The same on the statements of a list field at `p`, from index `i` on. -/
def nonLoopStmts (nodesInLoop : List Path) (p : Path) : Nat → List Stmt → List Stmt
  | _, [] => []
  | i, s :: ss => nonLoopStmt nodesInLoop (p ++ [i]) s :: nonLoopStmts nodesInLoop p (i + 1) ss
end

/-- The walk of `transformNonLoopAddAssign` on a declaration at position `p`. -/
def nonLoopDecl (nodesInLoop : List Path) (p : Path) : Decl → Decl
  | .GenDecl tok specs => .GenDecl tok specs
  | .FuncDecl name params results body =>
    .FuncDecl name params results (nonLoopStmts nodesInLoop (p ++ [2, 0]) 0 body)

/-- The same on the declarations of the file, from index `i` on. -/
def nonLoopDecls (nodesInLoop : List Path) (p : Path) : Nat → List Decl → List Decl
  | _, [] => []
  | i, d :: ds => nonLoopDecl nodesInLoop (p ++ [i]) d :: nonLoopDecls nodesInLoop p (i + 1) ds

/-- The function `transformNonLoopAddAssign`. -/
def transformNonLoopAddAssign (f : File) (nodesInLoop : List Path) : File :=
  { f with Decls := nonLoopDecls nodesInLoop [1] 0 f.Decls }

/-! ## `transformForLoopConcatenation` -/

mutual
/-- The `ast.Inspect` of `transformForLoopConcatenation` on a statement: the names of the
targets of the compound add-assigns with one plain name on the left, in the order of the walk
(`Init`, `Post`, `Body` for a loop; `Init`, `Body`, `Else` for an `if`). -/
def concatVarsStmt : Stmt → List String
  | .AssignStmt lhs tok _ =>
    if tok = .ADD_ASSIGN ∧ lhs.length = 1 then
      match lhs.head? with
      | some (.Ident name) => [name]
      | _ => []
    else []
  | .BlockStmt stmts => concatVarsStmts stmts
  | .IfStmt init _ body els => concatVarsStmt init ++ concatVarsStmts body ++ concatVarsStmt els
  | .ForStmt init _ post body => concatVarsStmt init ++ concatVarsStmt post ++ concatVarsStmts body
  | .RangeStmt _ _ _ _ body => concatVarsStmts body
  | _ => []
/-- The same on a statement list. -/
def concatVarsStmts : List Stmt → List String
  | [] => []
  | s :: ss => concatVarsStmt s ++ concatVarsStmts ss
end

/-- One turn of the loop `for i, stmt := range newBody.List`: what `newBody.List[i]` holds
after it.  (`assign.Lhs[0]` of an assignment without left side, which no parser makes, is read
as no identifier.) -/
def rewriteLoopStmt (varName builderName : String) (stmt : Stmt) : Stmt :=
  match stmt with
  | .AssignStmt lhs tok rhs =>
    if tok = .ADD_ASSIGN then
      match lhs.head? with
      | some (.Ident name) =>
        if name = varName then
          writeStringStmt builderName (processConcatExpr (rhs.headD .Nil) false)
        else stmt
      | _ => stmt
    else stmt
  | _ => stmt

/-- One turn of the loop `for _, varName := range concatVars` at the loop statement
`for init; cond; post`.  The state is the statement list of the body, which every copy
`newBody` shares with `forStmt.Body` (the copy of the block copies the slice header, not the
statements), and the block last given to `cursor.Replace`. -/
def forLoopStep (init : Stmt) (cond : Expr) (post : Stmt) (st : List Stmt × Option Stmt)
    (varName : String) : List Stmt × Option Stmt :=
  let builderName := varName ++ "Builder"
  let newBody := st.1.map (rewriteLoopStmt varName builderName)
  let declStmt := builderDecl builderName
  let assignStmt := Stmt.AssignStmt [.Ident varName] .ASSIGN
    [.BinaryExpr (.Ident varName) .ADD (builderString builderName)]
  let newFor := Stmt.ForStmt init cond post newBody
  (newBody, some (.BlockStmt [declStmt, newFor, assignStmt]))

/-- The callback of `transformForLoopConcatenation` at the statement `node`: `some b` when it
returns false with `b` the node that stands in the place of the loop after the last
`cursor.Replace`, `none` when it returns true without a change. -/
def forLoopPre (node : Stmt) : Option Stmt :=
  match node with
  | .ForStmt init cond post body =>
    let concatVars := concatVarsStmts body
    if concatVars.length = 0 then none
    else (concatVars.foldl (forLoopStep init cond post) (body, none)).2
  | _ => none

mutual
/-- The walk of `astutil.Apply` with the callback of `transformForLoopConcatenation` on a
statement.  Expressions hold no statements, so they stay as they are. -/
def forLoopStmt (s : Stmt) : Stmt :=
  match forLoopPre s with
  | some b => b
  | none =>
    match s with
    | .BlockStmt stmts => .BlockStmt (forLoopStmts stmts)
    | .IfStmt init cond body els =>
      .IfStmt (forLoopStmt init) cond (forLoopStmts body) (forLoopStmt els)
    | .ForStmt init cond post body =>
      .ForStmt (forLoopStmt init) cond (forLoopStmt post) (forLoopStmts body)
    | .RangeStmt key value tok x body => .RangeStmt key value tok x (forLoopStmts body)
    | s => s
/-- The same on a statement list. -/
def forLoopStmts : List Stmt → List Stmt
  | [] => []
  | s :: ss => forLoopStmt s :: forLoopStmts ss
end

/-- The walk of `transformForLoopConcatenation` on a declaration. -/
def forLoopDecl : Decl → Decl
  | .GenDecl tok specs => .GenDecl tok specs
  | .FuncDecl name params results body => .FuncDecl name params results (forLoopStmts body)

/-- The function `transformForLoopConcatenation`. -/
def transformForLoopConcatenation (f : File) : File :=
  { f with Decls := f.Decls.map forLoopDecl }

/-! ## `transformBinaryConcat` -/

/-- The callback of `transformBinaryConcat` at the expression `node`: `some e` when it calls
`cursor.Replace(e)` and returns false, `none` when it returns true without a change. -/
def binaryConcatPre (node : Expr) : Option Expr :=
  match node with
  | .BinaryExpr x op y =>
    if op ≠ .ADD then none
    else if isPureStringConcat (.BinaryExpr x op y) then
      some (processConcatExpr (.BinaryExpr x op y) true)
    else none
  | _ => none

mutual
/-- The walk of `astutil.Apply` with the callback of `transformBinaryConcat` on an
expression: a replaced node is not walked, any other node has its children walked. -/
def binaryConcatExpr (e : Expr) : Expr :=
  match binaryConcatPre e with
  | some r => r
  | none =>
    match e with
    | .BinaryExpr x op y => .BinaryExpr (binaryConcatExpr x) op (binaryConcatExpr y)
    | .ParenExpr x => .ParenExpr (binaryConcatExpr x)
    | .SelectorExpr x sel => .SelectorExpr (binaryConcatExpr x) sel
    | .CallExpr f args => .CallExpr (binaryConcatExpr f) (binaryConcatExprs args)
    | e => e
/-- The same on an expression list. -/
def binaryConcatExprs : List Expr → List Expr
  | [] => []
  | e :: es => binaryConcatExpr e :: binaryConcatExprs es
end

/-- The walk of `transformBinaryConcat` on a specification. -/
def binaryConcatSpec (spec : ValueSpec) : ValueSpec :=
  ⟨spec.Names, binaryConcatExpr spec.Typ, binaryConcatExprs spec.Values⟩

/-- The walk of `transformBinaryConcat` on a parameter or result. -/
def binaryConcatField (fld : Field) : Field :=
  ⟨fld.Names, binaryConcatExpr fld.Typ⟩

mutual
/-- The walk of `transformBinaryConcat` on a statement. -/
def binaryConcatStmt : Stmt → Stmt
  | .Nil => .Nil
  | .ExprStmt x => .ExprStmt (binaryConcatExpr x)
  | .AssignStmt lhs tok rhs => .AssignStmt (binaryConcatExprs lhs) tok (binaryConcatExprs rhs)
  | .IncDecStmt x tok => .IncDecStmt (binaryConcatExpr x) tok
  | .DeclStmt tok specs => .DeclStmt tok (specs.map binaryConcatSpec)
  | .ReturnStmt results => .ReturnStmt (binaryConcatExprs results)
  | .BlockStmt stmts => .BlockStmt (binaryConcatStmts stmts)
  | .IfStmt init cond body els =>
    .IfStmt (binaryConcatStmt init) (binaryConcatExpr cond) (binaryConcatStmts body)
      (binaryConcatStmt els)
  | .ForStmt init cond post body =>
    .ForStmt (binaryConcatStmt init) (binaryConcatExpr cond) (binaryConcatStmt post)
      (binaryConcatStmts body)
  | .RangeStmt key value tok x body =>
    .RangeStmt (binaryConcatExpr key) (binaryConcatExpr value) tok (binaryConcatExpr x)
      (binaryConcatStmts body)
/-- The same on a statement list. -/
def binaryConcatStmts : List Stmt → List Stmt
  | [] => []
  | s :: ss => binaryConcatStmt s :: binaryConcatStmts ss
end

/-- The walk of `transformBinaryConcat` on a declaration. -/
def binaryConcatDecl : Decl → Decl
  | .GenDecl tok specs => .GenDecl tok (specs.map binaryConcatSpec)
  | .FuncDecl name params results body =>
    .FuncDecl name (params.map binaryConcatField) (results.map binaryConcatField)
      (binaryConcatStmts body)

/-- The function `transformBinaryConcat`. -/
def transformBinaryConcat (f : File) : File :=
  { f with Decls := f.Decls.map binaryConcatDecl }

/-! ## `removeParens`

`cursor.Replace` puts the new node in the field of the parent that held the visited node, and
`astutil.Apply` then walks the children of the node it visited, not the new node.  After
`cursor.Replace(parenExpr.X)` the visited grouping `P` is out of the tree and the walk visits
its child `P.X`, now the node in the tree, as a child of `P`: when that child is a grouping
too, its own replacement is written into `P` and lost, while the children of the child are
still visited in place. -/

mutual
/-- The walk of `astutil.Apply` with the callback of `removeParens` on an expression.
`detached` tells that the node is visited as the child of a grouping that has just been
replaced by it: a `cursor.Replace` at this node then writes into the replaced grouping. -/
def removeParensExpr (detached : Bool) : Expr → Expr
  | .ParenExpr x =>
    if detached then .ParenExpr (removeParensExpr false x) else removeParensExpr true x
  | .BinaryExpr x op y => .BinaryExpr (removeParensExpr false x) op (removeParensExpr false y)
  | .SelectorExpr x sel => .SelectorExpr (removeParensExpr false x) sel
  | .CallExpr f args => .CallExpr (removeParensExpr false f) (removeParensExprs args)
  | e => e
/-- The same on an expression list; every element is visited in its place. -/
def removeParensExprs : List Expr → List Expr
  | [] => []
  | e :: es => removeParensExpr false e :: removeParensExprs es
end

/-- The walk of `removeParens` on a specification. -/
def removeParensSpec (spec : ValueSpec) : ValueSpec :=
  ⟨spec.Names, removeParensExpr false spec.Typ, removeParensExprs spec.Values⟩

/-- The walk of `removeParens` on a parameter or result. -/
def removeParensField (fld : Field) : Field :=
  ⟨fld.Names, removeParensExpr false fld.Typ⟩

mutual
/-- The walk of `removeParens` on a statement. -/
def removeParensStmt : Stmt → Stmt
  | .Nil => .Nil
  | .ExprStmt x => .ExprStmt (removeParensExpr false x)
  | .AssignStmt lhs tok rhs => .AssignStmt (removeParensExprs lhs) tok (removeParensExprs rhs)
  | .IncDecStmt x tok => .IncDecStmt (removeParensExpr false x) tok
  | .DeclStmt tok specs => .DeclStmt tok (specs.map removeParensSpec)
  | .ReturnStmt results => .ReturnStmt (removeParensExprs results)
  | .BlockStmt stmts => .BlockStmt (removeParensStmts stmts)
  | .IfStmt init cond body els =>
    .IfStmt (removeParensStmt init) (removeParensExpr false cond) (removeParensStmts body)
      (removeParensStmt els)
  | .ForStmt init cond post body =>
    .ForStmt (removeParensStmt init) (removeParensExpr false cond) (removeParensStmt post)
      (removeParensStmts body)
  | .RangeStmt key value tok x body =>
    .RangeStmt (removeParensExpr false key) (removeParensExpr false value) tok
      (removeParensExpr false x) (removeParensStmts body)
/-- The same on a statement list. -/
def removeParensStmts : List Stmt → List Stmt
  | [] => []
  | s :: ss => removeParensStmt s :: removeParensStmts ss
end

/-- The walk of `removeParens` on a declaration. -/
def removeParensDecl : Decl → Decl
  | .GenDecl tok specs => .GenDecl tok (specs.map removeParensSpec)
  | .FuncDecl name params results body =>
    .FuncDecl name (params.map removeParensField) (results.map removeParensField)
      (removeParensStmts body)

/-- The function `removeParens`. -/
def removeParens (f : File) : File :=
  { f with Decls := f.Decls.map removeParensDecl }

/-! ## `ensureStringsImport` -/

/-- The test `ident, ok := sel.X.(*ast.Ident); ok && ident.Name == "strings"`. -/
def isStringsIdent : Expr → Bool
  | .Ident name => name = "strings"
  | _ => false

mutual
/-- The `ast.Inspect` of `ensureStringsImport` on an expression: whether `usesStrings` is set.
At a selector on the identifier `strings` the flag is set and the children are skipped. -/
def usesStringsExpr : Expr → Bool
  | .BinaryExpr x _ y => usesStringsExpr x || usesStringsExpr y
  | .ParenExpr x => usesStringsExpr x
  | .SelectorExpr x _ => if isStringsIdent x then true else usesStringsExpr x
  | .CallExpr f args => usesStringsExpr f || usesStringsExprs args
  | _ => false
/-- The same on an expression list. -/
def usesStringsExprs : List Expr → Bool
  | [] => false
  | e :: es => usesStringsExpr e || usesStringsExprs es
end

/-- The `ast.Inspect` of `ensureStringsImport` on a specification. -/
def usesStringsSpec (spec : ValueSpec) : Bool :=
  usesStringsExpr spec.Typ || usesStringsExprs spec.Values

mutual
/-- The `ast.Inspect` of `ensureStringsImport` on a statement. -/
def usesStringsStmt : Stmt → Bool
  | .Nil => false
  | .ExprStmt x => usesStringsExpr x
  | .AssignStmt lhs _ rhs => usesStringsExprs lhs || usesStringsExprs rhs
  | .IncDecStmt x _ => usesStringsExpr x
  | .DeclStmt _ specs => specs.any usesStringsSpec
  | .ReturnStmt results => usesStringsExprs results
  | .BlockStmt stmts => usesStringsStmts stmts
  | .IfStmt init cond body els =>
    usesStringsStmt init || usesStringsExpr cond || usesStringsStmts body || usesStringsStmt els
  | .ForStmt init cond post body =>
    usesStringsStmt init || usesStringsExpr cond || usesStringsStmt post || usesStringsStmts body
  | .RangeStmt key value _ x body =>
    usesStringsExpr key || usesStringsExpr value || usesStringsExpr x || usesStringsStmts body
/-- The same on a statement list. -/
def usesStringsStmts : List Stmt → Bool
  | [] => false
  | s :: ss => usesStringsStmt s || usesStringsStmts ss
end

/-- The `ast.Inspect` of `ensureStringsImport` on a declaration. -/
def usesStringsDecl : Decl → Bool
  | .GenDecl _ specs => specs.any usesStringsSpec
  | .FuncDecl _ params results body =>
    params.any (fun fld => usesStringsExpr fld.Typ)
      || results.any (fun fld => usesStringsExpr fld.Typ) || usesStringsStmts body

/-- The value of `usesStrings` after the `ast.Inspect` over the file.  (The import
declarations hold identifiers and literals only.) -/
def usesStrings (f : File) : Bool :=
  f.Decls.any usesStringsDecl

/-- The text `"strings"` of the import path, quotes included. -/
def stringsPathValue : GoString := dquote :: (ascii "strings" ++ [dquote])

/-- The call `astutil.AddImport(fs, f, "strings")` on the import list: nothing is added when
the file already has an import without a local name whose path literal denotes `strings`,
else one import of `"strings"` is added at the end.  `unquote` is `strconv.Unquote` as
`astutil` uses it to read a path literal (the empty text on an error); it is not part of this
program and is a parameter. -/
def AddImport (unquote : GoString → GoString) (f : File) : File :=
  if f.Imports.any (fun imp => imp.Name.isNone && unquote imp.Path == ascii "strings") then f
  else { f with Imports := f.Imports ++ [⟨none, stringsPathValue⟩] }

/-- The function `ensureStringsImport`. -/
def ensureStringsImport (unquote : GoString → GoString) (f : File) : File :=
  if f.Imports.any (fun imp => imp.Path == stringsPathValue) then f
  else if usesStrings f then AddImport unquote f
  else f

/-! ## `processFile` -/

mutual
/-- The `ast.Inspect` of `processFile` on a statement: whether `hasAddAssign` is set. -/
def hasAddAssignStmt : Stmt → Bool
  | .AssignStmt _ tok _ => tok = .ADD_ASSIGN
  | .BlockStmt stmts => hasAddAssignStmts stmts
  | .IfStmt init _ body els =>
    hasAddAssignStmt init || hasAddAssignStmts body || hasAddAssignStmt els
  | .ForStmt init _ post body =>
    hasAddAssignStmt init || hasAddAssignStmt post || hasAddAssignStmts body
  | .RangeStmt _ _ _ _ body => hasAddAssignStmts body
  | _ => false
/-- The same on a statement list. -/
def hasAddAssignStmts : List Stmt → Bool
  | [] => false
  | s :: ss => hasAddAssignStmt s || hasAddAssignStmts ss
end

/-- The value of `hasAddAssign` after the `ast.Inspect` over the file. -/
def hasAddAssign (f : File) : Bool :=
  f.Decls.any (fun d => match d with
    | .GenDecl _ _ => false
    | .FuncDecl _ _ _ body => hasAddAssignStmts body)

/-- The passes of `processFile` on the parsed file, in their order; the result is the tree
that is printed. -/
def processFile (unquote : GoString → GoString) (node : File) : File :=
  let node := if hasAddAssign node then
      transformForLoopConcatenation (transformNonLoopAddAssign node (collectNodesInForLoop node))
    else node
  ensureStringsImport unquote (removeParens (transformBinaryConcat node))

/-! ## Vocabulary of the properties -/

/-- Whether the expression is an addition node. -/
def isAddition : Expr → Bool
  | .BinaryExpr _ op _ => op = .ADD
  | _ => false

/-- Whether the expression is a string literal (a basic literal of kind STRING). -/
def isStringLit : Expr → Bool
  | .BasicLit kind _ => kind = .STRING
  | _ => false

/-- The text of the string literal with content `c`: the content between double quotes. -/
def quoted (c : GoString) : GoString := dquote :: (c ++ [dquote])

/-- The string literal node with content `c`. -/
def strLit (c : GoString) : Expr := .BasicLit .STRING (quoted c)

/-- The content of a string literal with text `v`: the text without its first and its last
byte (the quotes). -/
def literalContent (v : GoString) : GoString := (v.drop 1).dropLast

/-- The texts of the literals of a left-associative chain of additions of string literals,
left to right; `none` when the expression is not such a chain. -/
def chainLits : Expr → Option (List GoString)
  | .BasicLit kind v => if kind = .STRING then some [v] else none
  | .BinaryExpr x op (.BasicLit kind v) =>
    if op = .ADD ∧ kind = .STRING then (chainLits x).map (fun vs => vs ++ [v]) else none
  | _ => none

mutual
/-- The texts of all string literals in an expression, left to right. -/
def stringLits : Expr → List GoString
  | .BasicLit kind v => if kind = .STRING then [v] else []
  | .BinaryExpr x _ y => stringLits x ++ stringLits y
  | .ParenExpr x => stringLits x
  | .SelectorExpr x _ => stringLits x
  | .CallExpr f args => stringLits f ++ stringLitsList args
  | _ => []
/-- The same for an expression list. -/
def stringLitsList : List Expr → List GoString
  | [] => []
  | e :: es => stringLits e ++ stringLitsList es
end

/-- Whether the statement is a compound add-assign with exactly one left-hand target that is
a plain identifier. -/
def isIdentAddAssign : Stmt → Bool
  | .AssignStmt [.Ident _] tok _ => tok = .ADD_ASSIGN
  | _ => false

mutual
/-- Whether every compound add-assign to one plain identifier in the statement lies inside
the body of a `for` statement; `inLoop` tells whether the statement itself lies in one. -/
def targetsInLoopStmt (inLoop : Bool) : Stmt → Bool
  | .AssignStmt lhs tok rhs => inLoop || !isIdentAddAssign (.AssignStmt lhs tok rhs)
  | .BlockStmt stmts => targetsInLoopStmts inLoop stmts
  | .IfStmt init _ body els =>
    targetsInLoopStmt inLoop init && targetsInLoopStmts inLoop body && targetsInLoopStmt inLoop els
  | .ForStmt init _ post body =>
    targetsInLoopStmt inLoop init && targetsInLoopStmt inLoop post && targetsInLoopStmts true body
  | .RangeStmt _ _ _ _ body => targetsInLoopStmts inLoop body
  | _ => true
/-- The same for a statement list. -/
def targetsInLoopStmts (inLoop : Bool) : List Stmt → Bool
  | [] => true
  | s :: ss => targetsInLoopStmt inLoop s && targetsInLoopStmts inLoop ss
end

/-- Whether every compound add-assign to one plain identifier in the file lies inside the body
of a `for` statement. -/
def targetsInLoop (f : File) : Bool :=
  f.Decls.all (fun d => match d with
    | .GenDecl _ _ => true
    | .FuncDecl _ _ _ body => targetsInLoopStmts false body)

mutual
/-- The statement at the position `r` below the statement `s` (`r` is relative to `s`), when
`r` leads to a statement. -/
def stmtAt : Stmt → Path → Option Stmt
  | s, [] => some s
  | .BlockStmt stmts, k :: r => if k = 0 then stmtsAt 0 stmts r else none
  | .IfStmt init _ body els, k :: r =>
    if k = 0 then stmtAt init r
    else if k = 2 then
      match r with
      | j :: r => if j = 0 then stmtsAt 0 body r else none
      | [] => none
    else if k = 3 then stmtAt els r
    else none
  | .ForStmt init _ post body, k :: r =>
    if k = 0 then stmtAt init r
    else if k = 2 then stmtAt post r
    else if k = 3 then
      match r with
      | j :: r => if j = 0 then stmtsAt 0 body r else none
      | [] => none
    else none
  | .RangeStmt _ _ _ _ body, k :: r =>
    if k = 3 then
      match r with
      | j :: r => if j = 0 then stmtsAt 0 body r else none
      | [] => none
    else none
  | _, _ :: _ => none
/-- The same below a statement list whose first element has index `i`. -/
def stmtsAt (i : Nat) : List Stmt → Path → Option Stmt
  | [], _ => none
  | _ :: _, [] => none
  | s :: ss, j :: r => if j = i then stmtAt s r else stmtsAt (i + 1) ss (j :: r)
end

mutual
/-- Whether the position `r` below the statement `s` lies inside the body of a `for`
statement of `s`: the path enters field 3 of a `ForStmt`. -/
def inForBodyStmt : Stmt → Path → Bool
  | .BlockStmt stmts, k :: r => if k = 0 then inForBodyStmts 0 stmts r else false
  | .IfStmt init _ body els, k :: r =>
    if k = 0 then inForBodyStmt init r
    else if k = 2 then
      match r with
      | j :: r => if j = 0 then inForBodyStmts 0 body r else false
      | [] => false
    else if k = 3 then inForBodyStmt els r
    else false
  | .ForStmt init _ post _, k :: r =>
    if k = 0 then inForBodyStmt init r
    else if k = 2 then inForBodyStmt post r
    else k = 3
  | .RangeStmt _ _ _ _ body, k :: r =>
    if k = 3 then
      match r with
      | j :: r => if j = 0 then inForBodyStmts 0 body r else false
      | [] => false
    else false
  | _, _ => false
/-- The same below a statement list whose first element has index `i`. -/
def inForBodyStmts (i : Nat) : List Stmt → Path → Bool
  | [], _ => false
  | _ :: _, [] => false
  | s :: ss, j :: r => if j = i then inForBodyStmt s r else inForBodyStmts (i + 1) ss (j :: r)
end

/-- The statement at the position `r` below a declaration: the path goes through the body of
a function (field 2, then the statement list). -/
def declStmtAt : Decl → Path → Option Stmt
  | .FuncDecl _ _ _ body, a :: b :: r => if a = 2 ∧ b = 0 then stmtsAt 0 body r else none
  | _, _ => none

/-- The same below the declarations of a file, the first of which has index `i`. -/
def declsStmtAt (i : Nat) : List Decl → Path → Option Stmt
  | [], _ => none
  | _ :: _, [] => none
  | d :: ds, j :: r => if j = i then declStmtAt d r else declsStmtAt (i + 1) ds (j :: r)

/-- The statement at the position `q` of the file, when `q` leads to a statement (the
declarations are field 1 of the file). -/
def fileStmtAt (f : File) : Path → Option Stmt
  | k :: r => if k = 1 then declsStmtAt 0 f.Decls r else none
  | [] => none

/-- Whether the position `r` below a declaration lies inside the body of a `for`
statement. -/
def declInForBody : Decl → Path → Bool
  | .FuncDecl _ _ _ body, a :: b :: r => if a = 2 ∧ b = 0 then inForBodyStmts 0 body r else false
  | _, _ => false

/-- The same below the declarations of a file, the first of which has index `i`. -/
def declsInForBody (i : Nat) : List Decl → Path → Bool
  | [], _ => false
  | _ :: _, [] => false
  | d :: ds, j :: r => if j = i then declInForBody d r else declsInForBody (i + 1) ds (j :: r)

/-- Whether the position `q` of the file lies inside the body of a `for` statement. -/
def fileInForBody (f : File) : Path → Bool
  | k :: r => if k = 1 then declsInForBody 0 f.Decls r else false
  | [] => false

mutual
/-- Whether the position `r` below the statement `s` lies below a `for` statement of `s`
(in any of its fields). -/
def underForStmt : Stmt → Path → Bool
  | .BlockStmt stmts, k :: r => if k = 0 then underForStmts 0 stmts r else false
  | .IfStmt init _ body els, k :: r =>
    if k = 0 then underForStmt init r
    else if k = 2 then
      match r with
      | j :: r => if j = 0 then underForStmts 0 body r else false
      | [] => false
    else if k = 3 then underForStmt els r
    else false
  | .ForStmt _ _ _ _, _ :: _ => true
  | .RangeStmt _ _ _ _ body, k :: r =>
    if k = 3 then
      match r with
      | j :: r => if j = 0 then underForStmts 0 body r else false
      | [] => false
    else false
  | _, _ => false
/-- The same below a statement list whose first element has index `i`. -/
def underForStmts (i : Nat) : List Stmt → Path → Bool
  | [], _ => false
  | _ :: _, [] => false
  | s :: ss, j :: r => if j = i then underForStmt s r else underForStmts (i + 1) ss (j :: r)
end

/-- Whether the position `r` below a declaration lies below a `for` statement. -/
def declUnderFor : Decl → Path → Bool
  | .FuncDecl _ _ _ body, a :: b :: r => if a = 2 ∧ b = 0 then underForStmts 0 body r else false
  | _, _ => false

/-- The same below the declarations of a file, the first of which has index `i`. -/
def declsUnderFor (i : Nat) : List Decl → Path → Bool
  | [], _ => false
  | _ :: _, [] => false
  | d :: ds, j :: r => if j = i then declUnderFor d r else declsUnderFor (i + 1) ds (j :: r)

/-- Whether the position `q` of the file lies below a `for` statement. -/
def fileUnderFor (f : File) : Path → Bool
  | k :: r => if k = 1 then declsUnderFor 0 f.Decls r else false
  | [] => false

/-- The chunk literals of a string literal with text `v`, as the chunker is described: the
delimiting quotes are stripped, the content is cut into consecutive windows of `bufSize`
bytes, and each window is wrapped again as a literal of its own. -/
def chunkLiterals (v : GoString) : List Expr :=
  (splitChunks (Trim v dquote) bufSize).map (fun chunk => Expr.BasicLit .STRING (Quote chunk))

/-- The operand list that `processConcat` is described to make of the operand list `leaves`,
`i` being the position of the first one: every string literal, except the operand at position
0 when `first` is set, gives way to the list of its chunk literals, in its place; every other
operand stays. -/
def replaceLeaves (first : Bool) : Nat → List Expr → List Expr
  | _, [] => []
  | i, leaf :: leaves =>
    (if i = 0 ∧ first = true then [leaf]
     else match leaf with
       | .BasicLit kind value => if kind = .STRING then chunkLiterals value else [leaf]
       | _ => [leaf])
    ++ replaceLeaves first (i + 1) leaves

/-- Whether the additions at the top of the expression form a left-associative chain: no right
operand of an addition of the chain is itself an addition. -/
def isLeftChain : Expr → Bool
  | .BinaryExpr x op y => if op = .ADD then isLeftChain x && !isAddition y else true
  | _ => true

/-- Whether the operand, when it is a string literal, has the text `"c"` with `c` a non-empty
content of printable ASCII without quote or backslash. -/
def plainStringLeaf : Expr → Bool
  | .BasicLit kind value =>
    kind != .STRING
      || (value == quoted (literalContent value) && plain (literalContent value)
          && !(literalContent value).isEmpty)
  | _ => true

/-- The number of specifications in `specs` that declare the name `name`. -/
def declSpecCount (name : String) (specs : List ValueSpec) : Nat :=
  (specs.filter (fun spec => spec.Names.contains name)).length

mutual
/-- The number of declarations of the name `name` in a statement, at any depth. -/
def declCountStmt (name : String) : Stmt → Nat
  | .DeclStmt _ specs => declSpecCount name specs
  | .BlockStmt stmts => declCountStmts name stmts
  | .IfStmt init _ body els =>
    declCountStmt name init + declCountStmts name body + declCountStmt name els
  | .ForStmt init _ post body =>
    declCountStmt name init + declCountStmt name post + declCountStmts name body
  | .RangeStmt _ _ _ _ body => declCountStmts name body
  | _ => 0
/-- The same in a statement list. -/
def declCountStmts (name : String) : List Stmt → Nat
  | [] => 0
  | s :: ss => declCountStmt name s + declCountStmts name ss
end

/-- Whether the operand, when it is a string literal, has a non-empty content (the text
without its delimiting quotes). -/
def hasContent : Expr → Bool
  | .BasicLit kind value => kind != .STRING || !(Trim value dquote).isEmpty
  | _ => true

/-- An operand that chunking gives back as it is: when it is a string literal, the parts that
`processConcatExpr` makes of it are the literal itself. -/
def Stable (x : Expr) : Prop :=
  ∀ kind value, x = Expr.BasicLit kind value → kind = .STRING →
    flattenConcat (chunkString value) = [x]

/-- The byte of the backquote, the delimiter of a raw string literal. -/
def backquote : Nat := 96

/-- The raw string literal node with the content `c`: the content between two backquotes. -/
def rawLit (c : GoString) : Expr := .BasicLit .STRING (backquote :: (c ++ [backquote]))

/-! ## The expression nodes of a tree -/

mutual
/-- The expression nodes of the tree of an expression, the expression itself first; the
selected name of a selector is an identifier node.  The nil expression is no node. -/
def subExprs : Expr → List Expr
  | .Nil => []
  | .Ident name => [.Ident name]
  | .BasicLit kind value => [.BasicLit kind value]
  | .BinaryExpr x op y => .BinaryExpr x op y :: (subExprs x ++ subExprs y)
  | .ParenExpr x => .ParenExpr x :: subExprs x
  | .SelectorExpr x sel => .SelectorExpr x sel :: (subExprs x ++ [.Ident sel])
  | .CallExpr f args => .CallExpr f args :: (subExprs f ++ subExprsList args)
/-- The expression nodes of the trees of a list of expressions. -/
def subExprsList : List Expr → List Expr
  | [] => []
  | e :: es => subExprs e ++ subExprsList es
end

/-- The expression nodes of a specification: its names, its type and its values. -/
def specExprs (spec : ValueSpec) : List Expr :=
  spec.Names.map .Ident ++ subExprs spec.Typ ++ subExprsList spec.Values

mutual
/-- The expression nodes of the tree of a statement. -/
def stmtExprs : Stmt → List Expr
  | .Nil => []
  | .ExprStmt x => subExprs x
  | .AssignStmt lhs _ rhs => subExprsList lhs ++ subExprsList rhs
  | .IncDecStmt x _ => subExprs x
  | .DeclStmt _ specs => specs.flatMap specExprs
  | .ReturnStmt results => subExprsList results
  | .BlockStmt stmts => stmtsExprs stmts
  | .IfStmt init cond body els =>
    stmtExprs init ++ subExprs cond ++ stmtsExprs body ++ stmtExprs els
  | .ForStmt init cond post body =>
    stmtExprs init ++ subExprs cond ++ stmtExprs post ++ stmtsExprs body
  | .RangeStmt key value _ x body =>
    subExprs key ++ subExprs value ++ subExprs x ++ stmtsExprs body
/-- The expression nodes of the trees of a list of statements. -/
def stmtsExprs : List Stmt → List Expr
  | [] => []
  | s :: ss => stmtExprs s ++ stmtsExprs ss
end

/-- Whether an expression node is a selector expression on the identifier `strings`. -/
def isStringsSelector : Expr → Bool
  | .SelectorExpr (.Ident name) _ => name = "strings"
  | _ => false

theorem splitChunksLoop_done (s : GoString) (size fuel i : Nat) (chunks : List GoString)
    (h : s.length ≤ i) : splitChunksLoop s size fuel i chunks = chunks := by
  cases fuel with
  | zero => rfl
  | succ n => simp [splitChunksLoop, Nat.not_lt.mpr h]

/-- Enough fuel: once `len(s) - i ≤ fuel`, more fuel does not change the result. -/
theorem splitChunksLoop_fuel (s : GoString) (size : Nat) (hsize : 0 < size) :
    ∀ (fuel k i : Nat) (chunks : List GoString), s.length ≤ i + fuel →
      splitChunksLoop s size (fuel + k) i chunks = splitChunksLoop s size fuel i chunks := by
  intro fuel
  induction fuel with
  | zero =>
    intro k i chunks h
    rw [splitChunksLoop_done s size _ i chunks (by omega),
      splitChunksLoop_done s size _ i chunks (by omega)]
  | succ n ih =>
    intro k i chunks h
    have e : n + 1 + k = (n + k) + 1 := by omega
    rw [e]
    simp only [splitChunksLoop]
    split
    · exact ih k (i + size) _ (by omega)
    · rfl

theorem splitChunksLoop_flatten (s : GoString) (size : Nat) (hsize : 0 < size) :
    ∀ (fuel i : Nat) (chunks : List GoString), s.length ≤ i + fuel →
      (splitChunksLoop s size fuel i chunks).flatten = chunks.flatten ++ s.drop i := by
  intro fuel
  induction fuel with
  | zero =>
    intro i chunks h
    simp [splitChunksLoop, List.drop_eq_nil_of_le (show s.length ≤ i by omega)]
  | succ n ih =>
    intro i chunks h
    simp only [splitChunksLoop]
    split
    · rename_i hlt
      rw [ih (i + size) _ (by omega)]
      have hd : s.drop (i + size) = (s.drop i).drop size := by
        rw [List.drop_drop, Nat.add_comm]
      have ht : (s.drop i).take ((if i + size > s.length then s.length else i + size) - i)
          = (s.drop i).take size := by
        split
        · rw [List.take_of_length_le (by simp), List.take_of_length_le (by simp; omega)]
        · have e : i + size - i = size := by omega
          rw [e]
      rw [ht, hd]
      simp [List.take_append_drop]
    · rename_i hge
      simp [List.drop_eq_nil_of_le (Nat.not_lt.mp hge)]

theorem splitChunksLoop_length (s : GoString) (size : Nat) (hsize : 0 < size) :
    ∀ (fuel i : Nat) (chunks : List GoString), s.length ≤ i + fuel →
      (splitChunksLoop s size fuel i chunks).length
        = chunks.length + (s.length - i + size - 1) / size := by
  intro fuel
  induction fuel with
  | zero =>
    intro i chunks h
    have h0 : s.length - i + size - 1 = size - 1 := by omega
    simp [splitChunksLoop, h0, Nat.div_eq_of_lt (show size - 1 < size by omega)]
  | succ n ih =>
    intro i chunks h
    simp only [splitChunksLoop]
    split
    · rename_i hlt
      rw [ih (i + size) _ (by omega)]
      by_cases hle : s.length - i ≤ size
      · have e1 : (s.length - i + size - 1) / size = 1 := by
          apply Nat.div_eq_of_lt_le <;> omega
        have e0 : (s.length - (i + size) + size - 1) / size = 0 := by
          apply Nat.div_eq_of_lt; omega
        rw [e1, e0]; simp
      · have e : s.length - i + size - 1 = (s.length - (i + size) + size - 1) + size := by omega
        rw [e, Nat.add_div_right _ hsize]
        simp
        omega
    · rename_i hge
      have h0 : s.length - i + size - 1 = size - 1 := by omega
      simp [h0, Nat.div_eq_of_lt (show size - 1 < size by omega)]

/-- Every chunk holds at most `size` bytes. -/
theorem splitChunksLoop_bound (s : GoString) (size : Nat) :
    ∀ (fuel i : Nat) (chunks : List GoString), (∀ c ∈ chunks, c.length ≤ size) →
      ∀ c ∈ splitChunksLoop s size fuel i chunks, c.length ≤ size := by
  intro fuel
  induction fuel with
  | zero => intro i chunks h; simpa [splitChunksLoop] using h
  | succ n ih =>
    intro i chunks h
    simp only [splitChunksLoop]
    split
    · apply ih
      intro c hc
      rcases List.mem_append.mp hc with hc | hc
      · exact h c hc
      · have : c = (s.drop i).take ((if i + size > s.length then s.length else i + size) - i) := by
          simpa using hc
        subst this
        rw [List.length_take]
        split <;> omega
    · exact h

/-- No chunk is empty. -/
theorem splitChunksLoop_nonempty (s : GoString) (size : Nat) (hsize : 0 < size) :
    ∀ (fuel i : Nat) (chunks : List GoString), (∀ c ∈ chunks, c ≠ []) →
      ∀ c ∈ splitChunksLoop s size fuel i chunks, c ≠ [] := by
  intro fuel
  induction fuel with
  | zero => intro i chunks h; simpa [splitChunksLoop] using h
  | succ n ih =>
    intro i chunks h
    simp only [splitChunksLoop]
    split
    · rename_i hlt
      apply ih
      intro c hc
      rcases List.mem_append.mp hc with hc | hc
      · exact h c hc
      · have : c = (s.drop i).take ((if i + size > s.length then s.length else i + size) - i) := by
          simpa using hc
        subst this
        intro hnil
        have hl := congrArg List.length hnil
        rw [List.length_take, List.length_drop] at hl
        simp only [List.length_nil] at hl
        split at hl <;> omega
    · exact h

theorem splitChunks_flatten (s : GoString) (b : Nat) (hb : 0 < b) :
    (splitChunks s b).flatten = s := by
  unfold splitChunks
  rw [splitChunksLoop_flatten s b hb s.length 0 [] (by omega)]
  simp

theorem splitChunks_length (s : GoString) (b : Nat) (hb : 0 < b) :
    (splitChunks s b).length = (s.length + b - 1) / b := by
  unfold splitChunks
  rw [splitChunksLoop_length s b hb s.length 0 [] (by omega)]
  simp

theorem splitChunks_bound (s : GoString) (b : Nat) :
    ∀ c ∈ splitChunks s b, c.length ≤ b :=
  splitChunksLoop_bound s b s.length 0 [] (by simp)

theorem splitChunks_nonempty (s : GoString) (b : Nat) (hb : 0 < b) :
    ∀ c ∈ splitChunks s b, c ≠ [] :=
  splitChunksLoop_nonempty s b hb s.length 0 [] (by simp)

theorem splitChunks_ne_nil (s : GoString) (b : Nat) (hb : 0 < b) (hs : s ≠ []) :
    splitChunks s b ≠ [] := by
  intro h
  have := splitChunks_flatten s b hb
  rw [h] at this
  exact hs this.symm

/-! ### Lemmas on quoting -/

theorem plain_mem {s : GoString} (h : plain s = true) : ∀ b ∈ s, plainByte b = true := by
  simpa [plain, List.all_eq_true] using h

theorem appendEscapedRune_plain (b : Nat) (h : plainByte b = true) : appendEscapedRune b = [b] := by
  simp only [plainByte, Bool.and_eq_true, decide_eq_true_eq, bne_iff_ne, ne_eq] at h
  obtain ⟨⟨⟨h1, h2⟩, h3⟩, h4⟩ := h
  simp [appendEscapedRune, h1, h2, h3, h4]

theorem flatMap_appendEscapedRune_plain :
    ∀ s : GoString, plain s = true → s.flatMap appendEscapedRune = s
  | [], _ => rfl
  | b :: s, h => by
    have hb : plainByte b = true := plain_mem h b (List.mem_cons_self _ _)
    have hs : plain s = true := by
      simp only [plain, List.all_cons, Bool.and_eq_true] at h ⊢
      exact h.2
    simp [List.flatMap_cons, appendEscapedRune_plain b hb, flatMap_appendEscapedRune_plain s hs]

/-- On a text of printable ASCII without quote or backslash, `%q` adds the two quotes. -/
theorem Quote_plain (s : GoString) (h : plain s = true) : Quote s = quoted s := by
  simp [Quote, quoted, flatMap_appendEscapedRune_plain s h]

/-- Trimming the quotes off the literal `"c"` gives `c` when `c` holds no quote. -/
theorem Trim_quoted (c : GoString) (h : plain c = true) : Trim (quoted c) dquote = c := by
  have hne : ∀ b ∈ c, (b == dquote) = false := by
    intro b hb
    have := plain_mem h b hb
    simp only [plainByte, Bool.and_eq_true, bne_iff_ne, ne_eq] at this
    simpa using this.1.2
  cases c with
  | nil => simp [Trim, quoted, List.rdropWhile]
  | cons a c =>
    have ha : (a == dquote) = false := hne a (List.mem_cons_self _ _)
    have hlast : ((a :: c).getLast (by simp) == dquote) = false :=
      hne _ (List.getLast_mem _)
    simp only [Trim, quoted, List.dropWhile_cons, beq_self_eq_true, ↓reduceIte, List.cons_append,
      ha, Bool.false_eq_true]
    rw [← List.cons_append, List.rdropWhile_concat_pos _ _ _ (by simp)]
    rw [← List.dropLast_append_getLast (show a :: c ≠ [] by simp)]
    rw [List.rdropWhile_concat_neg _ _ _ (by simpa using hlast)]

theorem plain_take_drop (s : GoString) (h : plain s = true) (i n : Nat) :
    plain ((s.drop i).take n) = true := by
  simp only [plain, List.all_eq_true] at h ⊢
  intro b hb
  exact h b (List.mem_of_mem_drop (List.mem_of_mem_take hb))

theorem splitChunksLoop_plain (s : GoString) (size : Nat) (h : plain s = true) :
    ∀ (fuel i : Nat) (chunks : List GoString), (∀ c ∈ chunks, plain c = true) →
      ∀ c ∈ splitChunksLoop s size fuel i chunks, plain c = true := by
  intro fuel
  induction fuel with
  | zero => intro i chunks hc; simpa [splitChunksLoop] using hc
  | succ n ih =>
    intro i chunks hc
    simp only [splitChunksLoop]
    split
    · apply ih
      intro c hmem
      rcases List.mem_append.mp hmem with hmem | hmem
      · exact hc c hmem
      · have : c = (s.drop i).take ((if i + size > s.length then s.length else i + size) - i) := by
          simpa using hmem
        subst this
        exact plain_take_drop s h i _
    · exact hc

theorem splitChunks_plain (s : GoString) (b : Nat) (h : plain s = true) :
    ∀ c ∈ splitChunks s b, plain c = true :=
  splitChunksLoop_plain s b h s.length 0 [] (by simp)

/-! ### Lemmas on flattening and rebuilding -/

theorem flattenConcat_of_not_add (e : Expr) (h : isAddition e = false) :
    flattenConcat e = [e] := by
  cases e <;> simp_all [flattenConcat, isAddition]

theorem flattenConcat_ne_nil : ∀ e : Expr, flattenConcat e ≠ []
  | .BinaryExpr x op y => by
    unfold flattenConcat
    split
    · simp [flattenConcat_ne_nil x]
    · simp
  | .Nil | .Ident _ | .BasicLit _ _ | .ParenExpr _ | .SelectorExpr _ _ | .CallExpr _ _ => by
    simp [flattenConcat]

theorem flattenConcat_not_add : ∀ e : Expr, ∀ x ∈ flattenConcat e, isAddition x = false
  | .BinaryExpr x op y => by
    unfold flattenConcat
    split
    · intro z hz
      rcases List.mem_append.mp hz with hz | hz
      · exact flattenConcat_not_add x z hz
      · exact flattenConcat_not_add y z hz
    · simp_all [isAddition]
  | .Nil | .Ident _ | .BasicLit _ _ | .ParenExpr _ | .SelectorExpr _ _ | .CallExpr _ _ => by
    simp [flattenConcat, isAddition]

theorem flattenConcat_foldl (l : List Expr) (h : ∀ x ∈ l, isAddition x = false) :
    ∀ e : Expr, flattenConcat (l.foldl (fun result expr => Expr.BinaryExpr result .ADD expr) e)
      = flattenConcat e ++ l := by
  induction l with
  | nil => intro e; simp
  | cons a l ih =>
    intro e
    simp only [List.foldl_cons]
    rw [ih (fun x hx => h x (List.mem_cons_of_mem _ hx))]
    simp [flattenConcat, flattenConcat_of_not_add a (h a (List.mem_cons_self _ _))]

theorem flattenConcat_makeFlat (l : List Expr) (hne : l ≠ [])
    (h : ∀ x ∈ l, isAddition x = false) : flattenConcat (makeFlatBinaryExpr l) = l := by
  cases l with
  | nil => exact absurd rfl hne
  | cons a l =>
    simp only [makeFlatBinaryExpr]
    rw [flattenConcat_foldl l (fun x hx => h x (List.mem_cons_of_mem _ hx))]
    simp [flattenConcat_of_not_add a (h a (List.mem_cons_self _ _))]

/-! ### Lemmas on chunking -/

theorem isAddition_strLit (c : GoString) : isAddition (strLit c) = false := rfl

theorem chunkString_quoted (c : GoString) (h : plain c = true) :
    chunkString (quoted c) = makeFlatBinaryExpr ((splitChunks c bufSize).map strLit) := by
  simp only [chunkString, Trim_quoted c h]
  congr 1
  apply List.map_congr_left
  intro a ha
  simp [strLit, Quote_plain a (splitChunks_plain c bufSize h a ha)]

theorem flattenConcat_chunkString (c : GoString) (h : plain c = true) (hne : c ≠ []) :
    flattenConcat (chunkString (quoted c)) = (splitChunks c bufSize).map strLit := by
  rw [chunkString_quoted c h]
  apply flattenConcat_makeFlat
  · simpa using splitChunks_ne_nil c bufSize (by decide) hne
  · intro x hx
    obtain ⟨a, _, rfl⟩ := List.mem_map.mp hx
    rfl

/-- The parts that `processConcatExpr` makes of literals that are all chunked. -/
theorem processParts_strLits (first : Bool) :
    ∀ (cs : List GoString) (i : Nat), (i ≠ 0 ∨ first = false) →
      (∀ c ∈ cs, plain c = true ∧ c ≠ []) →
      processParts first i (cs.map strLit)
        = (cs.flatMap (fun c => splitChunks c bufSize)).map strLit
  | [], _, _, _ => rfl
  | c :: cs, i, hi, h => by
    have hc := h c (List.mem_cons_self _ _)
    have hcond : ¬ (i = 0 ∧ first = true) := by
      rcases hi with hi | hi
      · exact fun hh => hi hh.1
      · simp [hi]
    simp only [List.map_cons, processParts, hcond, ↓reduceIte, strLit, List.flatMap_cons,
      List.map_append]
    rw [flattenConcat_chunkString c hc.1 hc.2, processParts_strLits first cs (i + 1)
      (Or.inl (by omega)) (fun c hc => h c (List.mem_cons_of_mem _ hc))]

theorem chainLits_foldl (vs : List GoString) :
    ∀ (e : Expr) (ws : List GoString), chainLits e = some ws →
      chainLits ((vs.map (Expr.BasicLit Token.STRING)).foldl
        (fun result expr => Expr.BinaryExpr result .ADD expr) e) = some (ws ++ vs) := by
  induction vs with
  | nil => intro e ws h; simpa using h
  | cons v vs ih =>
    intro e ws h
    simp only [List.map_cons, List.foldl_cons]
    rw [ih (Expr.BinaryExpr e .ADD (Expr.BasicLit .STRING v)) (ws ++ [v]) (by simp [chainLits, h])]
    simp

theorem chainLits_makeFlat (cs : List GoString) (hne : cs ≠ []) :
    chainLits (makeFlatBinaryExpr (cs.map strLit)) = some (cs.map quoted) := by
  cases cs with
  | nil => exact absurd rfl hne
  | cons c cs =>
    simp only [List.map_cons, makeFlatBinaryExpr]
    have : cs.map strLit = (cs.map quoted).map (Expr.BasicLit Token.STRING) := by
      simp [strLit, Function.comp_def]
    rw [this, chainLits_foldl (cs.map quoted) (strLit c) [quoted c] (by simp [chainLits, strLit])]
    simp

theorem processConcatExpr_strLit (L : GoString) (h : plain L = true) (hne : L ≠ []) :
    processConcatExpr (strLit L) false = makeFlatBinaryExpr ((splitChunks L bufSize).map strLit) := by
  have := processParts_strLits false [L] 0 (Or.inr rfl) (by simpa using ⟨h, hne⟩)
  simp only [List.map_cons, List.map_nil, List.flatMap_cons, List.flatMap_nil,
    List.append_nil] at this
  simp only [processConcatExpr]
  rw [flattenConcat_of_not_add _ (isAddition_strLit L), this]

theorem isPureStringConcat_eq_all : ∀ e : Expr,
    isPureStringConcat e = (flattenConcat e).all isStringLit
  | .BinaryExpr x op y => by
    unfold isPureStringConcat flattenConcat
    by_cases h : op = .ADD
    · simp [h, isPureStringConcat_eq_all x, isPureStringConcat_eq_all y]
    · simp [h, isStringLit]
  | .Nil | .Ident _ | .BasicLit _ _ | .ParenExpr _ | .SelectorExpr _ _ | .CallExpr _ _ => by
    simp [flattenConcat, isPureStringConcat, isStringLit]

theorem isPureStringConcat_of_leaves (e : Expr) (cs : List GoString)
    (h : flattenConcat e = cs.map strLit) : isPureStringConcat e = true := by
  rw [isPureStringConcat_eq_all, h]
  simp [isStringLit, strLit]

/-- The parts that `processConcatExpr` makes of string literals that are not kept verbatim. -/
theorem processParts_quoted (first : Bool) :
    ∀ (cs : List GoString) (i : Nat), (i ≠ 0 ∨ first = false) →
      processParts first i (cs.map strLit)
        = cs.flatMap (fun c => flattenConcat (chunkString (quoted c)))
  | [], _, _ => rfl
  | c :: cs, i, hi => by
    have hcond : ¬ (i = 0 ∧ first = true) := by
      rcases hi with hi | hi
      · exact fun hh => hi hh.1
      · simp [hi]
    simp only [List.map_cons, processParts, hcond, ↓reduceIte, strLit, List.flatMap_cons]
    have ih := processParts_quoted first cs (i + 1) (Or.inl (by omega))
    simp only [strLit] at ih
    rw [ih]

theorem processParts_first (part : Expr) (parts : List Expr) :
    processParts true 0 (part :: parts) = part :: processParts true 1 parts := by
  simp [processParts]

theorem flatMap_splitChunks_flatten (b : Nat) (hb : 0 < b) : ∀ cs : List GoString,
    (cs.flatMap (fun c => splitChunks c b)).flatten = cs.flatten
  | [] => rfl
  | c :: cs => by
    simp [List.flatMap_cons, splitChunks_flatten c b hb, flatMap_splitChunks_flatten b hb cs]

theorem literalContent_quoted (c : GoString) : literalContent (quoted c) = c := by
  simp [literalContent, quoted]

theorem stringLits_foldl (l : List Expr) : ∀ e : Expr,
    stringLits (l.foldl (fun result expr => Expr.BinaryExpr result .ADD expr) e)
      = stringLits e ++ l.flatMap stringLits := by
  induction l with
  | nil => intro e; simp
  | cons a l ih => intro e; simp [ih, stringLits, List.flatMap_cons]

theorem stringLits_makeFlat (l : List Expr) :
    stringLits (makeFlatBinaryExpr l) = l.flatMap stringLits := by
  cases l with
  | nil => simp [makeFlatBinaryExpr, stringLits]
  | cons a l => simp [makeFlatBinaryExpr, stringLits_foldl, List.flatMap_cons]

/-- Every string literal among the parts made of a literal with plain content holds at most
`bufSize` bytes. -/
theorem stringLits_chunkString_bound (c : GoString) (h : plain c = true) :
    ∀ v ∈ (flattenConcat (chunkString (quoted c))).flatMap stringLits,
      (literalContent v).length ≤ bufSize := by
  by_cases hne : c = []
  · subst hne
    intro v hv
    simp [show chunkString (quoted []) = Expr.Nil from rfl, flattenConcat, stringLits] at hv
  · rw [flattenConcat_chunkString c h hne]
    intro v hv
    simp only [List.mem_flatMap, List.mem_map] at hv
    obtain ⟨e, ⟨a, ha, rfl⟩, hv⟩ := hv
    simp only [strLit, stringLits, ↓reduceIte, List.mem_singleton] at hv
    subst hv
    rw [literalContent_quoted]
    exact splitChunks_bound c bufSize a ha

/-! ### C1, C2, C8 -/

/-- C1 (chunk round-trip): for every string `s` and every bound `b > 0`, concatenating the
elements of `splitChunks(s, b)` in order yields exactly `s`. -/
theorem C1_chunk_round_trip (s : GoString) (b : Nat) (hb : 0 < b) :
    (splitChunks s b).flatten = s :=
  splitChunks_flatten s b hb

/-- C1 at `s = "abcdefg"`, `b = 3`. -/
theorem C1_chunk_round_trip_witness :
    0 < 3 ∧ (splitChunks (ascii "abcdefg") 3).flatten = ascii "abcdefg" :=
  ⟨by decide, C1_chunk_round_trip (ascii "abcdefg") 3 (by decide)⟩

/-- C2 (chunk count), at the empty string: `splitChunks("", 32)` has no element, while the
claimed count `max(1, ceil(0/32))` is 1; `chunkString` then returns the absent expression for
the literal `""`. -/
theorem C2_empty_string_has_no_chunk :
    (splitChunks [] bufSize).length = 0
      ∧ max 1 ((([] : GoString).length + bufSize - 1) / bufSize) = 1
      ∧ chunkString (quoted []) = Expr.Nil := by
  refine ⟨rfl, by decide, rfl⟩

/-- C8 (flatten then rebuild): rebuilding the flattened operands of any expression and
flattening again gives the same operand list; and for every non-empty list `l` of expressions
none of which is an addition node, `flattenConcat(makeFlatBinaryExpr(l)) = l`. -/
theorem C8_flatten_rebuild :
    (∀ e : Expr, flattenConcat (makeFlatBinaryExpr (flattenConcat e)) = flattenConcat e)
    ∧ (∀ l : List Expr, l ≠ [] → (∀ x ∈ l, isAddition x = false) →
        flattenConcat (makeFlatBinaryExpr l) = l) :=
  ⟨fun e => flattenConcat_makeFlat _ (flattenConcat_ne_nil e) (flattenConcat_not_add e),
   fun l hne h => flattenConcat_makeFlat l hne h⟩

/-- C8 at the list `[a, "b", (c + d)]`. -/
theorem C8_flatten_rebuild_witness :
    flattenConcat (makeFlatBinaryExpr
      [Expr.Ident "a", strLit (ascii "b"),
        Expr.ParenExpr (Expr.BinaryExpr (Expr.Ident "c") Token.ADD (Expr.Ident "d"))])
      = [Expr.Ident "a", strLit (ascii "b"),
        Expr.ParenExpr (Expr.BinaryExpr (Expr.Ident "c") Token.ADD (Expr.Ident "d"))] :=
  C8_flatten_rebuild.2 _ (by simp) (by simp [isAddition, strLit])

/-! ### C3 -/

/-- The walk of `transformNonLoopAddAssign` at a statement `x += L` that the table does not
mark, `L` a literal with content of at least 50 bytes of printable ASCII without quote or
backslash: the four-statement block, with the chunks of `L` as the chain. -/
theorem nonLoopStmt_literal_addAssign (nodesInLoop : List Path) (p : Path) (x : String)
    (L : GoString) (hout : nodesInLoop.contains p = false) (hlen : 50 ≤ L.length)
    (hplain : plain L = true) :
    ∃ (C : Expr) (chunks : List GoString),
      nonLoopStmt nodesInLoop p (.AssignStmt [.Ident x] .ADD_ASSIGN [strLit L])
        = .BlockStmt [
            builderDecl (x ++ "Builder"),
            writeStringStmt (x ++ "Builder") (.Ident x),
            writeStringStmt (x ++ "Builder") C,
            .AssignStmt [.Ident x] .ASSIGN [builderString (x ++ "Builder")]]
      ∧ chainLits C = some (chunks.map quoted)
      ∧ (∀ c ∈ chunks, c.length ≤ 32)
      ∧ chunks.flatten = L := by
  have hne : L ≠ [] := by
    intro h; rw [h] at hlen; simp at hlen
  refine ⟨makeFlatBinaryExpr ((splitChunks L bufSize).map strLit), splitChunks L bufSize,
    ?_, ?_, ?_, ?_⟩
  · have hmem : p ∉ nodesInLoop := by simpa using hout
    simp [nonLoopStmt, nonLoopPre, hmem, processConcatExpr_strLit L hplain hne]
  · exact chainLits_makeFlat _ (splitChunks_ne_nil L bufSize (by decide) hne)
  · exact splitChunks_bound L bufSize
  · exact splitChunks_flatten L bufSize (by decide)

/-! ### Positions and the loop-membership table -/

theorem prefix_of_child {p l q : Path} (h : (p ++ l) <+: q) : p <+: q :=
  (List.prefix_append p l).trans h

theorem markNames_below : ∀ (names : List String) (p : Path) (i : Nat),
    ∀ q ∈ markNames p i names, p <+: q
  | [], _, _, _, h => by simp [markNames] at h
  | _ :: names, p, i, q, h => by
    simp only [markNames, List.mem_cons] at h
    rcases h with h | h
    · subst h; exact List.prefix_append p [i]
    · exact markNames_below names p (i + 1) q h

mutual
theorem markExpr_below : ∀ (e : Expr) (p : Path), ∀ q ∈ markExpr p e, p <+: q
  | .Nil, _, _, h => by simp [markExpr] at h
  | .Ident _, p, q, h => by
    simp only [markExpr, List.mem_singleton] at h; subst h; exact List.prefix_refl _
  | .BasicLit _ _, p, q, h => by
    simp only [markExpr, List.mem_singleton] at h; subst h; exact List.prefix_refl _
  | .BinaryExpr x _ y, p, q, h => by
    simp only [markExpr, List.mem_cons, List.mem_append] at h
    rcases h with h | h | h
    · subst h; exact List.prefix_refl _
    · exact prefix_of_child (markExpr_below x _ q h)
    · exact prefix_of_child (markExpr_below y _ q h)
  | .ParenExpr x, p, q, h => by
    simp only [markExpr, List.mem_cons] at h
    rcases h with h | h
    · subst h; exact List.prefix_refl _
    · exact prefix_of_child (markExpr_below x _ q h)
  | .SelectorExpr x _, p, q, h => by
    simp only [markExpr, List.mem_cons, List.mem_append, List.mem_singleton] at h
    rcases h with h | h | h
    · subst h; exact List.prefix_refl _
    · exact prefix_of_child (markExpr_below x _ q h)
    · rcases h with h | h
      · subst h; exact List.prefix_append p [1]
      · simp at h
  | .CallExpr f args, p, q, h => by
    simp only [markExpr, List.mem_cons, List.mem_append] at h
    rcases h with h | h | h
    · subst h; exact List.prefix_refl _
    · exact prefix_of_child (markExpr_below f _ q h)
    · exact prefix_of_child (markExprs_below args _ 0 q h)
theorem markExprs_below : ∀ (es : List Expr) (p : Path) (i : Nat),
    ∀ q ∈ markExprs p i es, p <+: q
  | [], _, _, _, h => by simp [markExprs] at h
  | e :: es, p, i, q, h => by
    simp only [markExprs, List.mem_append] at h
    rcases h with h | h
    · exact prefix_of_child (markExpr_below e _ q h)
    · exact markExprs_below es p (i + 1) q h
end

theorem markSpec_below (spec : ValueSpec) (p : Path) : ∀ q ∈ markSpec p spec, p <+: q := by
  intro q h
  simp only [markSpec, List.mem_cons, List.mem_append] at h
  rcases h with h | (h | h) | h
  · subst h; exact List.prefix_refl _
  · exact prefix_of_child (markNames_below _ _ 0 q h)
  · exact prefix_of_child (markExpr_below _ _ q h)
  · exact prefix_of_child (markExprs_below _ _ 0 q h)

theorem markSpecs_below : ∀ (specs : List ValueSpec) (p : Path) (i : Nat),
    ∀ q ∈ markSpecs p i specs, p <+: q
  | [], _, _, _, h => by simp [markSpecs] at h
  | spec :: specs, p, i, q, h => by
    simp only [markSpecs, List.mem_append] at h
    rcases h with h | h
    · exact prefix_of_child (markSpec_below spec _ q h)
    · exact markSpecs_below specs p (i + 1) q h

mutual
theorem markStmt_below : ∀ (s : Stmt) (p : Path), ∀ q ∈ markStmt p s, p <+: q
  | .Nil, _, _, h => by simp [markStmt] at h
  | .ExprStmt x, p, q, h => by
    simp only [markStmt, List.mem_cons] at h
    rcases h with h | h
    · subst h; exact List.prefix_refl _
    · exact prefix_of_child (markExpr_below x _ q h)
  | .AssignStmt lhs _ rhs, p, q, h => by
    simp only [markStmt, List.mem_cons, List.mem_append] at h
    rcases h with h | h | h
    · subst h; exact List.prefix_refl _
    · exact prefix_of_child (markExprs_below lhs _ 0 q h)
    · exact prefix_of_child (markExprs_below rhs _ 0 q h)
  | .IncDecStmt x _, p, q, h => by
    simp only [markStmt, List.mem_cons] at h
    rcases h with h | h
    · subst h; exact List.prefix_refl _
    · exact prefix_of_child (markExpr_below x _ q h)
  | .DeclStmt _ specs, p, q, h => by
    simp only [markStmt, List.mem_cons] at h
    rcases h with h | h | h
    · subst h; exact List.prefix_refl _
    · subst h; exact List.prefix_append p [0]
    · exact prefix_of_child (markSpecs_below specs _ 0 q h)
  | .ReturnStmt results, p, q, h => by
    simp only [markStmt, List.mem_cons] at h
    rcases h with h | h
    · subst h; exact List.prefix_refl _
    · exact prefix_of_child (markExprs_below results _ 0 q h)
  | .BlockStmt stmts, p, q, h => by
    simp only [markStmt, List.mem_cons] at h
    rcases h with h | h
    · subst h; exact List.prefix_refl _
    · exact prefix_of_child (markStmts_below stmts _ 0 q h)
  | .IfStmt init cond body els, p, q, h => by
    simp only [markStmt, List.mem_cons, List.mem_append] at h
    rcases h with h | ((h | h) | h | h) | h
    · subst h; exact List.prefix_refl _
    · exact prefix_of_child (markStmt_below init _ q h)
    · exact prefix_of_child (markExpr_below cond _ q h)
    · subst h; exact List.prefix_append p [2]
    · exact prefix_of_child (markStmts_below body _ 0 q h)
    · exact prefix_of_child (markStmt_below els _ q h)
  | .ForStmt init cond post body, p, q, h => by
    simp only [markStmt, List.mem_cons, List.mem_append] at h
    rcases h with h | ((h | h) | h) | h | h
    · subst h; exact List.prefix_refl _
    · exact prefix_of_child (markStmt_below init _ q h)
    · exact prefix_of_child (markExpr_below cond _ q h)
    · exact prefix_of_child (markStmt_below post _ q h)
    · subst h; exact List.prefix_append p [3]
    · exact prefix_of_child (markStmts_below body _ 0 q h)
  | .RangeStmt key value _ x body, p, q, h => by
    simp only [markStmt, List.mem_cons, List.mem_append] at h
    rcases h with h | ((h | h) | h) | h | h
    · subst h; exact List.prefix_refl _
    · exact prefix_of_child (markExpr_below key _ q h)
    · exact prefix_of_child (markExpr_below value _ q h)
    · exact prefix_of_child (markExpr_below x _ q h)
    · subst h; exact List.prefix_append p [3]
    · exact prefix_of_child (markStmts_below body _ 0 q h)
theorem markStmts_below : ∀ (l : List Stmt) (p : Path) (i : Nat),
    ∀ q ∈ markStmts p i l, p <+: q
  | [], _, _, _, h => by simp [markStmts] at h
  | s :: ss, p, i, q, h => by
    simp only [markStmts, List.mem_append] at h
    rcases h with h | h
    · exact prefix_of_child (markStmt_below s _ q h)
    · exact markStmts_below ss p (i + 1) q h
end

mutual
/-- Every key that `collectNodesInForLoop` sets below a statement is a position inside the
body of a `for` statement. -/
theorem collectStmt_inForBody : ∀ (s : Stmt) (p q : Path), q ∈ collectStmt p s →
    ∃ r, q = p ++ r ∧ inForBodyStmt s r = true
  | .BlockStmt stmts, p, q, h => by
    simp only [collectStmt] at h
    obtain ⟨j, r, hq, _, hin⟩ := collectStmts_inForBody stmts (p ++ [0]) 0 q h
    exact ⟨0 :: j :: r, by simp [hq], by simpa [inForBodyStmt] using hin⟩
  | .IfStmt init _ body els, p, q, h => by
    simp only [collectStmt, List.mem_append] at h
    rcases h with (h | h) | h
    · obtain ⟨r, hq, hin⟩ := collectStmt_inForBody init (p ++ [0]) q h
      exact ⟨0 :: r, by simp [hq], by simpa [inForBodyStmt] using hin⟩
    · obtain ⟨j, r, hq, _, hin⟩ := collectStmts_inForBody body (p ++ [2, 0]) 0 q h
      exact ⟨2 :: 0 :: j :: r, by simp [hq], by simpa [inForBodyStmt] using hin⟩
    · obtain ⟨r, hq, hin⟩ := collectStmt_inForBody els (p ++ [3]) q h
      exact ⟨3 :: r, by simp [hq], by simpa [inForBodyStmt] using hin⟩
  | .ForStmt init _ post body, p, q, h => by
    simp only [collectStmt, List.mem_append, List.mem_cons] at h
    rcases h with (h | h) | (h | h) | h
    · exact ⟨[3], by simp [h], by simp [inForBodyStmt]⟩
    · obtain ⟨t, ht⟩ := markStmts_below body _ 0 q h
      exact ⟨3 :: 0 :: t, by simp [← ht], by simp [inForBodyStmt]⟩
    · obtain ⟨r, hq, hin⟩ := collectStmt_inForBody init (p ++ [0]) q h
      exact ⟨0 :: r, by simp [hq], by simpa [inForBodyStmt] using hin⟩
    · obtain ⟨r, hq, hin⟩ := collectStmt_inForBody post (p ++ [2]) q h
      exact ⟨2 :: r, by simp [hq], by simpa [inForBodyStmt] using hin⟩
    · obtain ⟨j, r, hq, _, _⟩ := collectStmts_inForBody body (p ++ [3, 0]) 0 q h
      exact ⟨3 :: 0 :: j :: r, by simp [hq], by simp [inForBodyStmt]⟩
  | .RangeStmt _ _ _ _ body, p, q, h => by
    simp only [collectStmt] at h
    obtain ⟨j, r, hq, _, hin⟩ := collectStmts_inForBody body (p ++ [3, 0]) 0 q h
    exact ⟨3 :: 0 :: j :: r, by simp [hq], by simpa [inForBodyStmt] using hin⟩
  | .Nil, _, _, h | .ExprStmt _, _, _, h | .AssignStmt _ _ _, _, _, h
  | .IncDecStmt _ _, _, _, h | .DeclStmt _ _, _, _, h | .ReturnStmt _, _, _, h => by
    simp [collectStmt] at h
theorem collectStmts_inForBody : ∀ (l : List Stmt) (p : Path) (i : Nat) (q : Path),
    q ∈ collectStmts p i l →
    ∃ j r, q = p ++ j :: r ∧ i ≤ j ∧ inForBodyStmts i l (j :: r) = true
  | [], _, _, _, h => by simp [collectStmts] at h
  | s :: ss, p, i, q, h => by
    simp only [collectStmts, List.mem_append] at h
    rcases h with h | h
    · obtain ⟨r, hq, hin⟩ := collectStmt_inForBody s (p ++ [i]) q h
      exact ⟨i, r, by simp [hq], Nat.le_refl i, by simpa [inForBodyStmts] using hin⟩
    · obtain ⟨j, r, hq, hj, hin⟩ := collectStmts_inForBody ss p (i + 1) q h
      refine ⟨j, r, hq, by omega, ?_⟩
      have hne : j ≠ i := by omega
      simpa [inForBodyStmts, hne] using hin
end

theorem collectDecls_inForBody : ∀ (ds : List Decl) (p : Path) (i : Nat) (q : Path),
    q ∈ collectDecls p i ds →
    ∃ j r, q = p ++ j :: r ∧ i ≤ j ∧ declsInForBody i ds (j :: r) = true
  | [], _, _, _, h => by simp [collectDecls] at h
  | d :: ds, p, i, q, h => by
    simp only [collectDecls, List.mem_append] at h
    rcases h with h | h
    · cases d with
      | GenDecl tok specs => simp [collectDecl] at h
      | FuncDecl name params results body =>
        simp only [collectDecl] at h
        obtain ⟨j, r, hq, _, hin⟩ := collectStmts_inForBody body (p ++ [i] ++ [2, 0]) 0 q h
        exact ⟨i, 2 :: 0 :: j :: r, by simp [hq], Nat.le_refl i,
          by simpa [declsInForBody, declInForBody] using hin⟩
    · obtain ⟨j, r, hq, hj, hin⟩ := collectDecls_inForBody ds p (i + 1) q h
      refine ⟨j, r, hq, by omega, ?_⟩
      have hne : j ≠ i := by omega
      simpa [declsInForBody, hne] using hin

/-- A position of the file that is not inside the body of a `for` statement is not a key of
the table of `collectNodesInForLoop`. -/
theorem not_mem_collect_of_not_inForBody (f : File) (q : Path)
    (h : fileInForBody f q = false) : (collectNodesInForLoop f).contains q = false := by
  rw [Bool.eq_false_iff]
  intro hc
  have hmem : q ∈ collectNodesInForLoop f := by simpa using hc
  obtain ⟨j, r, hq, _, hin⟩ := collectDecls_inForBody f.Decls [1] 0 q hmem
  subst hq
  simp [fileInForBody, hin] at h

theorem stmtAt_nil (s : Stmt) : stmtAt s [] = some s := by
  cases s <;> rfl

mutual
/-- The walk of `transformNonLoopAddAssign` acts at every statement position: the statement
at a position of the result is the walk, at that position, of the statement that was there. -/
theorem stmtAt_nonLoopStmt (T : List Path) : ∀ (s : Stmt) (p r : Path) (tgt : Stmt),
    stmtAt s r = some tgt →
    stmtAt (nonLoopStmt T p s) r = some (nonLoopStmt T (p ++ r) tgt)
  | s, p, [], tgt, h => by
    rw [stmtAt_nil] at h
    cases h
    simp [stmtAt_nil]
  | .BlockStmt stmts, p, k :: r, tgt, h => by
    by_cases hk : k = 0
    · subst hk
      simp only [stmtAt, ↓reduceIte] at h
      have ih := stmtsAt_nonLoopStmts T stmts (p ++ [0]) 0 r tgt h
      simpa [nonLoopStmt, nonLoopPre, stmtAt] using ih
    · simp [stmtAt, hk] at h
  | .IfStmt init cond body els, p, k :: r, tgt, h => by
    by_cases h0 : k = 0
    · subst h0
      simp only [stmtAt, ↓reduceIte] at h
      have ih := stmtAt_nonLoopStmt T init (p ++ [0]) r tgt h
      simpa [nonLoopStmt, nonLoopPre, stmtAt] using ih
    · by_cases h2 : k = 2
      · subst h2
        match r, h with
        | [], h => simp [stmtAt] at h
        | j :: r, h =>
          by_cases hj : j = 0
          · subst hj
            simp only [stmtAt, ↓reduceIte] at h
            simp at h
            have ih := stmtsAt_nonLoopStmts T body (p ++ [2, 0]) 0 r tgt h
            simpa [nonLoopStmt, nonLoopPre, stmtAt] using ih
          · simp [stmtAt, hj] at h
      · by_cases h3 : k = 3
        · subst h3
          simp only [stmtAt, ↓reduceIte] at h
          simp at h
          have ih := stmtAt_nonLoopStmt T els (p ++ [3]) r tgt h
          simpa [nonLoopStmt, nonLoopPre, stmtAt] using ih
        · simp [stmtAt, h0, h2, h3] at h
  | .ForStmt init cond post body, p, k :: r, tgt, h => by
    by_cases h0 : k = 0
    · subst h0
      simp only [stmtAt, ↓reduceIte] at h
      have ih := stmtAt_nonLoopStmt T init (p ++ [0]) r tgt h
      simpa [nonLoopStmt, nonLoopPre, stmtAt] using ih
    · by_cases h2 : k = 2
      · subst h2
        simp only [stmtAt, ↓reduceIte] at h
        simp at h
        have ih := stmtAt_nonLoopStmt T post (p ++ [2]) r tgt h
        simpa [nonLoopStmt, nonLoopPre, stmtAt] using ih
      · by_cases h3 : k = 3
        · subst h3
          match r, h with
          | [], h => simp [stmtAt] at h
          | j :: r, h =>
            by_cases hj : j = 0
            · subst hj
              simp only [stmtAt, ↓reduceIte] at h
              simp at h
              have ih := stmtsAt_nonLoopStmts T body (p ++ [3, 0]) 0 r tgt h
              simpa [nonLoopStmt, nonLoopPre, stmtAt] using ih
            · simp [stmtAt, hj] at h
        · simp [stmtAt, h0, h2, h3] at h
  | .RangeStmt key value tok x body, p, k :: r, tgt, h => by
    by_cases h3 : k = 3
    · subst h3
      match r, h with
      | [], h => simp [stmtAt] at h
      | j :: r, h =>
        by_cases hj : j = 0
        · subst hj
          simp only [stmtAt, ↓reduceIte] at h
          have ih := stmtsAt_nonLoopStmts T body (p ++ [3, 0]) 0 r tgt h
          simpa [nonLoopStmt, nonLoopPre, stmtAt] using ih
        · simp [stmtAt, hj] at h
    · simp [stmtAt, h3] at h
  | .Nil, _, _ :: _, _, h | .ExprStmt _, _, _ :: _, _, h | .AssignStmt _ _ _, _, _ :: _, _, h
  | .IncDecStmt _ _, _, _ :: _, _, h | .DeclStmt _ _, _, _ :: _, _, h
  | .ReturnStmt _, _, _ :: _, _, h => by
    simp [stmtAt] at h
theorem stmtsAt_nonLoopStmts (T : List Path) : ∀ (l : List Stmt) (p : Path) (i : Nat)
    (r : Path) (tgt : Stmt), stmtsAt i l r = some tgt →
    stmtsAt i (nonLoopStmts T p i l) r = some (nonLoopStmt T (p ++ r) tgt)
  | [], _, _, _, _, h => by simp [stmtsAt] at h
  | _ :: _, _, _, [], _, h => by simp [stmtsAt] at h
  | s :: ss, p, i, j :: r, tgt, h => by
    by_cases hj : j = i
    · subst hj
      simp only [stmtsAt, ↓reduceIte] at h
      have ih := stmtAt_nonLoopStmt T s (p ++ [j]) r tgt h
      simpa [nonLoopStmts, stmtsAt] using ih
    · simp only [stmtsAt, hj, ↓reduceIte] at h
      have ih := stmtsAt_nonLoopStmts T ss p (i + 1) (j :: r) tgt h
      simpa [nonLoopStmts, stmtsAt, hj] using ih
end

theorem declStmtAt_nonLoopDecl (T : List Path) (d : Decl) (p r : Path) (tgt : Stmt)
    (h : declStmtAt d r = some tgt) :
    declStmtAt (nonLoopDecl T p d) r = some (nonLoopStmt T (p ++ r) tgt) := by
  cases d with
  | GenDecl tok specs => simp [declStmtAt] at h
  | FuncDecl name params results body =>
    match r, h with
    | [], h => simp [declStmtAt] at h
    | [_], h => simp [declStmtAt] at h
    | a :: b :: r, h =>
      by_cases hab : a = 2 ∧ b = 0
      · obtain ⟨ha, hb⟩ := hab
        subst ha; subst hb
        simp only [declStmtAt, and_self, ↓reduceIte] at h
        have ih := stmtsAt_nonLoopStmts T body (p ++ [2, 0]) 0 r tgt h
        simpa [nonLoopDecl, declStmtAt] using ih
      · simp [declStmtAt, hab] at h

theorem declsStmtAt_nonLoopDecls (T : List Path) : ∀ (ds : List Decl) (p : Path) (i : Nat)
    (r : Path) (tgt : Stmt), declsStmtAt i ds r = some tgt →
    declsStmtAt i (nonLoopDecls T p i ds) r = some (nonLoopStmt T (p ++ r) tgt)
  | [], _, _, _, _, h => by simp [declsStmtAt] at h
  | _ :: _, _, _, [], _, h => by simp [declsStmtAt] at h
  | d :: ds, p, i, j :: r, tgt, h => by
    by_cases hj : j = i
    · subst hj
      simp only [declsStmtAt, ↓reduceIte] at h
      have ih := declStmtAt_nonLoopDecl T d (p ++ [j]) r tgt h
      simpa [nonLoopDecls, declsStmtAt] using ih
    · simp only [declsStmtAt, hj, ↓reduceIte] at h
      have ih := declsStmtAt_nonLoopDecls T ds p (i + 1) (j :: r) tgt h
      simpa [nonLoopDecls, declsStmtAt, hj] using ih

/-- The statement at a position of the result of `transformNonLoopAddAssign` is the walk, at
that position, of the statement that was there. -/
theorem fileStmtAt_transformNonLoopAddAssign (T : List Path) (f : File) (q : Path)
    (tgt : Stmt) (h : fileStmtAt f q = some tgt) :
    fileStmtAt (transformNonLoopAddAssign f T) q = some (nonLoopStmt T q tgt) := by
  match q, h with
  | [], h => simp [fileStmtAt] at h
  | k :: r, h =>
    by_cases hk : k = 1
    · subst hk
      simp only [fileStmtAt, ↓reduceIte] at h
      have := declsStmtAt_nonLoopDecls T f.Decls [1] 0 r tgt h
      simpa [fileStmtAt, transformNonLoopAddAssign] using this
    · simp [fileStmtAt, hk] at h

/-- Standalone rewrite of a double-quoted literal: for every statement `x += L` of a file that
is not inside any for-loop body, where `x` is a plain identifier and `L` is a double-quoted
string literal whose content is at least 50 bytes of printable ASCII without quote or
backslash, `transformNonLoopAddAssign` (with the table of `collectNodesInForLoop`) puts in the
place of the statement a block of exactly four statements, in order:
`var xBuilder strings.Builder`; `xBuilder.WriteString(x)`; `xBuilder.WriteString(C)`;
`x = xBuilder.String()`, where `C` is a left-associative chain of additions of string
literals, each with content of at most 32 bytes, whose contents concatenated in order equal
the content of `L`. -/
theorem standalone_rewrite_shape_quoted (f : File) (q : Path) (x : String) (L : GoString)
    (hat : fileStmtAt f q = some (.AssignStmt [.Ident x] .ADD_ASSIGN [strLit L]))
    (hout : fileInForBody f q = false) (hlen : 50 ≤ L.length) (hplain : plain L = true) :
    ∃ (C : Expr) (chunks : List GoString),
      fileStmtAt (transformNonLoopAddAssign f (collectNodesInForLoop f)) q
        = some (.BlockStmt [
            builderDecl (x ++ "Builder"),
            writeStringStmt (x ++ "Builder") (.Ident x),
            writeStringStmt (x ++ "Builder") C,
            .AssignStmt [.Ident x] .ASSIGN [builderString (x ++ "Builder")]])
      ∧ chainLits C = some (chunks.map quoted)
      ∧ (∀ c ∈ chunks, c.length ≤ 32)
      ∧ chunks.flatten = L := by
  obtain ⟨C, chunks, hblock, hrest⟩ := nonLoopStmt_literal_addAssign
    (collectNodesInForLoop f) q x L (not_mem_collect_of_not_inForBody f q hout) hlen hplain
  refine ⟨C, chunks, ?_, hrest⟩
  rw [fileStmtAt_transformNonLoopAddAssign _ f q _ hat, hblock]

/-- The standalone rewrite of a double-quoted literal at the statement
`s += "The quick ... times."` (58 bytes) inside an `if` in a range loop that follows a `for`
loop: `func f() { for { s += t }; for range xs { if c { s += ".." } } }`. -/
theorem standalone_rewrite_shape_quoted_example :
    (fileStmtAt ⟨"main", [], [.FuncDecl "f" [] [] [
          .ForStmt .Nil .Nil .Nil [.AssignStmt [.Ident "s"] .ADD_ASSIGN [.Ident "t"]],
          .RangeStmt .Nil .Nil .DEFINE (.Ident "xs") [.IfStmt .Nil (.Ident "c") [
            .AssignStmt [.Ident "s"] .ADD_ASSIGN
              [strLit (ascii "The quick brown fox jumps over the lazy dog so many times.")]]
            .Nil]]]⟩ [1, 0, 2, 0, 1, 3, 0, 0, 2, 0, 0]
        = some (.AssignStmt [.Ident "s"] .ADD_ASSIGN
              [strLit (ascii "The quick brown fox jumps over the lazy dog so many times.")])
      ∧ fileInForBody ⟨"main", [], [.FuncDecl "f" [] [] [
          .ForStmt .Nil .Nil .Nil [.AssignStmt [.Ident "s"] .ADD_ASSIGN [.Ident "t"]],
          .RangeStmt .Nil .Nil .DEFINE (.Ident "xs") [.IfStmt .Nil (.Ident "c") [
            .AssignStmt [.Ident "s"] .ADD_ASSIGN
              [strLit (ascii "The quick brown fox jumps over the lazy dog so many times.")]]
            .Nil]]]⟩ [1, 0, 2, 0, 1, 3, 0, 0, 2, 0, 0] = false
      ∧ 50 ≤ (ascii "The quick brown fox jumps over the lazy dog so many times.").length
      ∧ plain (ascii "The quick brown fox jumps over the lazy dog so many times.") = true)
    ∧ ∃ (C : Expr) (chunks : List GoString),
      fileStmtAt (transformNonLoopAddAssign ⟨"main", [], [.FuncDecl "f" [] [] [
          .ForStmt .Nil .Nil .Nil [.AssignStmt [.Ident "s"] .ADD_ASSIGN [.Ident "t"]],
          .RangeStmt .Nil .Nil .DEFINE (.Ident "xs") [.IfStmt .Nil (.Ident "c") [
            .AssignStmt [.Ident "s"] .ADD_ASSIGN
              [strLit (ascii "The quick brown fox jumps over the lazy dog so many times.")]]
            .Nil]]]⟩ (collectNodesInForLoop ⟨"main", [], [.FuncDecl "f" [] [] [
          .ForStmt .Nil .Nil .Nil [.AssignStmt [.Ident "s"] .ADD_ASSIGN [.Ident "t"]],
          .RangeStmt .Nil .Nil .DEFINE (.Ident "xs") [.IfStmt .Nil (.Ident "c") [
            .AssignStmt [.Ident "s"] .ADD_ASSIGN
              [strLit (ascii "The quick brown fox jumps over the lazy dog so many times.")]]
            .Nil]]]⟩)) [1, 0, 2, 0, 1, 3, 0, 0, 2, 0, 0]
        = some (.BlockStmt [
            builderDecl ("s" ++ "Builder"),
            writeStringStmt ("s" ++ "Builder") (.Ident "s"),
            writeStringStmt ("s" ++ "Builder") C,
            .AssignStmt [.Ident "s"] .ASSIGN [builderString ("s" ++ "Builder")]])
      ∧ chainLits C = some (chunks.map quoted)
      ∧ (∀ c ∈ chunks, c.length ≤ 32)
      ∧ chunks.flatten = ascii "The quick brown fox jumps over the lazy dog so many times." :=
  ⟨⟨rfl, rfl, by decide, rfl⟩,
    standalone_rewrite_shape_quoted _ [1, 0, 2, 0, 1, 3, 0, 0, 2, 0, 0] "s" _ rfl rfl
      (by decide) rfl⟩

/-- C3 (standalone rewrite shape), at the statement `s += L` of
`func f() { s += L }` where `L` is the raw string literal (content between backquotes) with
the content `The quick brown fox jumps over the lazy dog so many times.` (58 bytes of
printable ASCII without quote or backslash): the statement is replaced by the four-statement
block, but the chain holds the two literals with the contents (backquote)`The quick brown fox
jumps over ` and `the lazy dog so many times.`(backquote); concatenated they are the content
of `L` between two backquote characters, not the content of `L`. -/
theorem C3_raw_literal_keeps_backquotes :
    (plain (ascii "The quick brown fox jumps over the lazy dog so many times.") = true
      ∧ 50 ≤ (ascii "The quick brown fox jumps over the lazy dog so many times.").length
      ∧ fileStmtAt ⟨"main", [], [.FuncDecl "f" [] [] [
          .AssignStmt [.Ident "s"] .ADD_ASSIGN
            [rawLit (ascii "The quick brown fox jumps over the lazy dog so many times.")]]]⟩
          [1, 0, 2, 0, 0]
        = some (.AssignStmt [.Ident "s"] .ADD_ASSIGN
            [rawLit (ascii "The quick brown fox jumps over the lazy dog so many times.")])
      ∧ fileInForBody ⟨"main", [], [.FuncDecl "f" [] [] [
          .AssignStmt [.Ident "s"] .ADD_ASSIGN
            [rawLit (ascii "The quick brown fox jumps over the lazy dog so many times.")]]]⟩
          [1, 0, 2, 0, 0] = false)
    ∧ fileStmtAt (transformNonLoopAddAssign ⟨"main", [], [.FuncDecl "f" [] [] [
          .AssignStmt [.Ident "s"] .ADD_ASSIGN
            [rawLit (ascii "The quick brown fox jumps over the lazy dog so many times.")]]]⟩
        (collectNodesInForLoop ⟨"main", [], [.FuncDecl "f" [] [] [
          .AssignStmt [.Ident "s"] .ADD_ASSIGN
            [rawLit (ascii "The quick brown fox jumps over the lazy dog so many times.")]]]⟩))
        [1, 0, 2, 0, 0]
      = some (.BlockStmt [
          builderDecl "sBuilder",
          writeStringStmt "sBuilder" (.Ident "s"),
          writeStringStmt "sBuilder" (.BinaryExpr
            (strLit (backquote :: ascii "The quick brown fox jumps over ")) .ADD
            (strLit (ascii "the lazy dog so many times." ++ [backquote]))),
          .AssignStmt [.Ident "s"] .ASSIGN [builderString "sBuilder"]])
    ∧ (backquote :: ascii "The quick brown fox jumps over ")
        ++ (ascii "the lazy dog so many times." ++ [backquote])
      = backquote :: (ascii "The quick brown fox jumps over the lazy dog so many times."
          ++ [backquote])
    ∧ (backquote :: ascii "The quick brown fox jumps over ")
        ++ (ascii "the lazy dog so many times." ++ [backquote])
      ≠ ascii "The quick brown fox jumps over the lazy dog so many times." := by
  refine ⟨⟨rfl, by decide, rfl, rfl⟩, rfl, rfl, by decide⟩

/-! ### C5, C6 -/

/-- C5, as stated, fails at `"aaaaaaaaaaaaaaaaaaaaaaaaaaaaaaaaa" + "b"` (33 bytes, then 1): the
expression is an addition whose leaves are string literals of printable ASCII, and the
expression that `transformBinaryConcat` puts in its place still holds the 33-byte literal. -/
theorem C5_leftmost_literal_not_chunked :
    isAddition (.BinaryExpr (strLit (List.replicate 33 97)) .ADD (strLit [98])) = true
    ∧ flattenConcat (.BinaryExpr (strLit (List.replicate 33 97)) .ADD (strLit [98]))
        = [List.replicate 33 97, [98]].map strLit
    ∧ (∀ c ∈ [List.replicate 33 97, [98]], plain c = true)
    ∧ binaryConcatExpr (.BinaryExpr (strLit (List.replicate 33 97)) .ADD (strLit [98]))
        = .BinaryExpr (strLit (List.replicate 33 97)) .ADD (strLit [98])
    ∧ ¬ (∀ v ∈ stringLits (binaryConcatExpr
          (.BinaryExpr (strLit (List.replicate 33 97)) .ADD (strLit [98]))),
        (literalContent v).length ≤ bufSize) := by
  refine ⟨rfl, rfl, by decide, rfl, ?_⟩
  intro h
  have h33 := h (quoted (List.replicate 33 97)) (by decide)
  revert h33
  decide

theorem binaryConcatExpr_pure (e : Expr) (hadd : isAddition e = true)
    (hpure : isPureStringConcat e = true) : binaryConcatExpr e = processConcatExpr e true := by
  cases e <;> simp_all [isAddition, binaryConcatExpr, binaryConcatPre]

/-- C5, amended: for every addition expression all of whose flattened leaves are string
literals with contents of printable ASCII without quote or backslash, the expression that
`transformBinaryConcat` puts in its place keeps the leftmost literal as it is, whatever its
length, and every other string literal in it has content of at most the bound (32 bytes). -/
theorem C5_all_but_leftmost_chunked (e : Expr) (cs : List GoString)
    (hadd : isAddition e = true) (hleaves : flattenConcat e = cs.map strLit)
    (hplain : ∀ c ∈ cs, plain c = true) :
    ∃ (c0 : GoString) (vs : List GoString),
      cs.head? = some c0
      ∧ stringLits (binaryConcatExpr e) = quoted c0 :: vs
      ∧ ∀ v ∈ vs, (literalContent v).length ≤ bufSize := by
  rw [binaryConcatExpr_pure e hadd (isPureStringConcat_of_leaves e cs hleaves)]
  cases cs with
  | nil => exact absurd hleaves (by simpa using flattenConcat_ne_nil e)
  | cons c0 cs =>
    refine ⟨c0, (cs.flatMap (fun c => flattenConcat (chunkString (quoted c)))).flatMap stringLits,
      rfl, ?_, ?_⟩
    · simp only [processConcatExpr, hleaves, List.map_cons, processParts_first,
        processParts_quoted true cs 1 (Or.inl (by decide)), stringLits_makeFlat,
        List.flatMap_cons]
      simp [strLit, stringLits]
    · intro v hv
      simp only [List.mem_flatMap] at hv
      obtain ⟨x, ⟨c, hc, hx⟩, hv⟩ := hv
      exact stringLits_chunkString_bound c (hplain c (List.mem_cons_of_mem _ hc)) v
        (List.mem_flatMap.mpr ⟨x, hx, hv⟩)

/-- C5, amended, at `"aaaaaaaaaaaaaaaaaaaaaaaaaaaaaaaaa" + "b"`. -/
theorem C5_all_but_leftmost_chunked_witness :
    (isAddition (.BinaryExpr (strLit (List.replicate 33 97)) .ADD (strLit [98])) = true
      ∧ flattenConcat (.BinaryExpr (strLit (List.replicate 33 97)) .ADD (strLit [98]))
          = [List.replicate 33 97, [98]].map strLit
      ∧ ∀ c ∈ [List.replicate 33 97, [98]], plain c = true)
    ∧ ∃ (c0 : GoString) (vs : List GoString),
      [List.replicate 33 97, [98]].head? = some c0
      ∧ stringLits (binaryConcatExpr
          (.BinaryExpr (strLit (List.replicate 33 97)) .ADD (strLit [98]))) = quoted c0 :: vs
      ∧ ∀ v ∈ vs, (literalContent v).length ≤ bufSize :=
  ⟨⟨rfl, rfl, by decide⟩,
    C5_all_but_leftmost_chunked _ [List.replicate 33 97, [98]] rfl rfl (by decide)⟩

/-- The pure-literal rewrite preserves the text of double-quoted literals: for every expression
all of whose flattened leaves are double-quoted string literals with non-empty contents of
printable ASCII without quote or backslash, `processConcatExpr(expr, true)` is a
left-associative chain of string literals whose contents, concatenated left to right, equal
the concatenation of the contents of the original leaves left to right. -/
theorem pure_literal_text_preserved_quoted (e : Expr) (cs : List GoString)
    (hleaves : flattenConcat e = cs.map strLit)
    (hplain : ∀ c ∈ cs, plain c = true ∧ c ≠ []) :
    ∃ ds : List GoString,
      chainLits (processConcatExpr e true) = some (ds.map quoted)
      ∧ ds.flatten = cs.flatten := by
  cases cs with
  | nil => exact absurd hleaves (by simpa using flattenConcat_ne_nil e)
  | cons c0 cs =>
    refine ⟨c0 :: cs.flatMap (fun c => splitChunks c bufSize), ?_, ?_⟩
    · simp only [processConcatExpr, hleaves, List.map_cons, processParts_first]
      rw [processParts_strLits true cs 1 (Or.inl (by decide))
        (fun c hc => hplain c (List.mem_cons_of_mem _ hc))]
      exact chainLits_makeFlat (c0 :: cs.flatMap (fun c => splitChunks c bufSize)) (by simp)
    · simp [flatMap_splitChunks_flatten bufSize (by decide) cs]

/-- The pure-literal rewrite at `"ab" + "cd" + "ef"`. -/
theorem pure_literal_text_preserved_quoted_example :
    (flattenConcat (.BinaryExpr (.BinaryExpr (strLit (ascii "ab")) .ADD (strLit (ascii "cd")))
        .ADD (strLit (ascii "ef"))) = [ascii "ab", ascii "cd", ascii "ef"].map strLit
      ∧ ∀ c ∈ [ascii "ab", ascii "cd", ascii "ef"], plain c = true ∧ c ≠ [])
    ∧ ∃ ds : List GoString,
      chainLits (processConcatExpr
        (.BinaryExpr (.BinaryExpr (strLit (ascii "ab")) .ADD (strLit (ascii "cd")))
          .ADD (strLit (ascii "ef"))) true) = some (ds.map quoted)
      ∧ ds.flatten = [ascii "ab", ascii "cd", ascii "ef"].flatten :=
  ⟨⟨rfl, by decide⟩,
    pure_literal_text_preserved_quoted _ [ascii "ab", ascii "cd", ascii "ef"] rfl
      (by decide)⟩

/-- C6 (pure-literal rewrite preserves the text), at the addition of the two raw string
literals with the contents `ab` and `cd`: all leaves are string literals with non-empty
contents of printable ASCII without quote or backslash, and `processConcatExpr(expr, true)`
is the chain of the raw literal `ab` and the literal with the content (backquote)`cd`(backquote);
the contents concatenated are `ab`(backquote)`cd`(backquote), not `abcd`. -/
theorem C6_raw_literal_text_changed :
    (isPureStringConcat (.BinaryExpr (rawLit (ascii "ab")) .ADD (rawLit (ascii "cd"))) = true
      ∧ flattenConcat (.BinaryExpr (rawLit (ascii "ab")) .ADD (rawLit (ascii "cd")))
        = [rawLit (ascii "ab"), rawLit (ascii "cd")]
      ∧ plain (ascii "ab") = true ∧ plain (ascii "cd") = true)
    ∧ processConcatExpr (.BinaryExpr (rawLit (ascii "ab")) .ADD (rawLit (ascii "cd"))) true
      = .BinaryExpr (rawLit (ascii "ab")) .ADD
          (strLit (backquote :: (ascii "cd" ++ [backquote])))
    ∧ (chainLits (processConcatExpr
          (.BinaryExpr (rawLit (ascii "ab")) .ADD (rawLit (ascii "cd"))) true)).map
        (fun vs => (vs.map literalContent).flatten)
      = some (ascii "ab" ++ (backquote :: (ascii "cd" ++ [backquote])))
    ∧ ascii "ab" ++ (backquote :: (ascii "cd" ++ [backquote])) ≠ ascii "ab" ++ ascii "cd" := by
  refine ⟨⟨rfl, rfl, rfl, rfl⟩, rfl, rfl, by decide⟩

/-! ### C4 -/

mutual
theorem concatVarsStmt_of_no_addAssign : ∀ s : Stmt,
    hasAddAssignStmt s = false → concatVarsStmt s = []
  | .AssignStmt lhs tok rhs, h => by
    simp only [hasAddAssignStmt, decide_eq_false_iff_not] at h
    simp [concatVarsStmt, h]
  | .BlockStmt stmts, h => by
    simp only [hasAddAssignStmt] at h
    simp [concatVarsStmt, concatVarsStmts_of_no_addAssign stmts h]
  | .IfStmt init _ body els, h => by
    simp only [hasAddAssignStmt, Bool.or_eq_false_iff] at h
    simp [concatVarsStmt, concatVarsStmt_of_no_addAssign init h.1.1,
      concatVarsStmts_of_no_addAssign body h.1.2, concatVarsStmt_of_no_addAssign els h.2]
  | .ForStmt init _ post body, h => by
    simp only [hasAddAssignStmt, Bool.or_eq_false_iff] at h
    simp [concatVarsStmt, concatVarsStmt_of_no_addAssign init h.1.1,
      concatVarsStmt_of_no_addAssign post h.1.2, concatVarsStmts_of_no_addAssign body h.2]
  | .RangeStmt _ _ _ _ body, h => by
    simp only [hasAddAssignStmt] at h
    simp [concatVarsStmt, concatVarsStmts_of_no_addAssign body h]
  | .Nil, _ | .ExprStmt _, _ | .IncDecStmt _ _, _ | .DeclStmt _ _, _ | .ReturnStmt _, _ => by
    simp [concatVarsStmt]
theorem concatVarsStmts_of_no_addAssign : ∀ l : List Stmt,
    hasAddAssignStmts l = false → concatVarsStmts l = []
  | [], _ => rfl
  | s :: ss, h => by
    simp only [hasAddAssignStmts, Bool.or_eq_false_iff] at h
    simp [concatVarsStmts, concatVarsStmt_of_no_addAssign s h.1,
      concatVarsStmts_of_no_addAssign ss h.2]
end

theorem concatVarsStmts_append : ∀ l₁ l₂ : List Stmt,
    concatVarsStmts (l₁ ++ l₂) = concatVarsStmts l₁ ++ concatVarsStmts l₂
  | [], _ => rfl
  | s :: ss, l₂ => by simp [concatVarsStmts, concatVarsStmts_append ss l₂]

theorem rewriteLoopStmt_of_no_addAssign (varName builderName : String) (s : Stmt)
    (h : hasAddAssignStmt s = false) : rewriteLoopStmt varName builderName s = s := by
  cases s <;> simp_all [rewriteLoopStmt, hasAddAssignStmt]

theorem map_rewriteLoopStmt_of_no_addAssign (varName builderName : String) :
    ∀ l : List Stmt, hasAddAssignStmts l = false →
      l.map (rewriteLoopStmt varName builderName) = l
  | [], _ => rfl
  | s :: ss, h => by
    simp only [hasAddAssignStmts, Bool.or_eq_false_iff] at h
    simp [rewriteLoopStmt_of_no_addAssign varName builderName s h.1,
      map_rewriteLoopStmt_of_no_addAssign varName builderName ss h.2]

theorem processConcatExpr_ident (name : String) (first : Bool) :
    processConcatExpr (.Ident name) first = .Ident name := by
  cases first <;> simp [processConcatExpr, flattenConcat, processParts, makeFlatBinaryExpr]

/-- The walk of `transformForLoopConcatenation` at a loop whose body holds, as its only
compound add-assign, the top-level statement `total += item`. -/
theorem forLoopStmt_single_target (init : Stmt) (cond : Expr) (post : Stmt)
    (before after : List Stmt) (total item : String)
    (hbefore : hasAddAssignStmts before = false) (hafter : hasAddAssignStmts after = false) :
    forLoopStmt (.ForStmt init cond post
        (before ++ [.AssignStmt [.Ident total] .ADD_ASSIGN [.Ident item]] ++ after))
      = .BlockStmt [
          builderDecl (total ++ "Builder"),
          .ForStmt init cond post
            (before ++ [writeStringStmt (total ++ "Builder") (.Ident item)] ++ after),
          .AssignStmt [.Ident total] .ASSIGN
            [.BinaryExpr (.Ident total) .ADD (builderString (total ++ "Builder"))]] := by
  have hvars : concatVarsStmts
      (before ++ .AssignStmt [.Ident total] .ADD_ASSIGN [.Ident item] :: after) = [total] := by
    simp [concatVarsStmts_append, concatVarsStmts_of_no_addAssign before hbefore,
      concatVarsStmts_of_no_addAssign after hafter, concatVarsStmts, concatVarsStmt]
  simp [forLoopStmt, forLoopPre, hvars, forLoopStep,
    map_rewriteLoopStmt_of_no_addAssign _ _ before hbefore,
    map_rewriteLoopStmt_of_no_addAssign _ _ after hafter, rewriteLoopStmt,
    processConcatExpr_ident]

theorem forLoopStmts_eq_map : ∀ l : List Stmt, forLoopStmts l = l.map forLoopStmt
  | [] => rfl
  | s :: ss => by simp [forLoopStmts, forLoopStmts_eq_map ss]

mutual
/-- The walk of `transformForLoopConcatenation` acts at every statement position that is not
below a `for` statement. -/
theorem stmtAt_forLoopStmt : ∀ (s : Stmt) (r : Path) (tgt : Stmt),
    stmtAt s r = some tgt → underForStmt s r = false →
    stmtAt (forLoopStmt s) r = some (forLoopStmt tgt)
  | s, [], tgt, h, _ => by
    rw [stmtAt_nil] at h
    cases h
    simp [stmtAt_nil]
  | .BlockStmt stmts, k :: r, tgt, h, hu => by
    by_cases hk : k = 0
    · subst hk
      simp only [stmtAt, ↓reduceIte] at h
      simp only [underForStmt, ↓reduceIte] at hu
      have ih := stmtsAt_forLoopStmts stmts 0 r tgt h hu
      simpa [forLoopStmt, forLoopPre, stmtAt] using ih
    · simp [stmtAt, hk] at h
  | .IfStmt init cond body els, k :: r, tgt, h, hu => by
    by_cases h0 : k = 0
    · subst h0
      simp only [stmtAt, ↓reduceIte] at h
      simp only [underForStmt, ↓reduceIte] at hu
      have ih := stmtAt_forLoopStmt init r tgt h hu
      simpa [forLoopStmt, forLoopPre, stmtAt] using ih
    · by_cases h2 : k = 2
      · subst h2
        match r, h, hu with
        | [], h, _ => simp [stmtAt] at h
        | j :: r, h, hu =>
          by_cases hj : j = 0
          · subst hj
            simp only [stmtAt, ↓reduceIte] at h
            simp only [underForStmt, ↓reduceIte] at hu
            simp at h hu
            have ih := stmtsAt_forLoopStmts body 0 r tgt h hu
            simpa [forLoopStmt, forLoopPre, stmtAt] using ih
          · simp [stmtAt, hj] at h
      · by_cases h3 : k = 3
        · subst h3
          simp only [stmtAt, ↓reduceIte] at h
          simp only [underForStmt, ↓reduceIte] at hu
          simp at h hu
          have ih := stmtAt_forLoopStmt els r tgt h hu
          simpa [forLoopStmt, forLoopPre, stmtAt] using ih
        · simp [stmtAt, h0, h2, h3] at h
  | .ForStmt _ _ _ _, _ :: _, _, _, hu => by
    simp [underForStmt] at hu
  | .RangeStmt key value tok x body, k :: r, tgt, h, hu => by
    by_cases h3 : k = 3
    · subst h3
      match r, h, hu with
      | [], h, _ => simp [stmtAt] at h
      | j :: r, h, hu =>
        by_cases hj : j = 0
        · subst hj
          simp only [stmtAt, ↓reduceIte] at h
          simp only [underForStmt, ↓reduceIte] at hu
          have ih := stmtsAt_forLoopStmts body 0 r tgt h hu
          simpa [forLoopStmt, forLoopPre, stmtAt] using ih
        · simp [stmtAt, hj] at h
    · simp [stmtAt, h3] at h
  | .Nil, _ :: _, _, h, _ | .ExprStmt _, _ :: _, _, h, _ | .AssignStmt _ _ _, _ :: _, _, h, _
  | .IncDecStmt _ _, _ :: _, _, h, _ | .DeclStmt _ _, _ :: _, _, h, _
  | .ReturnStmt _, _ :: _, _, h, _ => by
    simp [stmtAt] at h
theorem stmtsAt_forLoopStmts : ∀ (l : List Stmt) (i : Nat) (r : Path) (tgt : Stmt),
    stmtsAt i l r = some tgt → underForStmts i l r = false →
    stmtsAt i (forLoopStmts l) r = some (forLoopStmt tgt)
  | [], _, _, _, h, _ => by simp [stmtsAt] at h
  | _ :: _, _, [], _, h, _ => by simp [stmtsAt] at h
  | s :: ss, i, j :: r, tgt, h, hu => by
    by_cases hj : j = i
    · subst hj
      simp only [stmtsAt, ↓reduceIte] at h
      simp only [underForStmts, ↓reduceIte] at hu
      have ih := stmtAt_forLoopStmt s r tgt h hu
      simpa [forLoopStmts, stmtsAt] using ih
    · simp only [stmtsAt, hj, ↓reduceIte] at h
      simp only [underForStmts, hj, ↓reduceIte] at hu
      have ih := stmtsAt_forLoopStmts ss (i + 1) (j :: r) tgt h hu
      simpa [forLoopStmts, stmtsAt, hj] using ih
end

theorem declStmtAt_forLoopDecl (d : Decl) (r : Path) (tgt : Stmt)
    (h : declStmtAt d r = some tgt) (hu : declUnderFor d r = false) :
    declStmtAt (forLoopDecl d) r = some (forLoopStmt tgt) := by
  cases d with
  | GenDecl tok specs => simp [declStmtAt] at h
  | FuncDecl name params results body =>
    match r, h, hu with
    | [], h, _ => simp [declStmtAt] at h
    | [_], h, _ => simp [declStmtAt] at h
    | a :: b :: r, h, hu =>
      by_cases hab : a = 2 ∧ b = 0
      · obtain ⟨ha, hb⟩ := hab
        subst ha; subst hb
        simp only [declStmtAt, and_self, ↓reduceIte] at h
        simp only [declUnderFor, and_self, ↓reduceIte] at hu
        have ih := stmtsAt_forLoopStmts body 0 r tgt h hu
        simpa [forLoopDecl, declStmtAt] using ih
      · simp [declStmtAt, hab] at h

theorem declsStmtAt_forLoopDecls : ∀ (ds : List Decl) (i : Nat) (r : Path) (tgt : Stmt),
    declsStmtAt i ds r = some tgt → declsUnderFor i ds r = false →
    declsStmtAt i (ds.map forLoopDecl) r = some (forLoopStmt tgt)
  | [], _, _, _, h, _ => by simp [declsStmtAt] at h
  | _ :: _, _, [], _, h, _ => by simp [declsStmtAt] at h
  | d :: ds, i, j :: r, tgt, h, hu => by
    by_cases hj : j = i
    · subst hj
      simp only [declsStmtAt, ↓reduceIte] at h
      simp only [declsUnderFor, ↓reduceIte] at hu
      have ih := declStmtAt_forLoopDecl d r tgt h hu
      simpa [declsStmtAt] using ih
    · simp only [declsStmtAt, hj, ↓reduceIte] at h
      simp only [declsUnderFor, hj, ↓reduceIte] at hu
      have ih := declsStmtAt_forLoopDecls ds (i + 1) (j :: r) tgt h hu
      simpa [declsStmtAt, hj] using ih

/-- The statement at a position of the result of `transformForLoopConcatenation` that is not
below a `for` statement is the walk of the statement that was there. -/
theorem fileStmtAt_transformForLoopConcatenation (f : File) (q : Path) (tgt : Stmt)
    (h : fileStmtAt f q = some tgt) (hu : fileUnderFor f q = false) :
    fileStmtAt (transformForLoopConcatenation f) q = some (forLoopStmt tgt) := by
  match q, h, hu with
  | [], h, _ => simp [fileStmtAt] at h
  | k :: r, h, hu =>
    by_cases hk : k = 1
    · subst hk
      simp only [fileStmtAt, ↓reduceIte] at h
      simp only [fileUnderFor, ↓reduceIte] at hu
      have := declsStmtAt_forLoopDecls f.Decls 0 r tgt h hu
      simpa [fileStmtAt, transformForLoopConcatenation] using this
    · simp [fileStmtAt, hk] at h

/-- C4, as stated, fails at the inner loop of `func f() { for a { for b { x += y } } }`: the
body of the inner loop holds, as its only compound add-assign, the top-level statement
`x += y`, but the pass wraps the outer loop and does not walk into it, so the inner loop
stands as it was, inside the wrapped outer loop, and is not replaced by a block. -/
theorem C4_inner_loop_not_replaced :
    (fileStmtAt ⟨"main", [], [.FuncDecl "f" [] [] [
        .ForStmt .Nil (.Ident "a") .Nil [
          .ForStmt .Nil (.Ident "b") .Nil
            ([] ++ [.AssignStmt [.Ident "x"] .ADD_ASSIGN [.Ident "y"]] ++ [])]]]⟩
        [1, 0, 2, 0, 0, 3, 0, 0]
      = some (.ForStmt .Nil (.Ident "b") .Nil
          ([] ++ [.AssignStmt [.Ident "x"] .ADD_ASSIGN [.Ident "y"]] ++ []))
      ∧ hasAddAssignStmts [] = false)
    ∧ transformForLoopConcatenation ⟨"main", [], [.FuncDecl "f" [] [] [
        .ForStmt .Nil (.Ident "a") .Nil [
          .ForStmt .Nil (.Ident "b") .Nil
            ([] ++ [.AssignStmt [.Ident "x"] .ADD_ASSIGN [.Ident "y"]] ++ [])]]]⟩
      = ⟨"main", [], [.FuncDecl "f" [] [] [
        .BlockStmt [
          builderDecl "xBuilder",
          .ForStmt .Nil (.Ident "a") .Nil [
            .ForStmt .Nil (.Ident "b") .Nil
              [.AssignStmt [.Ident "x"] .ADD_ASSIGN [.Ident "y"]]],
          .AssignStmt [.Ident "x"] .ASSIGN
            [.BinaryExpr (.Ident "x") .ADD (builderString "xBuilder")]]]]⟩
    ∧ fileStmtAt (transformForLoopConcatenation ⟨"main", [], [.FuncDecl "f" [] [] [
        .ForStmt .Nil (.Ident "a") .Nil [
          .ForStmt .Nil (.Ident "b") .Nil
            ([] ++ [.AssignStmt [.Ident "x"] .ADD_ASSIGN [.Ident "y"]] ++ [])]]]⟩)
        [1, 0, 2, 0, 0, 0, 1, 3, 0, 0]
      = some (.ForStmt .Nil (.Ident "b") .Nil
          [.AssignStmt [.Ident "x"] .ADD_ASSIGN [.Ident "y"]]) := by
  refine ⟨⟨rfl, rfl⟩, rfl, rfl⟩

/-- C4, amended: for every for-loop of a file that does not lie below another for statement
and whose body contains, as its only compound add-assign, the top-level statement
`total += item` with `item` an identifier, `transformForLoopConcatenation` puts in the place
of the loop a block of exactly three statements: `var totalBuilder strings.Builder`; the for
statement with the same init, condition and post parts and a body in which that statement is
replaced by `totalBuilder.WriteString(item)` and every other statement is unchanged; and
`total = total + totalBuilder.String()`. -/
theorem C4_outer_loop_rewrite_shape (f : File) (q : Path) (init : Stmt) (cond : Expr)
    (post : Stmt) (before after : List Stmt) (total item : String)
    (hat : fileStmtAt f q = some (.ForStmt init cond post
      (before ++ [.AssignStmt [.Ident total] .ADD_ASSIGN [.Ident item]] ++ after)))
    (hout : fileUnderFor f q = false)
    (hbefore : hasAddAssignStmts before = false) (hafter : hasAddAssignStmts after = false) :
    fileStmtAt (transformForLoopConcatenation f) q
      = some (.BlockStmt [
          builderDecl (total ++ "Builder"),
          .ForStmt init cond post
            (before ++ [writeStringStmt (total ++ "Builder") (.Ident item)] ++ after),
          .AssignStmt [.Ident total] .ASSIGN
            [.BinaryExpr (.Ident total) .ADD (builderString (total ++ "Builder"))]]) := by
  rw [fileStmtAt_transformForLoopConcatenation f q _ hat hout,
    forLoopStmt_single_target init cond post before after total item hbefore hafter]

/-- C4, amended, at the loop `for i := 0; i < n; i++ { n = m; total += item; return total }`
that is the second statement of `func f() { if c { }; for ... }`. -/
theorem C4_outer_loop_rewrite_shape_witness :
    (fileStmtAt ⟨"main", [], [.FuncDecl "f" [] [] [
          .IfStmt .Nil (.Ident "c") [] .Nil,
          .ForStmt (.AssignStmt [.Ident "i"] .DEFINE [.BasicLit .INT (ascii "0")])
            (.BinaryExpr (.Ident "i") .LSS (.Ident "n")) (.IncDecStmt (.Ident "i") .INC)
            ([.AssignStmt [.Ident "n"] .ASSIGN [.Ident "m"]]
              ++ [.AssignStmt [.Ident "total"] .ADD_ASSIGN [.Ident "item"]]
              ++ [.ReturnStmt [.Ident "total"]])]]⟩ [1, 0, 2, 0, 1]
        = some (.ForStmt (.AssignStmt [.Ident "i"] .DEFINE [.BasicLit .INT (ascii "0")])
            (.BinaryExpr (.Ident "i") .LSS (.Ident "n")) (.IncDecStmt (.Ident "i") .INC)
            ([.AssignStmt [.Ident "n"] .ASSIGN [.Ident "m"]]
              ++ [.AssignStmt [.Ident "total"] .ADD_ASSIGN [.Ident "item"]]
              ++ [.ReturnStmt [.Ident "total"]]))
      ∧ fileUnderFor ⟨"main", [], [.FuncDecl "f" [] [] [
          .IfStmt .Nil (.Ident "c") [] .Nil,
          .ForStmt (.AssignStmt [.Ident "i"] .DEFINE [.BasicLit .INT (ascii "0")])
            (.BinaryExpr (.Ident "i") .LSS (.Ident "n")) (.IncDecStmt (.Ident "i") .INC)
            ([.AssignStmt [.Ident "n"] .ASSIGN [.Ident "m"]]
              ++ [.AssignStmt [.Ident "total"] .ADD_ASSIGN [.Ident "item"]]
              ++ [.ReturnStmt [.Ident "total"]])]]⟩ [1, 0, 2, 0, 1] = false
      ∧ hasAddAssignStmts [.AssignStmt [.Ident "n"] .ASSIGN [.Ident "m"]] = false
      ∧ hasAddAssignStmts [.ReturnStmt [.Ident "total"]] = false)
    ∧ fileStmtAt (transformForLoopConcatenation ⟨"main", [], [.FuncDecl "f" [] [] [
          .IfStmt .Nil (.Ident "c") [] .Nil,
          .ForStmt (.AssignStmt [.Ident "i"] .DEFINE [.BasicLit .INT (ascii "0")])
            (.BinaryExpr (.Ident "i") .LSS (.Ident "n")) (.IncDecStmt (.Ident "i") .INC)
            ([.AssignStmt [.Ident "n"] .ASSIGN [.Ident "m"]]
              ++ [.AssignStmt [.Ident "total"] .ADD_ASSIGN [.Ident "item"]]
              ++ [.ReturnStmt [.Ident "total"]])]]⟩) [1, 0, 2, 0, 1]
      = some (.BlockStmt [
          builderDecl ("total" ++ "Builder"),
          .ForStmt (.AssignStmt [.Ident "i"] .DEFINE [.BasicLit .INT (ascii "0")])
            (.BinaryExpr (.Ident "i") .LSS (.Ident "n")) (.IncDecStmt (.Ident "i") .INC)
            ([.AssignStmt [.Ident "n"] .ASSIGN [.Ident "m"]]
              ++ [writeStringStmt ("total" ++ "Builder") (.Ident "item")]
              ++ [.ReturnStmt [.Ident "total"]]),
          .AssignStmt [.Ident "total"] .ASSIGN
            [.BinaryExpr (.Ident "total") .ADD (builderString ("total" ++ "Builder"))]]) :=
  ⟨⟨rfl, rfl, rfl, rfl⟩,
    C4_outer_loop_rewrite_shape _ [1, 0, 2, 0, 1]
      (.AssignStmt [.Ident "i"] .DEFINE [.BasicLit .INT (ascii "0")])
      (.BinaryExpr (.Ident "i") .LSS (.Ident "n")) (.IncDecStmt (.Ident "i") .INC)
      [.AssignStmt [.Ident "n"] .ASSIGN [.Ident "m"]] [.ReturnStmt [.Ident "total"]]
      "total" "item" rfl rfl rfl rfl⟩

/-! ### C7 -/

/-- C7 (normalizer idempotence), at a file with the statement `y = ((x))`: one run of
`removeParens` leaves `y = (x)`, a second run leaves `y = x`, so applying it twice does not
give the same tree as applying it once. -/
theorem C7_nested_grouping_needs_two_runs :
    removeParens ⟨"main", [], [.FuncDecl "f" [] [] [
        .AssignStmt [.Ident "y"] .ASSIGN [.ParenExpr (.ParenExpr (.Ident "x"))]]]⟩
      = ⟨"main", [], [.FuncDecl "f" [] [] [
        .AssignStmt [.Ident "y"] .ASSIGN [.ParenExpr (.Ident "x")]]]⟩
    ∧ removeParens (removeParens ⟨"main", [], [.FuncDecl "f" [] [] [
        .AssignStmt [.Ident "y"] .ASSIGN [.ParenExpr (.ParenExpr (.Ident "x"))]]]⟩)
      = ⟨"main", [], [.FuncDecl "f" [] [] [
        .AssignStmt [.Ident "y"] .ASSIGN [.Ident "x"]]]⟩
    ∧ removeParens (removeParens ⟨"main", [], [.FuncDecl "f" [] [] [
        .AssignStmt [.Ident "y"] .ASSIGN [.ParenExpr (.ParenExpr (.Ident "x"))]]]⟩)
      ≠ removeParens ⟨"main", [], [.FuncDecl "f" [] [] [
        .AssignStmt [.Ident "y"] .ASSIGN [.ParenExpr (.ParenExpr (.Ident "x"))]]]⟩ := by
  refine ⟨rfl, rfl, ?_⟩
  intro h
  have h2 : (⟨"main", [], [.FuncDecl "f" [] [] [
        .AssignStmt [.Ident "y"] .ASSIGN [.Ident "x"]]]⟩ : File)
      = ⟨"main", [], [.FuncDecl "f" [] [] [
        .AssignStmt [.Ident "y"] .ASSIGN [.ParenExpr (.Ident "x")]]]⟩ := h
  simp at h2

/-! ### C9 -/

theorem any_flatMap_eq {α β : Type} (l : List α) (g : α → List β) (p : β → Bool) :
    (l.flatMap g).any p = l.any (fun a => (g a).any p) := by
  induction l with
  | nil => rfl
  | cons a l ih => simp [List.flatMap_cons, List.any_append, ih]

theorem any_map_ident (names : List String) :
    (names.map Expr.Ident).any isStringsSelector = false := by
  induction names with
  | nil => rfl
  | cons a l ih => simp [isStringsSelector]

mutual
theorem usesStringsExpr_eq_any : ∀ e : Expr,
    usesStringsExpr e = (subExprs e).any isStringsSelector
  | .Nil => rfl
  | .Ident _ => rfl
  | .BasicLit _ _ => rfl
  | .BinaryExpr x op y => by
    simp [usesStringsExpr, subExprs, isStringsSelector, List.any_append,
      usesStringsExpr_eq_any x, usesStringsExpr_eq_any y]
  | .ParenExpr x => by
    simp [usesStringsExpr, subExprs, isStringsSelector, usesStringsExpr_eq_any x]
  | .SelectorExpr x sel => by
    have ih := usesStringsExpr_eq_any x
    cases x <;>
      simp_all [usesStringsExpr, subExprs, isStringsSelector, isStringsIdent, List.any_append]
  | .CallExpr f args => by
    simp [usesStringsExpr, subExprs, isStringsSelector, List.any_append,
      usesStringsExpr_eq_any f, usesStringsExprs_eq_any args]
theorem usesStringsExprs_eq_any : ∀ es : List Expr,
    usesStringsExprs es = (subExprsList es).any isStringsSelector
  | [] => rfl
  | e :: es => by
    simp [usesStringsExprs, subExprsList, List.any_append,
      usesStringsExpr_eq_any e, usesStringsExprs_eq_any es]
end

theorem usesStringsSpec_eq_any (spec : ValueSpec) :
    usesStringsSpec spec = (specExprs spec).any isStringsSelector := by
  simp [usesStringsSpec, specExprs, List.any_append, usesStringsExpr_eq_any,
    usesStringsExprs_eq_any, any_map_ident]

theorem any_usesStringsSpec (specs : List ValueSpec) :
    specs.any usesStringsSpec = (specs.flatMap specExprs).any isStringsSelector := by
  rw [any_flatMap_eq]
  congr 1
  funext spec
  exact usesStringsSpec_eq_any spec

mutual
theorem usesStringsStmt_eq_any : ∀ s : Stmt,
    usesStringsStmt s = (stmtExprs s).any isStringsSelector
  | .Nil => rfl
  | .ExprStmt x => by simp [usesStringsStmt, stmtExprs, usesStringsExpr_eq_any]
  | .AssignStmt lhs _ rhs => by
    simp [usesStringsStmt, stmtExprs, List.any_append, usesStringsExprs_eq_any]
  | .IncDecStmt x _ => by simp [usesStringsStmt, stmtExprs, usesStringsExpr_eq_any]
  | .DeclStmt _ specs => by
    simp only [usesStringsStmt, stmtExprs]
    exact any_usesStringsSpec specs
  | .ReturnStmt results => by simp [usesStringsStmt, stmtExprs, usesStringsExprs_eq_any]
  | .BlockStmt stmts => by
    simp [usesStringsStmt, stmtExprs, usesStringsStmts_eq_any stmts]
  | .IfStmt init cond body els => by
    simp [usesStringsStmt, stmtExprs, List.any_append, usesStringsExpr_eq_any,
      usesStringsStmt_eq_any init, usesStringsStmts_eq_any body, usesStringsStmt_eq_any els,
      Bool.or_assoc]
  | .ForStmt init cond post body => by
    simp [usesStringsStmt, stmtExprs, List.any_append, usesStringsExpr_eq_any,
      usesStringsStmt_eq_any init, usesStringsStmts_eq_any body, usesStringsStmt_eq_any post,
      Bool.or_assoc]
  | .RangeStmt key value _ x body => by
    simp [usesStringsStmt, stmtExprs, List.any_append, usesStringsExpr_eq_any,
      usesStringsStmts_eq_any body, Bool.or_assoc]
theorem usesStringsStmts_eq_any : ∀ ss : List Stmt,
    usesStringsStmts ss = (stmtsExprs ss).any isStringsSelector
  | [] => rfl
  | s :: ss => by
    simp [usesStringsStmts, stmtsExprs, List.any_append,
      usesStringsStmt_eq_any s, usesStringsStmts_eq_any ss]
end

theorem nonLoopPre_of_not_target (nodesInLoop : List Path) (p : Path) (s : Stmt)
    (h : isIdentAddAssign s = false) : nonLoopPre nodesInLoop p s = none := by
  cases s with
  | AssignStmt lhs tok rhs =>
    unfold nonLoopPre
    by_cases ht : tok = .ADD_ASSIGN
    · match lhs, h with
      | [], _ => simp
      | [e], h =>
        cases e <;> simp_all [isIdentAddAssign]
      | _ :: _ :: _, _ => simp
    · simp [ht]
  | _ => rfl

theorem nonLoopPre_of_marked (nodesInLoop : List Path) (p : Path) (s : Stmt)
    (h : nodesInLoop.contains p = true) : nonLoopPre nodesInLoop p s = none := by
  have hmem : p ∈ nodesInLoop := by simpa using h
  cases s with
  | AssignStmt lhs tok rhs =>
    simp only [nonLoopPre, h, ↓reduceIte]
    split
    · rfl
    · split <;> rfl
  | _ => rfl

mutual
theorem nonLoopStmt_fixed (T : List Path) : ∀ (s : Stmt) (p : Path) (inLoop : Bool),
    (∀ q ∈ collectStmt p s, q ∈ T) → (inLoop = true → ∀ q ∈ markStmt p s, q ∈ T) →
    targetsInLoopStmt inLoop s = true → nonLoopStmt T p s = s
  | .AssignStmt lhs tok rhs, p, inLoop, _, hm, ht => by
    have hpre : nonLoopPre T p (.AssignStmt lhs tok rhs) = none := by
      simp only [targetsInLoopStmt, Bool.or_eq_true, Bool.not_eq_true'] at ht
      rcases ht with ht | ht
      · apply nonLoopPre_of_marked
        have := hm ht p (by simp [markStmt])
        simpa using this
      · exact nonLoopPre_of_not_target T p _ ht
    simp [nonLoopStmt, hpre]
  | .BlockStmt stmts, p, inLoop, hc, hm, ht => by
    have ih := nonLoopStmts_fixed T stmts (p ++ [0]) 0 inLoop
      (fun q hq => hc q (by simpa [collectStmt] using hq))
      (fun hl q hq => hm hl q (by simp [markStmt, hq]))
      (by simpa [targetsInLoopStmt] using ht)
    simp [nonLoopStmt, nonLoopPre, ih]
  | .IfStmt init cond body els, p, inLoop, hc, hm, ht => by
    simp only [targetsInLoopStmt, Bool.and_eq_true] at ht
    have ih1 := nonLoopStmt_fixed T init (p ++ [0]) inLoop
      (fun q hq => hc q (by simp [collectStmt, hq]))
      (fun hl q hq => hm hl q (by simp [markStmt, hq])) ht.1.1
    have ih2 := nonLoopStmts_fixed T body (p ++ [2, 0]) 0 inLoop
      (fun q hq => hc q (by simp [collectStmt, hq]))
      (fun hl q hq => hm hl q (by simp [markStmt, hq])) ht.1.2
    have ih3 := nonLoopStmt_fixed T els (p ++ [3]) inLoop
      (fun q hq => hc q (by simp [collectStmt, hq]))
      (fun hl q hq => hm hl q (by simp [markStmt, hq])) ht.2
    simp [nonLoopStmt, nonLoopPre, ih1, ih2, ih3]
  | .ForStmt init cond post body, p, inLoop, hc, hm, ht => by
    simp only [targetsInLoopStmt, Bool.and_eq_true] at ht
    have ih1 := nonLoopStmt_fixed T init (p ++ [0]) inLoop
      (fun q hq => hc q (by simp [collectStmt, hq]))
      (fun hl q hq => hm hl q (by simp [markStmt, hq])) ht.1.1
    have ih2 := nonLoopStmt_fixed T post (p ++ [2]) inLoop
      (fun q hq => hc q (by simp [collectStmt, hq]))
      (fun hl q hq => hm hl q (by simp [markStmt, hq])) ht.1.2
    have ih3 := nonLoopStmts_fixed T body (p ++ [3, 0]) 0 true
      (fun q hq => hc q (by simp [collectStmt, hq]))
      (fun _ q hq => hc q (by simp [collectStmt, hq])) ht.2
    simp [nonLoopStmt, nonLoopPre, ih1, ih2, ih3]
  | .RangeStmt key value tok x body, p, inLoop, hc, hm, ht => by
    have ih := nonLoopStmts_fixed T body (p ++ [3, 0]) 0 inLoop
      (fun q hq => hc q (by simpa [collectStmt] using hq))
      (fun hl q hq => hm hl q (by simp [markStmt, hq]))
      (by simpa [targetsInLoopStmt] using ht)
    simp [nonLoopStmt, nonLoopPre, ih]
  | .Nil, _, _, _, _, _ | .ExprStmt _, _, _, _, _, _ | .IncDecStmt _ _, _, _, _, _, _
  | .DeclStmt _ _, _, _, _, _, _ | .ReturnStmt _, _, _, _, _, _ => by
    simp [nonLoopStmt, nonLoopPre]
theorem nonLoopStmts_fixed (T : List Path) : ∀ (l : List Stmt) (p : Path) (i : Nat)
    (inLoop : Bool),
    (∀ q ∈ collectStmts p i l, q ∈ T) → (inLoop = true → ∀ q ∈ markStmts p i l, q ∈ T) →
    targetsInLoopStmts inLoop l = true → nonLoopStmts T p i l = l
  | [], _, _, _, _, _, _ => rfl
  | s :: ss, p, i, inLoop, hc, hm, ht => by
    simp only [targetsInLoopStmts, Bool.and_eq_true] at ht
    have ih1 := nonLoopStmt_fixed T s (p ++ [i]) inLoop
      (fun q hq => hc q (by simp [collectStmts, hq]))
      (fun hl q hq => hm hl q (by simp [markStmts, hq])) ht.1
    have ih2 := nonLoopStmts_fixed T ss p (i + 1) inLoop
      (fun q hq => hc q (by simp [collectStmts, hq]))
      (fun hl q hq => hm hl q (by simp [markStmts, hq])) ht.2
    simp [nonLoopStmts, ih1, ih2]
end

theorem nonLoopDecls_fixed (T : List Path) : ∀ (ds : List Decl) (p : Path) (i : Nat),
    (∀ q ∈ collectDecls p i ds, q ∈ T) →
    (ds.all (fun d => match d with
      | .GenDecl _ _ => true
      | .FuncDecl _ _ _ body => targetsInLoopStmts false body)) = true →
    nonLoopDecls T p i ds = ds
  | [], _, _, _, _ => rfl
  | d :: ds, p, i, hc, ht => by
    simp only [List.all_cons, Bool.and_eq_true] at ht
    have ih := nonLoopDecls_fixed T ds p (i + 1)
      (fun q hq => hc q (by simp [collectDecls, hq])) ht.2
    cases d with
    | GenDecl tok specs => simp [nonLoopDecls, nonLoopDecl, ih]
    | FuncDecl name params results body =>
      have e : p ++ [i] ++ [2, 0] = p ++ [i, 2, 0] := by simp
      have hb := nonLoopStmts_fixed T body (p ++ [i] ++ [2, 0]) 0 false
        (fun q hq => hc q (by rw [e] at hq; simp [collectDecls, collectDecl, hq]))
        (fun hl => by simp at hl) ht.1
      rw [e] at hb
      simp [nonLoopDecls, nonLoopDecl, ih, hb]

/-- C10 (untouched statements): the callback of `transformNonLoopAddAssign` leaves alone every
statement that is not a compound add-assign with exactly one left-hand target that is a plain
identifier, and every statement that the table marks as in-loop; so for every file in which
each assignment statement has an operator other than `+=`, or a left side that is not one
plain identifier, or lies inside a for-loop body, the pass with the table of
`collectNodesInForLoop` returns the tree unchanged. -/
theorem C10_untouched_statements :
    (∀ (nodesInLoop : List Path) (p : Path) (s : Stmt),
        isIdentAddAssign s = false → nonLoopPre nodesInLoop p s = none)
    ∧ (∀ (nodesInLoop : List Path) (p : Path) (s : Stmt),
        nodesInLoop.contains p = true → nonLoopPre nodesInLoop p s = none)
    ∧ (∀ f : File, targetsInLoop f = true →
        transformNonLoopAddAssign f (collectNodesInForLoop f) = f) := by
  refine ⟨nonLoopPre_of_not_target, nonLoopPre_of_marked, ?_⟩
  intro f hf
  cases f with
  | mk name imports decls =>
    simp only [transformNonLoopAddAssign, collectNodesInForLoop]
    rw [nonLoopDecls_fixed _ decls [1] 0 (fun q hq => hq) hf]

/-- C10 at the file with `func f() { y = "a"; s.f += "b"; for { x += "c" } }`. -/
theorem C10_untouched_statements_witness :
    targetsInLoop ⟨"main", [], [.FuncDecl "f" [] [] [
        .AssignStmt [.Ident "y"] .ASSIGN [strLit (ascii "a")],
        .AssignStmt [.SelectorExpr (.Ident "s") "f"] .ADD_ASSIGN [strLit (ascii "b")],
        .ForStmt .Nil .Nil .Nil [.AssignStmt [.Ident "x"] .ADD_ASSIGN [strLit (ascii "c")]]]]⟩
      = true
    ∧ transformNonLoopAddAssign ⟨"main", [], [.FuncDecl "f" [] [] [
        .AssignStmt [.Ident "y"] .ASSIGN [strLit (ascii "a")],
        .AssignStmt [.SelectorExpr (.Ident "s") "f"] .ADD_ASSIGN [strLit (ascii "b")],
        .ForStmt .Nil .Nil .Nil [.AssignStmt [.Ident "x"] .ADD_ASSIGN [strLit (ascii "c")]]]]⟩
        (collectNodesInForLoop ⟨"main", [], [.FuncDecl "f" [] [] [
        .AssignStmt [.Ident "y"] .ASSIGN [strLit (ascii "a")],
        .AssignStmt [.SelectorExpr (.Ident "s") "f"] .ADD_ASSIGN [strLit (ascii "b")],
        .ForStmt .Nil .Nil .Nil [.AssignStmt [.Ident "x"] .ADD_ASSIGN [strLit (ascii "c")]]]]⟩)
      = ⟨"main", [], [.FuncDecl "f" [] [] [
        .AssignStmt [.Ident "y"] .ASSIGN [strLit (ascii "a")],
        .AssignStmt [.SelectorExpr (.Ident "s") "f"] .ADD_ASSIGN [strLit (ascii "b")],
        .ForStmt .Nil .Nil .Nil [.AssignStmt [.Ident "x"] .ADD_ASSIGN [strLit (ascii "c")]]]]⟩ :=
  ⟨rfl, C10_untouched_statements.2.2 _ rfl⟩

/-! ### C18 -/

/-- C18 (pure-literal test agrees with flattening): for every expression `e`,
`isPureStringConcat(e)` is true if and only if every element of `flattenConcat(e)` is a
string literal (a basic literal of kind STRING). -/
theorem C18_pure_test_agrees_with_flattening (e : Expr) :
    isPureStringConcat e = true ↔ ∀ x ∈ flattenConcat e, isStringLit x = true := by
  rw [isPureStringConcat_eq_all, List.all_eq_true]

/-! ### C16 -/

theorem processParts_ne_nil (first : Bool) (part : Expr) (parts : List Expr) (i : Nat) :
    processParts first i (part :: parts) ≠ [] := by
  simp only [processParts]
  intro h
  have h1 := (List.append_eq_nil.mp h).1
  split at h1
  · simp at h1
  · split at h1
    · split at h1
      · exact flattenConcat_ne_nil _ h1
      · simp at h1
    · simp at h1

theorem processParts_not_add (first : Bool) : ∀ (parts : List Expr) (i : Nat),
    (∀ x ∈ parts, isAddition x = false) →
    ∀ x ∈ processParts first i parts, isAddition x = false
  | [], _, _, x, hx => by simp [processParts] at hx
  | part :: parts, i, h, x, hx => by
    simp only [processParts, List.mem_append] at hx
    rcases hx with hx | hx
    · split at hx
      · simp only [List.mem_singleton] at hx
        subst hx
        exact h _ (List.mem_cons_self _ _)
      · split at hx
        · split at hx
          · exact flattenConcat_not_add _ x hx
          · simp only [List.mem_singleton] at hx
            subst hx
            exact h _ (List.mem_cons_self _ _)
        · simp only [List.mem_singleton] at hx
          subst hx
          exact h _ (List.mem_cons_self _ _)
    · exact processParts_not_add first parts (i + 1)
        (fun y hy => h y (List.mem_cons_of_mem _ hy)) x hx

/-- Flattening the result of `processConcatExpr` gives back the parts it was built from. -/
theorem flattenConcat_processConcatExpr (e : Expr) (first : Bool) :
    flattenConcat (processConcatExpr e first) = processParts first 0 (flattenConcat e) := by
  unfold processConcatExpr
  apply flattenConcat_makeFlat
  · match h : flattenConcat e with
    | [] => exact absurd h (flattenConcat_ne_nil e)
    | part :: parts => exact processParts_ne_nil first part parts 0
  · exact processParts_not_add first _ 0 (flattenConcat_not_add e)

theorem chunkString_eq_makeFlat_chunkLiterals (v : GoString) :
    chunkString v = makeFlatBinaryExpr (chunkLiterals v) := rfl

theorem flattenConcat_chunkString_eq (v : GoString) (h : Trim v dquote ≠ []) :
    flattenConcat (chunkString v) = chunkLiterals v := by
  rw [chunkString_eq_makeFlat_chunkLiterals]
  apply flattenConcat_makeFlat
  · simpa [chunkLiterals] using splitChunks_ne_nil _ bufSize (by decide) h
  · intro x hx
    simp only [chunkLiterals, List.mem_map] at hx
    obtain ⟨a, _, rfl⟩ := hx
    rfl

theorem processParts_eq_replaceLeaves (first : Bool) : ∀ (parts : List Expr) (i : Nat),
    (∀ kind value, Expr.BasicLit kind value ∈ parts → kind = .STRING →
      Trim value dquote ≠ []) →
    processParts first i parts = replaceLeaves first i parts
  | [], _, _ => rfl
  | part :: parts, i, h => by
    simp only [processParts, replaceLeaves]
    rw [processParts_eq_replaceLeaves first parts (i + 1)
      (fun kind value hm hk => h kind value (List.mem_cons_of_mem _ hm) hk)]
    congr 1
    split
    · rfl
    · cases part with
      | BasicLit kind value =>
        by_cases hk : kind = .STRING
        · simp only [hk, ↓reduceIte]
          exact flattenConcat_chunkString_eq value (h kind value (List.mem_cons_self _ _) hk)
        · simp [hk]
      | _ => rfl

theorem isLeftChain_of_not_add (e : Expr) (h : isAddition e = false) : isLeftChain e = true := by
  cases e <;> simp_all [isLeftChain, isAddition]

theorem isLeftChain_foldl (l : List Expr) (h : ∀ x ∈ l, isAddition x = false) :
    ∀ e : Expr, isLeftChain e = true →
      isLeftChain (l.foldl (fun result expr => Expr.BinaryExpr result .ADD expr) e) = true := by
  induction l with
  | nil => intro e he; simpa using he
  | cons a l ih =>
    intro e he
    simp only [List.foldl_cons]
    apply ih (fun x hx => h x (List.mem_cons_of_mem _ hx))
    simp [isLeftChain, he, h a (List.mem_cons_self _ _)]

theorem isLeftChain_makeFlat (l : List Expr) (h : ∀ x ∈ l, isAddition x = false) :
    isLeftChain (makeFlatBinaryExpr l) = true := by
  cases l with
  | nil => rfl
  | cons a l =>
    simp only [makeFlatBinaryExpr]
    exact isLeftChain_foldl l (fun x hx => h x (List.mem_cons_of_mem _ hx)) a
      (isLeftChain_of_not_add a (h a (List.mem_cons_self _ _)))

/-- C16 (processConcat keeps operands and their order): for every expression `e` whose
string-literal leaves have non-empty contents, and every flag `first`,
`flattenConcat(processConcatExpr(e, first))` is the list obtained from `flattenConcat(e)` by
replacing, in place and in order, each string-literal leaf, except leaf 0 when `first` is
true, by the list of its chunk literals, and keeping every other leaf as the identical
expression; the result is a left-associative chain (no right operand of an addition of the
chain is itself an addition). -/
theorem C16_processConcat_keeps_operands (e : Expr) (first : Bool)
    (hcontent : (flattenConcat e).all hasContent = true) :
    flattenConcat (processConcatExpr e first) = replaceLeaves first 0 (flattenConcat e)
    ∧ isLeftChain (processConcatExpr e first) = true := by
  refine ⟨?_, ?_⟩
  · rw [flattenConcat_processConcatExpr]
    apply processParts_eq_replaceLeaves first _ 0
    intro kind value hm hk
    have := List.all_eq_true.mp hcontent _ hm
    simpa [hasContent, hk] using this
  · exact isLeftChain_makeFlat _ (processParts_not_add first _ 0 (flattenConcat_not_add e))

/-- C16 at `x + "The quick brown fox jumps over the lazy dog so many times." + y`, where the
literal (58 bytes) gives two chunk literals. -/
theorem C16_processConcat_keeps_operands_witness :
    (flattenConcat (.BinaryExpr (.BinaryExpr (.Ident "x") .ADD
        (strLit (ascii "The quick brown fox jumps over the lazy dog so many times."))) .ADD
        (.Ident "y"))).all hasContent = true
    ∧ flattenConcat (processConcatExpr (.BinaryExpr (.BinaryExpr (.Ident "x") .ADD
        (strLit (ascii "The quick brown fox jumps over the lazy dog so many times."))) .ADD
        (.Ident "y")) false)
      = replaceLeaves false 0 (flattenConcat (.BinaryExpr (.BinaryExpr (.Ident "x") .ADD
        (strLit (ascii "The quick brown fox jumps over the lazy dog so many times."))) .ADD
        (.Ident "y")))
    ∧ isLeftChain (processConcatExpr (.BinaryExpr (.BinaryExpr (.Ident "x") .ADD
        (strLit (ascii "The quick brown fox jumps over the lazy dog so many times."))) .ADD
        (.Ident "y")) false) = true :=
  ⟨rfl, C16_processConcat_keeps_operands _ false rfl⟩

/-! ### C20 -/

theorem splitChunks_single (c : GoString) (b : Nat) (hne : c ≠ []) (hle : c.length ≤ b) :
    splitChunks c b = [c] := by
  unfold splitChunks
  obtain ⟨n, hn⟩ : ∃ n, c.length = n + 1 := by
    cases c with
    | nil => exact absurd rfl hne
    | cons a t => exact ⟨t.length, rfl⟩
  rw [hn]
  simp only [splitChunksLoop]
  have hpos : 0 < c.length := by omega
  simp only [hpos, ↓reduceIte, Nat.zero_add, List.drop_zero, List.nil_append]
  rw [splitChunksLoop_done c b n b [_] hle]
  congr 1
  apply List.take_of_length_le
  split <;> omega


theorem stable_strLit (c : GoString) (hp : plain c = true) (hne : c ≠ [])
    (hle : c.length ≤ bufSize) : Stable (strLit c) := by
  intro kind value hx _
  simp only [strLit, Expr.BasicLit.injEq] at hx
  rw [← hx.2, flattenConcat_chunkString c hp hne, splitChunks_single c bufSize hne hle]
  rfl

theorem processParts_stable (g : Bool) : ∀ (l : List Expr) (i : Nat),
    (∀ x ∈ l, Stable x) → processParts g i l = l
  | [], _, _ => rfl
  | x :: l, i, h => by
    simp only [processParts]
    rw [processParts_stable g l (i + 1) (fun y hy => h y (List.mem_cons_of_mem _ hy))]
    have hx := h x (List.mem_cons_self _ _)
    split
    · rfl
    · cases x with
      | BasicLit kind value =>
        by_cases hk : kind = .STRING
        · simp only [hk, ↓reduceIte]
          rw [hx kind value rfl hk]
          simp [hk]
        · simp [hk]
      | _ => rfl

theorem plainStringLeaf_spec (kind : Token) (value : GoString)
    (h : plainStringLeaf (.BasicLit kind value) = true) (hk : kind = .STRING) :
    ∃ c, value = quoted c ∧ plain c = true ∧ c ≠ [] := by
  subst hk
  simp only [plainStringLeaf, bne_self_eq_false, Bool.false_or, Bool.and_eq_true, beq_iff_eq,
    Bool.not_eq_true', List.isEmpty_eq_false] at h
  exact ⟨literalContent value, h.1.1, h.1.2, by simpa using h.2⟩

/-- Every part that `processConcatExpr` makes by chunking is given back as it is when it is
chunked again. -/
theorem processParts_all_stable (f : Bool) : ∀ (parts : List Expr) (i : Nat),
    (i ≠ 0 ∨ f = false) → parts.all plainStringLeaf = true →
    ∀ x ∈ processParts f i parts, Stable x
  | [], _, _, _, x, hx => by simp [processParts] at hx
  | part :: parts, i, hi, h, x, hx => by
    simp only [List.all_cons, Bool.and_eq_true] at h
    have hcond : ¬ (i = 0 ∧ f = true) := by
      rcases hi with hi | hi
      · exact fun hh => hi hh.1
      · simp [hi]
    simp only [processParts, hcond, ↓reduceIte, List.mem_append] at hx
    rcases hx with hx | hx
    · cases part with
      | BasicLit kind value =>
        by_cases hk : kind = .STRING
        · obtain ⟨c, hv, hp, hne⟩ := plainStringLeaf_spec kind value h.1 hk
          subst hv
          simp only [hk, ↓reduceIte] at hx
          rw [flattenConcat_chunkString c hp hne] at hx
          obtain ⟨a, ha, rfl⟩ := List.mem_map.mp hx
          exact stable_strLit a (splitChunks_plain c bufSize hp a ha)
            (splitChunks_nonempty c bufSize (by decide) a ha) (splitChunks_bound c bufSize a ha)
        · simp only [hk, ↓reduceIte, List.mem_singleton] at hx
          subst hx
          intro kind' value' hx' hk'
          simp only [Expr.BasicLit.injEq] at hx'
          exact absurd (hx'.1 ▸ hk') hk
      | _ =>
        simp only [List.mem_singleton] at hx
        subst hx
        intro kind value hx'
        cases hx'
    · exact processParts_all_stable f parts (i + 1) (Or.inl (by omega)) h.2 x hx

theorem processParts_processParts (e : Expr) (f g : Bool) (hfg : g = true ∨ f = false)
    (hplain : (flattenConcat e).all plainStringLeaf = true) :
    processParts g 0 (processParts f 0 (flattenConcat e)) = processParts f 0 (flattenConcat e) := by
  cases f with
  | false =>
    exact processParts_stable g _ 0 (processParts_all_stable false _ 0 (Or.inr rfl) hplain)
  | true =>
    have hg : g = true := by simpa using hfg
    subst hg
    match h : flattenConcat e with
    | [] => rfl
    | part :: parts =>
      rw [h] at hplain
      simp only [List.all_cons, Bool.and_eq_true] at hplain
      rw [processParts_first, processParts_first]
      rw [processParts_stable true _ 1
        (processParts_all_stable true parts 1 (Or.inl (by decide)) hplain.2)]

theorem processConcatExpr_idem (e : Expr) (f g : Bool) (hfg : g = true ∨ f = false)
    (hplain : (flattenConcat e).all plainStringLeaf = true) :
    processConcatExpr (processConcatExpr e f) g = processConcatExpr e f := by
  have h1 := flattenConcat_processConcatExpr e f
  unfold processConcatExpr at h1 ⊢
  rw [h1, processParts_processParts e f g hfg hplain]

theorem makeFlat_concat (l : List Expr) (hne : l ≠ []) (x : Expr) :
    makeFlatBinaryExpr (l ++ [x]) = .BinaryExpr (makeFlatBinaryExpr l) .ADD x := by
  cases l with
  | nil => exact absurd rfl hne
  | cons a l => simp [makeFlatBinaryExpr, List.foldl_append]

theorem binaryConcatExpr_of_not_add (x : Expr) (hx : isAddition x = false)
    (hlit : isStringLit x = true) : binaryConcatExpr x = x := by
  cases x <;> simp_all [isStringLit, binaryConcatExpr, binaryConcatPre]

/-- The walk of `transformBinaryConcat` gives back a chain of operands it gives back one by
one, when chunking gives back each of them. -/
theorem binaryConcatExpr_makeFlat (l : List Expr) :
    l ≠ [] → (∀ x ∈ l, isAddition x = false) → (∀ x ∈ l, Stable x) →
    (∀ x ∈ l, binaryConcatExpr x = x) →
    binaryConcatExpr (makeFlatBinaryExpr l) = makeFlatBinaryExpr l := by
  induction l using List.reverseRecOn with
  | nil => intro h; exact absurd rfl h
  | append_singleton l x ih =>
    intro _ hadd hst hfix
    by_cases hl : l = []
    · subst hl
      simpa [makeFlatBinaryExpr] using hfix x (by simp)
    · have ih' := ih hl (fun y hy => hadd y (by simp [hy])) (fun y hy => hst y (by simp [hy]))
        (fun y hy => hfix y (by simp [hy]))
      rw [makeFlat_concat l hl x]
      by_cases hpure : isPureStringConcat (.BinaryExpr (makeFlatBinaryExpr l) .ADD x) = true
      · have hflat : flattenConcat (.BinaryExpr (makeFlatBinaryExpr l) .ADD x) = l ++ [x] := by
          rw [← makeFlat_concat l hl x]
          exact flattenConcat_makeFlat _ (by simp) hadd
        have : binaryConcatExpr (.BinaryExpr (makeFlatBinaryExpr l) .ADD x)
            = processConcatExpr (.BinaryExpr (makeFlatBinaryExpr l) .ADD x) true :=
          binaryConcatExpr_pure _ rfl hpure
        rw [this]
        unfold processConcatExpr
        rw [hflat]
        match hm : l ++ [x] with
        | [] => simp at hm
        | a :: t =>
          rw [processParts_first, processParts_stable true t 1 (fun y hy => hst y (by
            rw [hm]; exact List.mem_cons_of_mem _ hy))]
          rw [← hm, makeFlat_concat l hl x]
      · have hfx := hfix x (by simp)
        simp only [Bool.not_eq_true] at hpure
        simp [binaryConcatExpr, binaryConcatPre, hpure, ih', hfx]

theorem processParts_mem (f : Bool) : ∀ (parts : List Expr) (i : Nat),
    parts.all plainStringLeaf = true →
    ∀ x ∈ processParts f i parts, x ∈ parts ∨ isStringLit x = true
  | [], _, _, x, hx => by simp [processParts] at hx
  | part :: parts, i, h, x, hx => by
    simp only [List.all_cons, Bool.and_eq_true] at h
    simp only [processParts, List.mem_append] at hx
    rcases hx with hx | hx
    · split at hx
      · simp only [List.mem_singleton] at hx
        exact Or.inl (by simp [hx])
      · cases part with
        | BasicLit kind value =>
          by_cases hk : kind = .STRING
          · obtain ⟨c, hv, hp, hne⟩ := plainStringLeaf_spec kind value h.1 hk
            subst hv
            simp only [hk, ↓reduceIte] at hx
            rw [flattenConcat_chunkString c hp hne] at hx
            obtain ⟨a, _, rfl⟩ := List.mem_map.mp hx
            exact Or.inr rfl
          · simp only [hk, ↓reduceIte, List.mem_singleton] at hx
            exact Or.inl (by simp [hx])
        | _ =>
          simp only [List.mem_singleton] at hx
          exact Or.inl (by simp [hx])
    · rcases processParts_mem f parts (i + 1) h.2 x hx with h' | h'
      · exact Or.inl (List.mem_cons_of_mem _ h')
      · exact Or.inr h'

theorem binaryConcatExpr_stringLit (x : Expr) (h : isStringLit x = true) :
    binaryConcatExpr x = x := by
  cases x <;> simp_all [isStringLit, binaryConcatExpr, binaryConcatPre]

/-- The walk of `transformBinaryConcat` gives back the argument that a rewriter made with
`processConcatExpr(e, false)`, when it gives back every operand of `e`. -/
theorem binaryConcatExpr_processConcatExpr (e : Expr)
    (hplain : (flattenConcat e).all plainStringLeaf = true)
    (hfix : ∀ x ∈ flattenConcat e, binaryConcatExpr x = x) :
    binaryConcatExpr (processConcatExpr e false) = processConcatExpr e false := by
  unfold processConcatExpr
  apply binaryConcatExpr_makeFlat
  · match h : flattenConcat e with
    | [] => exact absurd h (flattenConcat_ne_nil e)
    | part :: parts => exact processParts_ne_nil false part parts 0
  · exact processParts_not_add false _ 0 (flattenConcat_not_add e)
  · exact processParts_all_stable false _ 0 (Or.inr rfl) hplain
  · intro x hx
    rcases processParts_mem false _ 0 hplain x hx with h | h
    · exact hfix x h
    · exact binaryConcatExpr_stringLit x h

theorem binaryConcatStmt_writeStringStmt (builderName : String) (arg : Expr) :
    binaryConcatStmt (writeStringStmt builderName arg)
      = writeStringStmt builderName (binaryConcatExpr arg) := rfl

/-- The walk of `transformBinaryConcat` on a chain of operands that chunking gives back: the
chain stays and the walk goes into each operand. -/
theorem binaryConcatExpr_makeFlat_map (l : List Expr) :
    l ≠ [] → (∀ x ∈ l, isAddition x = false) → (∀ x ∈ l, Stable x) →
    binaryConcatExpr (makeFlatBinaryExpr l) = makeFlatBinaryExpr (l.map binaryConcatExpr) := by
  induction l using List.reverseRecOn with
  | nil => intro h; exact absurd rfl h
  | append_singleton l x ih =>
    intro _ hadd hst
    by_cases hl : l = []
    · subst hl
      simp [makeFlatBinaryExpr]
    · have ih' := ih hl (fun y hy => hadd y (by simp [hy])) (fun y hy => hst y (by simp [hy]))
      have hflat : flattenConcat (.BinaryExpr (makeFlatBinaryExpr l) .ADD x) = l ++ [x] := by
        rw [← makeFlat_concat l hl x]
        exact flattenConcat_makeFlat _ (by simp) hadd
      by_cases hpure : isPureStringConcat (.BinaryExpr (makeFlatBinaryExpr l) .ADD x) = true
      · have hlits : ∀ y ∈ l ++ [x], binaryConcatExpr y = y := by
          intro y hy
          apply binaryConcatExpr_stringLit
          rw [isPureStringConcat_eq_all, hflat, List.all_eq_true] at hpure
          exact hpure y hy
        have hmap : (l ++ [x]).map binaryConcatExpr = l ++ [x] := by
          rw [List.map_congr_left hlits, List.map_id']
        rw [hmap]
        exact binaryConcatExpr_makeFlat (l ++ [x]) (by simp) hadd hst hlits
      · rw [makeFlat_concat l hl x, List.map_append, List.map_cons, List.map_nil,
          makeFlat_concat _ (by simpa using hl) _, ← ih']
        simp only [Bool.not_eq_true] at hpure
        simp [binaryConcatExpr, binaryConcatPre, hpure]

/-- C20 (re-chunking is stable): for every expression `e` whose string-literal leaves have
non-empty contents of printable ASCII without quote or backslash characters, and for all
flags `f` and `g` with `g = true` or `f = false`,
`processConcatExpr(processConcatExpr(e, f), g)` is structurally equal to
`processConcatExpr(e, f)`; hence the pure-literal pass, which runs after the standalone and
loop rewriters, does not change the chunked argument `processConcatExpr(e, false)` they
produced: it keeps the chain and every string literal of it and only walks into the other
operands, so the call `b.WriteString(processConcatExpr(e, false))` stays as it is whenever
the pass changes nothing inside the operands of `e`. -/
theorem C20_rechunking_stable (e : Expr) (f g : Bool) (hfg : g = true ∨ f = false)
    (hplain : (flattenConcat e).all plainStringLeaf = true) :
    processConcatExpr (processConcatExpr e f) g = processConcatExpr e f
    ∧ (f = false →
        binaryConcatExpr (processConcatExpr e f)
          = makeFlatBinaryExpr ((flattenConcat (processConcatExpr e f)).map binaryConcatExpr)
        ∧ (∀ x ∈ flattenConcat (processConcatExpr e f), isStringLit x = true →
            binaryConcatExpr x = x)
        ∧ ((∀ x ∈ flattenConcat e, binaryConcatExpr x = x) →
            ∀ builderName : String,
              binaryConcatStmt (writeStringStmt builderName (processConcatExpr e f))
                = writeStringStmt builderName (processConcatExpr e f))) := by
  refine ⟨processConcatExpr_idem e f g hfg hplain, ?_⟩
  intro hf
  subst hf
  refine ⟨?_, fun x _ hx => binaryConcatExpr_stringLit x hx, ?_⟩
  · rw [flattenConcat_processConcatExpr]
    unfold processConcatExpr
    apply binaryConcatExpr_makeFlat_map
    · match h : flattenConcat e with
      | [] => exact absurd h (flattenConcat_ne_nil e)
      | part :: parts => exact processParts_ne_nil false part parts 0
    · exact processParts_not_add false _ 0 (flattenConcat_not_add e)
    · exact processParts_all_stable false _ 0 (Or.inr rfl) hplain
  · intro hfix builderName
    rw [binaryConcatStmt_writeStringStmt, binaryConcatExpr_processConcatExpr e hplain hfix]

/-- C20 at `x + "The quick brown fox jumps over the lazy dog so many times."` with `f = false`
and `g = true`. -/
theorem C20_rechunking_stable_witness :
    ((true = true ∨ false = false)
      ∧ (flattenConcat (.BinaryExpr (.Ident "x") .ADD
          (strLit (ascii "The quick brown fox jumps over the lazy dog so many times.")))).all
          plainStringLeaf = true)
    ∧ processConcatExpr (processConcatExpr (.BinaryExpr (.Ident "x") .ADD
          (strLit (ascii "The quick brown fox jumps over the lazy dog so many times."))) false)
        true
      = processConcatExpr (.BinaryExpr (.Ident "x") .ADD
          (strLit (ascii "The quick brown fox jumps over the lazy dog so many times."))) false
    ∧ binaryConcatStmt (writeStringStmt "sBuilder" (processConcatExpr (.BinaryExpr (.Ident "x")
          .ADD (strLit (ascii "The quick brown fox jumps over the lazy dog so many times.")))
          false))
      = writeStringStmt "sBuilder" (processConcatExpr (.BinaryExpr (.Ident "x") .ADD
          (strLit (ascii "The quick brown fox jumps over the lazy dog so many times."))) false) :=
  have h := C20_rechunking_stable (.BinaryExpr (.Ident "x") .ADD
    (strLit (ascii "The quick brown fox jumps over the lazy dog so many times."))) false true
    (Or.inl rfl) rfl
  ⟨⟨Or.inl rfl, rfl⟩, h.1, (h.2 rfl).2.2 (by
    intro x hx
    simp only [flattenConcat, ↓reduceIte, List.singleton_append, List.mem_cons,
      List.mem_singleton, List.not_mem_nil, or_false] at hx
    rcases hx with hx | hx <;> subst hx <;> rfl) "sBuilder"⟩

/-! ### C17 -/

mutual
/-- The keys set below a statement of a tree are among the keys set for the tree. -/
theorem collectStmt_sub : ∀ (s : Stmt) (p r : Path) (tgt : Stmt), stmtAt s r = some tgt →
    ∀ k ∈ collectStmt (p ++ r) tgt, k ∈ collectStmt p s
  | s, p, [], tgt, h => by
    rw [stmtAt_nil] at h
    cases h
    simp
  | .BlockStmt stmts, p, k :: r, tgt, h => by
    by_cases hk : k = 0
    · subst hk
      simp only [stmtAt, ↓reduceIte] at h
      have ih := collectStmts_sub stmts (p ++ [0]) 0 r tgt h
      simpa [collectStmt] using ih
    · simp [stmtAt, hk] at h
  | .IfStmt init cond body els, p, k :: r, tgt, h => by
    by_cases h0 : k = 0
    · subst h0
      simp only [stmtAt, ↓reduceIte] at h
      have ih := collectStmt_sub init (p ++ [0]) r tgt h
      intro q hq
      have := ih q (by simpa using hq)
      simp [collectStmt, this]
    · by_cases h2 : k = 2
      · subst h2
        match r, h with
        | [], h => simp [stmtAt] at h
        | j :: r, h =>
          by_cases hj : j = 0
          · subst hj
            simp only [stmtAt, ↓reduceIte] at h
            simp at h
            have ih := collectStmts_sub body (p ++ [2, 0]) 0 r tgt h
            intro q hq
            have := ih q (by simpa using hq)
            simp [collectStmt, this]
          · simp [stmtAt, hj] at h
      · by_cases h3 : k = 3
        · subst h3
          simp only [stmtAt, ↓reduceIte] at h
          simp at h
          have ih := collectStmt_sub els (p ++ [3]) r tgt h
          intro q hq
          have := ih q (by simpa using hq)
          simp [collectStmt, this]
        · simp [stmtAt, h0, h2, h3] at h
  | .ForStmt init cond post body, p, k :: r, tgt, h => by
    by_cases h0 : k = 0
    · subst h0
      simp only [stmtAt, ↓reduceIte] at h
      have ih := collectStmt_sub init (p ++ [0]) r tgt h
      intro q hq
      have := ih q (by simpa using hq)
      simp [collectStmt, this]
    · by_cases h2 : k = 2
      · subst h2
        simp only [stmtAt, ↓reduceIte] at h
        simp at h
        have ih := collectStmt_sub post (p ++ [2]) r tgt h
        intro q hq
        have := ih q (by simpa using hq)
        simp [collectStmt, this]
      · by_cases h3 : k = 3
        · subst h3
          match r, h with
          | [], h => simp [stmtAt] at h
          | j :: r, h =>
            by_cases hj : j = 0
            · subst hj
              simp only [stmtAt, ↓reduceIte] at h
              simp at h
              have ih := collectStmts_sub body (p ++ [3, 0]) 0 r tgt h
              intro q hq
              have := ih q (by simpa using hq)
              simp [collectStmt, this]
            · simp [stmtAt, hj] at h
        · simp [stmtAt, h0, h2, h3] at h
  | .RangeStmt key value tok x body, p, k :: r, tgt, h => by
    by_cases h3 : k = 3
    · subst h3
      match r, h with
      | [], h => simp [stmtAt] at h
      | j :: r, h =>
        by_cases hj : j = 0
        · subst hj
          simp only [stmtAt, ↓reduceIte] at h
          have ih := collectStmts_sub body (p ++ [3, 0]) 0 r tgt h
          simpa [collectStmt] using ih
        · simp [stmtAt, hj] at h
    · simp [stmtAt, h3] at h
  | .Nil, _, _ :: _, _, h | .ExprStmt _, _, _ :: _, _, h | .AssignStmt _ _ _, _, _ :: _, _, h
  | .IncDecStmt _ _, _, _ :: _, _, h | .DeclStmt _ _, _, _ :: _, _, h
  | .ReturnStmt _, _, _ :: _, _, h => by
    simp [stmtAt] at h
theorem collectStmts_sub : ∀ (l : List Stmt) (p : Path) (i : Nat) (r : Path) (tgt : Stmt),
    stmtsAt i l r = some tgt → ∀ k ∈ collectStmt (p ++ r) tgt, k ∈ collectStmts p i l
  | [], _, _, _, _, h => by simp [stmtsAt] at h
  | _ :: _, _, _, [], _, h => by simp [stmtsAt] at h
  | s :: ss, p, i, j :: r, tgt, h => by
    by_cases hj : j = i
    · subst hj
      simp only [stmtsAt, ↓reduceIte] at h
      have ih := collectStmt_sub s (p ++ [j]) r tgt h
      intro q hq
      have := ih q (by simpa using hq)
      simp [collectStmts, this]
    · simp only [stmtsAt, hj, ↓reduceIte] at h
      have ih := collectStmts_sub ss p (i + 1) (j :: r) tgt h
      intro q hq
      simp [collectStmts, ih q hq]
end

mutual
/-- The inner `ast.Inspect` enters every statement below the statement it starts at. -/
theorem markStmt_stmtAt : ∀ (s : Stmt) (p r : Path) (t : Stmt), stmtAt s r = some t →
    t ≠ .Nil → p ++ r ∈ markStmt p s
  | s, p, [], t, h, hn => by
    rw [stmtAt_nil] at h
    cases h
    cases s <;> simp_all [markStmt]
  | .BlockStmt stmts, p, k :: r, t, h, hn => by
    by_cases hk : k = 0
    · subst hk
      simp only [stmtAt, ↓reduceIte] at h
      have ih := markStmts_stmtsAt stmts (p ++ [0]) 0 r t h hn
      simp only [List.append_assoc, List.singleton_append] at ih
      simp [markStmt, ih]
    · simp [stmtAt, hk] at h
  | .IfStmt init cond body els, p, k :: r, t, h, hn => by
    by_cases h0 : k = 0
    · subst h0
      simp only [stmtAt, ↓reduceIte] at h
      have ih := markStmt_stmtAt init (p ++ [0]) r t h hn
      simp only [List.append_assoc, List.singleton_append] at ih
      simp [markStmt, ih]
    · by_cases h2 : k = 2
      · subst h2
        match r, h with
        | [], h => simp [stmtAt] at h
        | j :: r, h =>
          by_cases hj : j = 0
          · subst hj
            simp only [stmtAt, ↓reduceIte] at h
            simp at h
            have ih := markStmts_stmtsAt body (p ++ [2, 0]) 0 r t h hn
            simp only [List.append_assoc, List.cons_append, List.nil_append] at ih
            simp [markStmt, ih]
          · simp [stmtAt, hj] at h
      · by_cases h3 : k = 3
        · subst h3
          simp only [stmtAt, ↓reduceIte] at h
          simp at h
          have ih := markStmt_stmtAt els (p ++ [3]) r t h hn
          simp only [List.append_assoc, List.singleton_append] at ih
          simp [markStmt, ih]
        · simp [stmtAt, h0, h2, h3] at h
  | .ForStmt init cond post body, p, k :: r, t, h, hn => by
    by_cases h0 : k = 0
    · subst h0
      simp only [stmtAt, ↓reduceIte] at h
      have ih := markStmt_stmtAt init (p ++ [0]) r t h hn
      simp only [List.append_assoc, List.singleton_append] at ih
      simp [markStmt, ih]
    · by_cases h2 : k = 2
      · subst h2
        simp only [stmtAt, ↓reduceIte] at h
        simp at h
        have ih := markStmt_stmtAt post (p ++ [2]) r t h hn
        simp only [List.append_assoc, List.singleton_append] at ih
        simp [markStmt, ih]
      · by_cases h3 : k = 3
        · subst h3
          match r, h with
          | [], h => simp [stmtAt] at h
          | j :: r, h =>
            by_cases hj : j = 0
            · subst hj
              simp only [stmtAt, ↓reduceIte] at h
              simp at h
              have ih := markStmts_stmtsAt body (p ++ [3, 0]) 0 r t h hn
              simp only [List.append_assoc, List.cons_append, List.nil_append] at ih
              simp [markStmt, ih]
            · simp [stmtAt, hj] at h
        · simp [stmtAt, h0, h2, h3] at h
  | .RangeStmt key value tok x body, p, k :: r, t, h, hn => by
    by_cases h3 : k = 3
    · subst h3
      match r, h with
      | [], h => simp [stmtAt] at h
      | j :: r, h =>
        by_cases hj : j = 0
        · subst hj
          simp only [stmtAt, ↓reduceIte] at h
          have ih := markStmts_stmtsAt body (p ++ [3, 0]) 0 r t h hn
          simp only [List.append_assoc, List.cons_append, List.nil_append] at ih
          simp [markStmt, ih]
        · simp [stmtAt, hj] at h
    · simp [stmtAt, h3] at h
  | .Nil, _, _ :: _, _, h, _ | .ExprStmt _, _, _ :: _, _, h, _
  | .AssignStmt _ _ _, _, _ :: _, _, h, _ | .IncDecStmt _ _, _, _ :: _, _, h, _
  | .DeclStmt _ _, _, _ :: _, _, h, _ | .ReturnStmt _, _, _ :: _, _, h, _ => by
    simp [stmtAt] at h
theorem markStmts_stmtsAt : ∀ (l : List Stmt) (p : Path) (i : Nat) (r : Path) (t : Stmt),
    stmtsAt i l r = some t → t ≠ .Nil → p ++ r ∈ markStmts p i l
  | [], _, _, _, _, h, _ => by simp [stmtsAt] at h
  | _ :: _, _, _, [], _, h, _ => by simp [stmtsAt] at h
  | s :: ss, p, i, j :: r, t, h, hn => by
    by_cases hj : j = i
    · subst hj
      simp only [stmtsAt, ↓reduceIte] at h
      have ih := markStmt_stmtAt s (p ++ [j]) r t h hn
      simp only [List.append_assoc, List.singleton_append] at ih
      simp [markStmts, ih]
    · simp only [stmtsAt, hj, ↓reduceIte] at h
      have ih := markStmts_stmtsAt ss p (i + 1) (j :: r) t h hn
      simp [markStmts, ih]
end

mutual
/-- Every statement that lies inside the body of a `for` statement is a key of the table. -/
theorem collectStmt_of_inForBody : ∀ (s : Stmt) (p r : Path) (t : Stmt), stmtAt s r = some t →
    t ≠ .Nil → inForBodyStmt s r = true → p ++ r ∈ collectStmt p s
  | s, p, [], t, _, _, hin => by
    cases s <;> simp [inForBodyStmt] at hin
  | .BlockStmt stmts, p, k :: r, t, h, hn, hin => by
    by_cases hk : k = 0
    · subst hk
      simp only [stmtAt, ↓reduceIte] at h
      simp only [inForBodyStmt, ↓reduceIte] at hin
      have ih := collectStmts_of_inForBody stmts (p ++ [0]) 0 r t h hn hin
      simp only [List.append_assoc, List.singleton_append] at ih
      simp [collectStmt, ih]
    · simp [stmtAt, hk] at h
  | .IfStmt init cond body els, p, k :: r, t, h, hn, hin => by
    by_cases h0 : k = 0
    · subst h0
      simp only [stmtAt, ↓reduceIte] at h
      simp only [inForBodyStmt, ↓reduceIte] at hin
      have ih := collectStmt_of_inForBody init (p ++ [0]) r t h hn hin
      simp only [List.append_assoc, List.singleton_append] at ih
      simp [collectStmt, ih]
    · by_cases h2 : k = 2
      · subst h2
        match r, h, hin with
        | [], h, _ => simp [stmtAt] at h
        | j :: r, h, hin =>
          by_cases hj : j = 0
          · subst hj
            simp only [stmtAt, ↓reduceIte] at h
            simp only [inForBodyStmt, ↓reduceIte] at hin
            simp at h hin
            have ih := collectStmts_of_inForBody body (p ++ [2, 0]) 0 r t h hn hin
            simp only [List.append_assoc, List.cons_append, List.nil_append] at ih
            simp [collectStmt, ih]
          · simp [stmtAt, hj] at h
      · by_cases h3 : k = 3
        · subst h3
          simp only [stmtAt, ↓reduceIte] at h
          simp only [inForBodyStmt, ↓reduceIte] at hin
          simp at h hin
          have ih := collectStmt_of_inForBody els (p ++ [3]) r t h hn hin
          simp only [List.append_assoc, List.singleton_append] at ih
          simp [collectStmt, ih]
        · simp [stmtAt, h0, h2, h3] at h
  | .ForStmt init cond post body, p, k :: r, t, h, hn, hin => by
    by_cases h0 : k = 0
    · subst h0
      simp only [stmtAt, ↓reduceIte] at h
      simp only [inForBodyStmt, ↓reduceIte] at hin
      have ih := collectStmt_of_inForBody init (p ++ [0]) r t h hn hin
      simp only [List.append_assoc, List.singleton_append] at ih
      simp [collectStmt, ih]
    · by_cases h2 : k = 2
      · subst h2
        simp only [stmtAt, ↓reduceIte] at h
        simp only [inForBodyStmt, ↓reduceIte] at hin
        simp at h hin
        have ih := collectStmt_of_inForBody post (p ++ [2]) r t h hn hin
        simp only [List.append_assoc, List.singleton_append] at ih
        simp [collectStmt, ih]
      · by_cases h3 : k = 3
        · subst h3
          match r, h with
          | [], h => simp [stmtAt] at h
          | j :: r, h =>
            by_cases hj : j = 0
            · subst hj
              simp only [stmtAt, ↓reduceIte] at h
              simp at h
              have hm := markStmts_stmtsAt body (p ++ [3, 0]) 0 r t h hn
              simp only [List.append_assoc, List.cons_append, List.nil_append] at hm
              simp [collectStmt, hm]
            · simp [stmtAt, hj] at h
        · simp [stmtAt, h0, h2, h3] at h
  | .RangeStmt key value tok x body, p, k :: r, t, h, hn, hin => by
    by_cases h3 : k = 3
    · subst h3
      match r, h, hin with
      | [], h, _ => simp [stmtAt] at h
      | j :: r, h, hin =>
        by_cases hj : j = 0
        · subst hj
          simp only [stmtAt, ↓reduceIte] at h
          simp only [inForBodyStmt, ↓reduceIte] at hin
          have ih := collectStmts_of_inForBody body (p ++ [3, 0]) 0 r t h hn hin
          simp only [List.append_assoc, List.cons_append, List.nil_append] at ih
          simp [collectStmt, ih]
        · simp [stmtAt, hj] at h
    · simp [stmtAt, h3] at h
  | .Nil, _, _ :: _, _, h, _, _ | .ExprStmt _, _, _ :: _, _, h, _, _
  | .AssignStmt _ _ _, _, _ :: _, _, h, _, _ | .IncDecStmt _ _, _, _ :: _, _, h, _, _
  | .DeclStmt _ _, _, _ :: _, _, h, _, _ | .ReturnStmt _, _, _ :: _, _, h, _, _ => by
    simp [stmtAt] at h
theorem collectStmts_of_inForBody : ∀ (l : List Stmt) (p : Path) (i : Nat) (r : Path)
    (t : Stmt), stmtsAt i l r = some t → t ≠ .Nil → inForBodyStmts i l r = true →
    p ++ r ∈ collectStmts p i l
  | [], _, _, _, _, h, _, _ => by simp [stmtsAt] at h
  | _ :: _, _, _, [], _, h, _, _ => by simp [stmtsAt] at h
  | s :: ss, p, i, j :: r, t, h, hn, hin => by
    by_cases hj : j = i
    · subst hj
      simp only [stmtsAt, ↓reduceIte] at h
      simp only [inForBodyStmts, ↓reduceIte] at hin
      have ih := collectStmt_of_inForBody s (p ++ [j]) r t h hn hin
      simp only [List.append_assoc, List.singleton_append] at ih
      simp [collectStmts, ih]
    · simp only [stmtsAt, hj, ↓reduceIte] at h
      simp only [inForBodyStmts, hj, ↓reduceIte] at hin
      have ih := collectStmts_of_inForBody ss p (i + 1) (j :: r) t h hn hin
      simp [collectStmts, ih]
end

theorem collectDecls_sub : ∀ (ds : List Decl) (p : Path) (i : Nat) (r : Path) (tgt : Stmt),
    declsStmtAt i ds r = some tgt → ∀ k ∈ collectStmt (p ++ r) tgt, k ∈ collectDecls p i ds
  | [], _, _, _, _, h => by simp [declsStmtAt] at h
  | _ :: _, _, _, [], _, h => by simp [declsStmtAt] at h
  | d :: ds, p, i, j :: r, tgt, h => by
    by_cases hj : j = i
    · subst hj
      simp only [declsStmtAt, ↓reduceIte] at h
      cases d with
      | GenDecl tok specs => simp [declStmtAt] at h
      | FuncDecl name params results body =>
        match r, h with
        | [], h => simp [declStmtAt] at h
        | [_], h => simp [declStmtAt] at h
        | a :: b :: r, h =>
          by_cases hab : a = 2 ∧ b = 0
          · obtain ⟨ha, hb⟩ := hab
            subst ha; subst hb
            simp only [declStmtAt, and_self, ↓reduceIte] at h
            have ih := collectStmts_sub body (p ++ [j, 2, 0]) 0 r tgt h
            intro q hq
            have := ih q (by simpa using hq)
            simp [collectDecls, collectDecl, this]
          · simp [declStmtAt, hab] at h
    · simp only [declsStmtAt, hj, ↓reduceIte] at h
      have ih := collectDecls_sub ds p (i + 1) (j :: r) tgt h
      intro q hq
      simp [collectDecls, ih q hq]

theorem collectDecls_of_inForBody : ∀ (ds : List Decl) (p : Path) (i : Nat) (r : Path)
    (t : Stmt), declsStmtAt i ds r = some t → t ≠ .Nil → declsInForBody i ds r = true →
    p ++ r ∈ collectDecls p i ds
  | [], _, _, _, _, h, _, _ => by simp [declsStmtAt] at h
  | _ :: _, _, _, [], _, h, _, _ => by simp [declsStmtAt] at h
  | d :: ds, p, i, j :: r, t, h, hn, hin => by
    by_cases hj : j = i
    · subst hj
      simp only [declsStmtAt, ↓reduceIte] at h
      simp only [declsInForBody, ↓reduceIte] at hin
      cases d with
      | GenDecl tok specs => simp [declStmtAt] at h
      | FuncDecl name params results body =>
        match r, h, hin with
        | [], h, _ => simp [declStmtAt] at h
        | [_], h, _ => simp [declStmtAt] at h
        | a :: b :: r, h, hin =>
          by_cases hab : a = 2 ∧ b = 0
          · obtain ⟨ha, hb⟩ := hab
            subst ha; subst hb
            simp only [declStmtAt, and_self, ↓reduceIte] at h
            simp only [declInForBody, and_self, ↓reduceIte] at hin
            have ih := collectStmts_of_inForBody body (p ++ [j, 2, 0]) 0 r t h hn hin
            simp only [List.append_assoc, List.cons_append, List.nil_append] at ih
            simp [collectDecls, collectDecl, ih]
          · simp [declStmtAt, hab] at h
    · simp only [declsStmtAt, hj, ↓reduceIte] at h
      simp only [declsInForBody, hj, ↓reduceIte] at hin
      have ih := collectDecls_of_inForBody ds p (i + 1) (j :: r) t h hn hin
      simp [collectDecls, ih]

/-- The keys that `collectNodesInForLoop` sets at a `for` statement of the file: the body and
every node that the inner `ast.Inspect` finds in it. -/
theorem collect_forStmt_body (f : File) (q : Path) (init : Stmt) (cond : Expr) (post : Stmt)
    (body : List Stmt) (h : fileStmtAt f q = some (.ForStmt init cond post body)) :
    ∀ k ∈ (q ++ [3]) :: markStmts (q ++ [3, 0]) 0 body, k ∈ collectNodesInForLoop f := by
  match q, h with
  | [], h => simp [fileStmtAt] at h
  | a :: r, h =>
    by_cases ha : a = 1
    · subst ha
      simp only [fileStmtAt, ↓reduceIte] at h
      have hsub := collectDecls_sub f.Decls [1] 0 r _ h
      intro k hk
      apply hsub
      simp only [collectStmt, List.mem_append]
      exact Or.inl (by simpa using hk)
    · simp [fileStmtAt, ha] at h

/-- Every statement of the file that lies inside the body of a `for` statement is a key of
the table. -/
theorem mem_collect_of_inForBody (f : File) (q : Path) (s : Stmt)
    (h : fileStmtAt f q = some s) (hn : s ≠ .Nil) (hin : fileInForBody f q = true) :
    (collectNodesInForLoop f).contains q = true := by
  match q, h, hin with
  | [], h, _ => simp [fileStmtAt] at h
  | a :: r, h, hin =>
    by_cases ha : a = 1
    · subst ha
      simp only [fileStmtAt, ↓reduceIte] at h
      simp only [fileInForBody, ↓reduceIte] at hin
      have := collectDecls_of_inForBody f.Decls [1] 0 r s h hn hin
      simpa [collectNodesInForLoop] using this
    · simp [fileStmtAt, ha] at h

/-- Every key of the table is a position inside the body of a `for` statement. -/
theorem inForBody_of_mem_collect (f : File) (k : Path) (h : k ∈ collectNodesInForLoop f) :
    fileInForBody f k = true := by
  obtain ⟨j, r, hq, _, hin⟩ := collectDecls_inForBody f.Decls [1] 0 k h
  subst hq
  simpa [fileInForBody] using hin

/-- C17, as stated, fails at a file with `func f() { for _, x := range xs { s += x } }`: the
table is empty, so neither the body of the range statement nor the statement `s += x` in it
is marked. -/
theorem C17_range_body_not_marked :
    fileStmtAt ⟨"main", [], [.FuncDecl "f" [] [] [
        .RangeStmt (.Ident "_") (.Ident "x") .DEFINE (.Ident "xs")
          [.AssignStmt [.Ident "s"] .ADD_ASSIGN [.Ident "x"]]]]⟩ [1, 0, 2, 0, 0, 3, 0, 0]
      = some (.AssignStmt [.Ident "s"] .ADD_ASSIGN [.Ident "x"])
    ∧ collectNodesInForLoop ⟨"main", [], [.FuncDecl "f" [] [] [
        .RangeStmt (.Ident "_") (.Ident "x") .DEFINE (.Ident "xs")
          [.AssignStmt [.Ident "s"] .ADD_ASSIGN [.Ident "x"]]]]⟩ = []
    ∧ (collectNodesInForLoop ⟨"main", [], [.FuncDecl "f" [] [] [
        .RangeStmt (.Ident "_") (.Ident "x") .DEFINE (.Ident "xs")
          [.AssignStmt [.Ident "s"] .ADD_ASSIGN [.Ident "x"]]]]⟩).contains
        [1, 0, 2, 0, 0, 3, 0, 0] = false
    ∧ (collectNodesInForLoop ⟨"main", [], [.FuncDecl "f" [] [] [
        .RangeStmt (.Ident "_") (.Ident "x") .DEFINE (.Ident "xs")
          [.AssignStmt [.Ident "s"] .ADD_ASSIGN [.Ident "x"]]]]⟩).contains
        [1, 0, 2, 0, 0, 3] = false := by
  refine ⟨rfl, rfl, rfl, rfl⟩

/-- C17, amended: for every file tree and every `for` statement in it at any depth (a
three-clause or condition-only for statement), `collectNodesInForLoop` marks the loop's body
and every descendant node of the body as in-loop; in particular every statement that lies in
the body of a `for` statement is marked; and it marks no node that lies outside every body of
a `for` statement. -/
theorem C17_for_bodies_marked (f : File) :
    (∀ (q : Path) (init : Stmt) (cond : Expr) (post : Stmt) (body : List Stmt),
        fileStmtAt f q = some (.ForStmt init cond post body) →
        ∀ k ∈ (q ++ [3]) :: markStmts (q ++ [3, 0]) 0 body, k ∈ collectNodesInForLoop f)
    ∧ (∀ (q : Path) (s : Stmt), fileStmtAt f q = some s → s ≠ .Nil →
        fileInForBody f q = true → (collectNodesInForLoop f).contains q = true)
    ∧ (∀ k : Path, k ∈ collectNodesInForLoop f → fileInForBody f k = true) :=
  ⟨collect_forStmt_body f, mem_collect_of_inForBody f, inForBody_of_mem_collect f⟩

/-- C17, amended, at `func f() { for range xs { for c { if d { s += t } } } }`: the statement
`s += t` and the condition `d` of the `if` are marked. -/
theorem C17_for_bodies_marked_witness :
    (fileStmtAt ⟨"main", [], [.FuncDecl "f" [] [] [
        .RangeStmt .Nil .Nil .DEFINE (.Ident "xs") [.ForStmt .Nil (.Ident "c") .Nil [
          .IfStmt .Nil (.Ident "d") [.AssignStmt [.Ident "s"] .ADD_ASSIGN [.Ident "t"]]
            .Nil]]]]⟩ [1, 0, 2, 0, 0, 3, 0, 0, 3, 0, 0, 2, 0, 0]
        = some (.AssignStmt [.Ident "s"] .ADD_ASSIGN [.Ident "t"])
      ∧ Stmt.AssignStmt [.Ident "s"] .ADD_ASSIGN [.Ident "t"] ≠ .Nil
      ∧ fileInForBody ⟨"main", [], [.FuncDecl "f" [] [] [
        .RangeStmt .Nil .Nil .DEFINE (.Ident "xs") [.ForStmt .Nil (.Ident "c") .Nil [
          .IfStmt .Nil (.Ident "d") [.AssignStmt [.Ident "s"] .ADD_ASSIGN [.Ident "t"]]
            .Nil]]]]⟩ [1, 0, 2, 0, 0, 3, 0, 0, 3, 0, 0, 2, 0, 0] = true)
    ∧ (collectNodesInForLoop ⟨"main", [], [.FuncDecl "f" [] [] [
        .RangeStmt .Nil .Nil .DEFINE (.Ident "xs") [.ForStmt .Nil (.Ident "c") .Nil [
          .IfStmt .Nil (.Ident "d") [.AssignStmt [.Ident "s"] .ADD_ASSIGN [.Ident "t"]]
            .Nil]]]]⟩).contains [1, 0, 2, 0, 0, 3, 0, 0, 3, 0, 0, 2, 0, 0] = true
    ∧ [1, 0, 2, 0, 0, 3, 0, 0, 3, 0, 0, 1] ∈ collectNodesInForLoop ⟨"main", [],
        [.FuncDecl "f" [] [] [
        .RangeStmt .Nil .Nil .DEFINE (.Ident "xs") [.ForStmt .Nil (.Ident "c") .Nil [
          .IfStmt .Nil (.Ident "d") [.AssignStmt [.Ident "s"] .ADD_ASSIGN [.Ident "t"]]
            .Nil]]]]⟩ :=
  have h := C17_for_bodies_marked ⟨"main", [], [.FuncDecl "f" [] [] [
        .RangeStmt .Nil .Nil .DEFINE (.Ident "xs") [.ForStmt .Nil (.Ident "c") .Nil [
          .IfStmt .Nil (.Ident "d") [.AssignStmt [.Ident "s"] .ADD_ASSIGN [.Ident "t"]]
            .Nil]]]]⟩
  ⟨⟨rfl, by simp, rfl⟩,
    h.2.1 [1, 0, 2, 0, 0, 3, 0, 0, 3, 0, 0, 2, 0, 0] _ rfl (by simp) rfl,
    h.1 [1, 0, 2, 0, 0, 3, 0, 0] .Nil (.Ident "c") .Nil _ rfl _ (by decide)⟩

/-! ### C11, C12, C19 -/

/-- C11 (every loop target gets its accumulator), at `for { x += a; y += b }`: both statements
are rewritten to `WriteString` calls, on `xBuilder` and on `yBuilder`, but the block that
stands in the place of the loop is the one built for the last target `y`; it holds no
declaration of `xBuilder` and no assignment to `x`. -/
theorem C11_only_last_target_block_survives :
    forLoopStmt (.ForStmt .Nil .Nil .Nil [
        .AssignStmt [.Ident "x"] .ADD_ASSIGN [.Ident "a"],
        .AssignStmt [.Ident "y"] .ADD_ASSIGN [.Ident "b"]])
      = .BlockStmt [
          builderDecl "yBuilder",
          .ForStmt .Nil .Nil .Nil [
            writeStringStmt "xBuilder" (.Ident "a"),
            writeStringStmt "yBuilder" (.Ident "b")],
          .AssignStmt [.Ident "y"] .ASSIGN
            [.BinaryExpr (.Ident "y") .ADD (builderString "yBuilder")]]
    ∧ concatVarsStmts [
        .AssignStmt [.Ident "x"] .ADD_ASSIGN [.Ident "a"],
        .AssignStmt [.Ident "y"] .ADD_ASSIGN [.Ident "b"]] = ["x", "y"]
    ∧ declCountStmt "xBuilder" (forLoopStmt (.ForStmt .Nil .Nil .Nil [
        .AssignStmt [.Ident "x"] .ADD_ASSIGN [.Ident "a"],
        .AssignStmt [.Ident "y"] .ADD_ASSIGN [.Ident "b"]])) = 0
    ∧ declCountStmt "yBuilder" (forLoopStmt (.ForStmt .Nil .Nil .Nil [
        .AssignStmt [.Ident "x"] .ADD_ASSIGN [.Ident "a"],
        .AssignStmt [.Ident "y"] .ADD_ASSIGN [.Ident "b"]])) = 1
    ∧ transformForLoopConcatenation ⟨"main", [], [.FuncDecl "f" [] [] [
        .ForStmt .Nil .Nil .Nil [
          .AssignStmt [.Ident "x"] .ADD_ASSIGN [.Ident "a"],
          .AssignStmt [.Ident "y"] .ADD_ASSIGN [.Ident "b"]]]]⟩
      = ⟨"main", [], [.FuncDecl "f" [] [] [
        .BlockStmt [
          builderDecl "yBuilder",
          .ForStmt .Nil .Nil .Nil [
            writeStringStmt "xBuilder" (.Ident "a"),
            writeStringStmt "yBuilder" (.Ident "b")],
          .AssignStmt [.Ident "y"] .ASSIGN
            [.BinaryExpr (.Ident "y") .ADD (builderString "yBuilder")]]]]⟩ := by
  refine ⟨rfl, rfl, by decide, by decide, rfl⟩

/-- C12 (every matching in-body statement is rewritten), at `for { if c { x += a } }`: `x` is
collected as a target, the loop is wrapped, and the statement `x += a` in the nested block
stays as it is. -/
theorem C12_nested_statement_not_rewritten :
    concatVarsStmts [
        .IfStmt .Nil (.Ident "c") [.AssignStmt [.Ident "x"] .ADD_ASSIGN [.Ident "a"]] .Nil]
      = ["x"]
    ∧ forLoopStmt (.ForStmt .Nil .Nil .Nil [
        .IfStmt .Nil (.Ident "c") [.AssignStmt [.Ident "x"] .ADD_ASSIGN [.Ident "a"]] .Nil])
      = .BlockStmt [
          builderDecl "xBuilder",
          .ForStmt .Nil .Nil .Nil [
            .IfStmt .Nil (.Ident "c") [.AssignStmt [.Ident "x"] .ADD_ASSIGN [.Ident "a"]] .Nil],
          .AssignStmt [.Ident "x"] .ASSIGN
            [.BinaryExpr (.Ident "x") .ADD (builderString "xBuilder")]]
    ∧ hasAddAssignStmt (forLoopStmt (.ForStmt .Nil .Nil .Nil [
        .IfStmt .Nil (.Ident "c") [.AssignStmt [.Ident "x"] .ADD_ASSIGN [.Ident "a"]] .Nil]))
      = true
    ∧ transformForLoopConcatenation ⟨"main", [], [.FuncDecl "f" [] [] [
        .ForStmt .Nil .Nil .Nil [
          .IfStmt .Nil (.Ident "c") [.AssignStmt [.Ident "x"] .ADD_ASSIGN [.Ident "a"]]
            .Nil]]]⟩
      = ⟨"main", [], [.FuncDecl "f" [] [] [
        .BlockStmt [
          builderDecl "xBuilder",
          .ForStmt .Nil .Nil .Nil [
            .IfStmt .Nil (.Ident "c") [.AssignStmt [.Ident "x"] .ADD_ASSIGN [.Ident "a"]]
              .Nil],
          .AssignStmt [.Ident "x"] .ASSIGN
            [.BinaryExpr (.Ident "x") .ADD (builderString "xBuilder")]]]]⟩ := by
  refine ⟨rfl, rfl, rfl, rfl⟩

/-- C13 (the grouping normalizer removes every grouping), at a file with the statement
`y = ((((x))))`: after `removeParens` the statement is `y = ((x))`; and in general a grouping
directly inside a grouping stays, around the normalized inner expression. -/
theorem C13_nested_grouping_survives :
    removeParens ⟨"main", [], [.FuncDecl "f" [] [] [
        .AssignStmt [.Ident "y"] .ASSIGN
          [.ParenExpr (.ParenExpr (.ParenExpr (.ParenExpr (.Ident "x"))))]]]⟩
      = ⟨"main", [], [.FuncDecl "f" [] [] [
        .AssignStmt [.Ident "y"] .ASSIGN [.ParenExpr (.ParenExpr (.Ident "x"))]]]⟩
    ∧ ∀ e : Expr, removeParensExpr false (.ParenExpr (.ParenExpr e))
        = .ParenExpr (removeParensExpr false e) := by
  refine ⟨rfl, ?_⟩
  intro e
  simp [removeParensExpr]

/-- For a content of printable ASCII without quote or backslash, non-empty and of at most
`bufSize` bytes, `chunkString` gives back the literal. -/
theorem chunkString_short_plain (c : GoString) (hp : plain c = true) (hne : c ≠ [])
    (hle : c.length ≤ bufSize) : chunkString (quoted c) = strLit c := by
  rw [chunkString_quoted c hp, splitChunks_single c bufSize hne hle]
  rfl

/-- C14 (short literals survive chunking unchanged), at the literal `"a\nb"` (content of four
bytes: `a`, backslash, `n`, `b`): `chunkString` returns the literal `"a\\nb"`, whose backslash
is doubled, not the original text. -/
theorem C14_escape_sequence_requoted :
    (Trim (ascii "\"a\\nb\"") dquote).length = 4
    ∧ chunkString (ascii "\"a\\nb\"") = .BasicLit .STRING (ascii "\"a\\\\nb\"")
    ∧ chunkString (ascii "\"a\\nb\"") ≠ .BasicLit .STRING (ascii "\"a\\nb\"") := by
  refine ⟨rfl, rfl, ?_⟩
  intro h
  have h2 : Expr.BasicLit .STRING (ascii "\"a\\\\nb\"")
      = .BasicLit .STRING (ascii "\"a\\nb\"") := h
  simp only [Expr.BasicLit.injEq, true_and] at h2
  exact absurd h2 (by decide)

/-- C15 (empty literal), at the literal `""`: `chunkString` returns the absent expression, and
`processConcatExpr` applied to `x + ""` returns an addition whose right operand is absent. -/
theorem C15_empty_literal_gives_absent_operand :
    chunkString (quoted []) = Expr.Nil
    ∧ processConcatExpr (strLit []) false = Expr.Nil
    ∧ processConcatExpr (.BinaryExpr (.Ident "x") .ADD (strLit [])) false
      = .BinaryExpr (.Ident "x") .ADD .Nil
    ∧ nonLoopStmt [] [] (.AssignStmt [.Ident "s"] .ADD_ASSIGN [strLit []])
      = .BlockStmt [
          builderDecl "sBuilder",
          writeStringStmt "sBuilder" (.Ident "s"),
          writeStringStmt "sBuilder" .Nil,
          .AssignStmt [.Ident "s"] .ASSIGN [builderString "sBuilder"]] := by
  refine ⟨rfl, rfl, rfl, rfl⟩

end Convertor
